import Mathlib

/-! Queue on a circular doubly-linked list (`queue.c`).

A shallow embedding of `queue.c`: the heap is split by field (one map per
`struct list_head` field, one for the payload buffer of the enclosing
`element_t`, one for the allocation status).  Pointers are natural numbers,
`0` is `NULL`.  Every access through a pointer that is `NULL` or not allocated
is undefined behaviour and makes the operation return `none`; loops take a
fuel argument and return `none` when it runs out.  A payload is the byte
buffer `e->value`, terminator included; the string it holds is `cstr`.
-/

namespace Queue

/-! ## Memory model -/

/-- The heap, split by field.  `next a` and `prev a` are the two links of the
`struct list_head` at address `a`; `value a` is the byte buffer `e->value` of
the `element_t` whose `list` member is at `a` (this is what
`list_entry(a, element_t, list)->value` reads); `live a` tells whether `a` is
currently allocated. -/
structure Heap where
  next : Nat → Nat
  prev : Nat → Nat
  value : Nat → List Nat
  live : Nat → Bool

/-- A pointer may be dereferenced when it is not `NULL` and is allocated. -/
def Heap.valid (h : Heap) (p : Nat) : Prop := p ≠ 0 ∧ h.live p = true

instance Heap.decValid (h : Heap) (p : Nat) : Decidable (h.valid p) :=
  inferInstanceAs (Decidable (p ≠ 0 ∧ h.live p = true))

/-- The heap after the store `p->next = v`. -/
def Heap.setNext (h : Heap) (p v : Nat) : Heap :=
  { h with next := fun a => if a = p then v else h.next a }

/-- The heap after the store `p->prev = v`. -/
def Heap.setPrev (h : Heap) (p v : Nat) : Heap :=
  { h with prev := fun a => if a = p then v else h.prev a }

/-- The heap after the payload buffer of the element at `p` is filled with `v`. -/
def Heap.setValue (h : Heap) (p : Nat) (v : List Nat) : Heap :=
  { h with value := fun a => if a = p then v else h.value a }

/-- The heap after the allocation status of `p` is set to `b`. -/
def Heap.setLive (h : Heap) (p : Nat) (b : Bool) : Heap :=
  { h with live := fun a => if a = p then b else h.live a }

/-- The load `p->next`. -/
def get_next (h : Heap) (p : Nat) : Option Nat :=
  if h.valid p then some (h.next p) else none

/-- The load `p->prev`. -/
def get_prev (h : Heap) (p : Nat) : Option Nat :=
  if h.valid p then some (h.prev p) else none

/-- The load `list_entry(p, element_t, list)->value`. -/
def get_value (h : Heap) (p : Nat) : Option (List Nat) :=
  if h.valid p then some (h.value p) else none

/-- The store `p->next = v`. -/
def set_next (h : Heap) (p v : Nat) : Option Heap :=
  if h.valid p then some (h.setNext p v) else none

/-- The store `p->prev = v`. -/
def set_prev (h : Heap) (p v : Nat) : Option Heap :=
  if h.valid p then some (h.setPrev p v) else none

/-! ## C library functions used by `queue.c` -/

/-- The C string held by a byte buffer: the bytes before the first `0`; all
its bytes when the buffer holds no `0`. -/
def cstr (s : List Nat) : List Nat := s.takeWhile (fun b => b != 0)

/-- The C library `strlen` on a buffer that holds a terminator.  On a buffer
that holds none the C function reads past the end, which is undefined; this
definition then returns the length of the buffer. -/
def strlen (s : List Nat) : Nat := (cstr s).length

/-- The C library `strcmp` on byte buffers: walk both buffers while the bytes
agree and are not the terminator, return the difference of the first bytes
that differ.  The end of a buffer reads as the terminator: on buffers that
hold a terminator this is the C function, on a buffer that holds none the C
function reads past the end, which is undefined. -/
def strcmp : List Nat → List Nat → Int
  | [], [] => 0
  | [], b :: _ => - (b : Int)
  | a :: _, [] => (a : Int)
  | a :: s, b :: t => if a ≠ 0 ∧ a = b then strcmp s t else (a : Int) - (b : Int)

/-- The first `n` bytes of the destination after the C library call
`strncpy(dst, s, n)`: the string `s`, cut or padded with `0` to `n` bytes. -/
def strncpy (s : List Nat) (n : Nat) : List Nat :=
  (cstr s).take n ++ List.replicate (n - strlen s) 0

/-- Largest value of the C type `int`, which is 32 bits wide on the platforms
the program is built for (`size_t` is 64 bits wide there). -/
def INT_MAX : Nat := 2147483647

/-- Conversion of a `size_t` value to `int` (32 bits, two's complement), as in
`int len = strlen(s) + 1;`. -/
def int_of_size (x : Nat) : Int :=
  if x % 4294967296 < 2147483648 then (x % 4294967296 : Nat)
  else ((x % 4294967296 : Nat) : Int) - 4294967296

/-- Conversion of an `int` value to `size_t` (64 bits), as in `malloc(len)` and
`strncpy(e->value, s, len)`. -/
def size_of_int (i : Int) : Nat := (i % 18446744073709551616).toNat

/-- The C library `malloc` for a node: `r` is the address the allocator
offers (`0` when it has none); an offer that is `NULL` or already allocated is
a failed allocation.  Returns the heap and the pointer (`0` on failure). -/
def malloc (h : Heap) (r : Nat) : Heap × Nat :=
  if r ≠ 0 ∧ h.live r = false then (h.setLive r true, r) else (h, 0)

/-- The C library `free`: a no-op on `NULL`, undefined on a pointer that is
not allocated. -/
def free (h : Heap) (p : Nat) : Option Heap :=
  if p = 0 then some h
  else if h.live p = true then some (h.setLive p false) else none

/-! ## `list.h` -/

/-- Modelled from the spec: `INIT_LIST_HEAD` of `list.h` (not among the
sources) makes a node point to itself in both directions. -/
def INIT_LIST_HEAD (h : Heap) (p : Nat) : Option Heap := do
  let h1 ← set_next h p p
  set_prev h1 p p

/-- Modelled from the spec: `list_empty` of `list.h` (not among the sources):
a queue is empty when the sentinel points to itself. -/
def list_empty (h : Heap) (head : Nat) : Option Bool := do
  let nx ← get_next h head
  pure (decide (nx = head))

/-- Modelled from the spec: `list_add` of `list.h` (not among the sources)
splices `node` immediately after `head`. -/
def list_add (h : Heap) (node head : Nat) : Option Heap := do
  let nx ← get_next h head
  let h1 ← set_prev h nx node
  let h2 ← set_next h1 node nx
  let h3 ← set_prev h2 node head
  set_next h3 head node

/-- Modelled from the spec: `list_add_tail` of `list.h` (not among the
sources) splices `node` immediately before `head`. -/
def list_add_tail (h : Heap) (node head : Nat) : Option Heap := do
  let pv ← get_prev h head
  let h1 ← set_next h pv node
  let h2 ← set_next h1 node head
  let h3 ← set_prev h2 node pv
  set_prev h3 head node

/-- Modelled from the spec: `list_del` of `list.h` (not among the sources)
unlinks `node` by joining its two neighbours; the links stored in `node`
itself are left as they are. -/
def list_del (h : Heap) (node : Nat) : Option Heap := do
  let nx ← get_next h node
  let pv ← get_prev h node
  let h1 ← set_prev h nx pv
  set_next h1 pv nx

/-- Modelled from the spec: `list_del_init` of `list.h` (not among the
sources) unlinks `node` and leaves it pointing to itself. -/
def list_del_init (h : Heap) (node : Nat) : Option Heap := do
  let h1 ← list_del h node
  INIT_LIST_HEAD h1 node

/-! ## `queue.c` -/

/-- `q_alloc_element`: `r` is the address the allocator offers for the
element, `vok` tells whether the allocation of the payload buffer succeeds.
Returns the heap and the element (`0` for `NULL`). -/
def q_alloc_element (h : Heap) (s : List Nat) (r : Nat) (vok : Bool) :
    Option (Heap × Nat) :=
  let (h1, e) := malloc h r
  if e = 0 then some (h1, 0)
  else
    let len : Int := int_of_size (strlen s + 1)
    if vok = false then do
      let h2 ← free h1 e
      pure (h2, 0)
    else do
      let h2 ← INIT_LIST_HEAD h1 e
      pure (h2.setValue e (strncpy s (size_of_int len)), e)

/-- `q_release_element`: frees the payload buffer and the element. -/
def q_release_element (h : Heap) (e : Nat) : Option Heap :=
  if h.valid e then free h e else none

/-- `q_insert_head`. -/
def q_insert_head (h : Heap) (head : Nat) (s : List Nat) (r : Nat) (vok : Bool) :
    Option (Heap × Bool) :=
  if head = 0 then some (h, false)
  else do
    let (h1, item) ← q_alloc_element h s r vok
    if item = 0 then pure (h1, false)
    else do
      let h2 ← list_add h1 item head
      pure (h2, true)

/-- `q_insert_tail`. -/
def q_insert_tail (h : Heap) (head : Nat) (s : List Nat) (r : Nat) (vok : Bool) :
    Option (Heap × Bool) :=
  if head = 0 then some (h, false)
  else do
    let (h1, item) ← q_alloc_element h s r vok
    if item = 0 then pure (h1, false)
    else do
      let h2 ← list_add_tail h1 item head
      pure (h2, true)

/-- The loop of `q_size` (`list_for_each`): `count` is a C `int`, whose
overflow is undefined. -/
def q_size_loop : Nat → Heap → Nat → Nat → Nat → Option Nat
  | 0, _, _, _, _ => none
  | fuel + 1, h, head, node, count =>
    if node = head then some count
    else if INT_MAX < count + 1 then none
    else do
      let nx ← get_next h node
      q_size_loop fuel h head nx (count + 1)

/-- `q_size`. -/
def q_size (fuel : Nat) (h : Heap) (head : Nat) : Option Nat :=
  if head = 0 then some 0
  else do
    let first ← get_next h head
    q_size_loop fuel h head first 0

/-- The slow/fast walk of `q_delete_mid`; returns `mid`. -/
def q_delete_mid_loop : Nat → Heap → Nat → Nat → Nat → Option Nat
  | 0, _, _, _, _ => none
  | fuel + 1, h, head, mid, fast =>
    if fast = head then some mid
    else do
      let fn ← get_next h fast
      if fn = head then some mid
      else do
        let m ← get_next h mid
        let fnn ← get_next h fn
        q_delete_mid_loop fuel h head m fnn

/-- `q_delete_mid`. -/
def q_delete_mid (fuel : Nat) (h : Heap) (head : Nat) : Option (Heap × Bool) :=
  if head = 0 then some (h, false)
  else do
    let e ← list_empty h head
    if e then pure (h, false)
    else do
      let first ← get_next h head
      let mid ← q_delete_mid_loop fuel h head first first
      let h1 ← list_del h mid
      let h2 ← q_release_element h1 mid
      pure (h2, true)

/-- `q_delete_dup`: the body is the single statement `return true;`. -/
def q_delete_dup (h : Heap) (_head : Nat) : Heap × Bool := (h, true)

/-- `list_swap`. -/
def list_swap (h : Heap) (left right : Nat) : Option Heap := do
  let tmp ← get_prev h left
  let h1 ← set_next h tmp right
  let h2 ← set_prev h1 right tmp
  let h3 ← set_prev h2 left right
  let rn ← get_next h3 right
  let h4 ← set_next h3 left rn
  let h5 ← set_next h4 right left
  let ln ← get_next h5 left
  set_prev h5 ln left

/-- The loop of `q_swap`. -/
def q_swap_loop : Nat → Heap → Nat → Nat → Option Heap
  | 0, _, _, _ => none
  | fuel + 1, h, head, ptr =>
    if ptr = head then some h
    else do
      let pn ← get_next h ptr
      if pn = head then some h
      else do
        let h1 ← list_swap h ptr pn
        let p ← get_next h1 ptr
        q_swap_loop fuel h1 head p

/-- `q_swap`. -/
def q_swap (fuel : Nat) (h : Heap) (head : Nat) : Option Heap :=
  if head = 0 then some h
  else do
    let e ← list_empty h head
    if e then pure h
    else do
      let first ← get_next h head
      q_swap_loop fuel h head first

/-- The loop of `q_reverse`. -/
def q_reverse_loop : Nat → Heap → Nat → Nat → Option Heap
  | 0, _, _, _ => none
  | fuel + 1, h, head, current =>
    if current = head then some h
    else do
      let tmp ← get_prev h current
      let cn ← get_next h current
      let h1 ← set_prev h current cn
      let h2 ← set_next h1 current tmp
      let c ← get_prev h2 current
      q_reverse_loop fuel h2 head c

/-- `q_reverse`. -/
def q_reverse (fuel : Nat) (h : Heap) (head : Nat) : Option Heap :=
  if head = 0 then some h
  else do
    let e ← list_empty h head
    if e then pure h
    else do
      let first ← get_next h head
      let h1 ← q_reverse_loop fuel h head first
      let tmp ← get_next h1 head
      let hp ← get_prev h1 head
      let h2 ← set_next h1 head hp
      set_prev h2 head tmp

/-- The slow/fast walk of `merge_sort`; returns `slow`. -/
def merge_sort_split : Nat → Heap → Nat → Nat → Option Nat
  | 0, _, _, _ => none
  | fuel + 1, h, slow, fast =>
    if fast = 0 then some slow
    else do
      let fn ← get_next h fast
      if fn = 0 then some slow
      else do
        let s ← get_next h slow
        let fnn ← get_next h fn
        merge_sort_split fuel h s fnn

/-- The merge loop of `merge_sort` (`while (left && right)`), followed on exit
by the two statements after it, `if (left) ptr->next = left;` and
`if (right) ptr->next = right;`. -/
def merge_sort_loop : Nat → Heap → Nat → Nat → Nat → Option Heap
  | 0, _, _, _, _ => none
  | fuel + 1, h, ptr, left, right =>
    if left ≠ 0 ∧ right ≠ 0 then do
      let v1 ← get_value h left
      let v2 ← get_value h right
      if strcmp v1 v2 ≤ 0 then do
        let h1 ← set_next h ptr left
        let l ← get_next h1 left
        let p ← get_next h1 ptr
        merge_sort_loop fuel h1 p l right
      else do
        let h1 ← set_next h ptr right
        let r ← get_next h1 right
        let p ← get_next h1 ptr
        merge_sort_loop fuel h1 p left r
    else do
      let h1 ← if left ≠ 0 then set_next h ptr left else pure h
      if right ≠ 0 then set_next h1 ptr right else pure h1

/-- `merge_sort`: returns the heap and the first node of the sorted chain. -/
def merge_sort : Nat → Heap → Nat → Option (Heap × Nat)
  | 0, _, _ => none
  | fuel + 1, h, head =>
    if head = 0 then some (h, head)
    else do
      let hn ← get_next h head
      if hn = 0 then some (h, head)
      else do
        let slow ← merge_sort_split fuel h head head
        let sp ← get_prev h slow
        let h1 ← set_next h sp 0
        let (h2, left) ← merge_sort fuel h1 head
        let (h3, right) ← merge_sort fuel h2 slow
        let v1 ← get_value h3 left
        let v2 ← get_value h3 right
        if strcmp v1 v2 ≤ 0 then do
          let l ← get_next h3 left
          let h4 ← merge_sort_loop fuel h3 left l right
          pure (h4, left)
        else do
          let r ← get_next h3 right
          let h4 ← merge_sort_loop fuel h3 right left r
          pure (h4, right)

/-- The loop of `q_sort` that rebuilds the `prev` links; returns the heap and
the final `front`. -/
def q_sort_loop : Nat → Heap → Nat → Nat → Option (Heap × Nat)
  | 0, _, _, _ => none
  | fuel + 1, h, front, behind =>
    if behind = 0 then some (h, front)
    else do
      let h1 ← set_prev h behind front
      let b ← get_next h1 behind
      q_sort_loop fuel h1 behind b

/-- `q_sort`. -/
def q_sort (fuel : Nat) (h : Heap) (head : Nat) : Option Heap :=
  if head = 0 then some h
  else do
    let hn ← get_next h head
    if hn = 0 then some h
    else do
      let hp ← get_prev h head
      let h1 ← set_next h hp 0
      let first ← get_next h1 head
      let (h2, m) ← merge_sort fuel h1 first
      let h3 ← set_next h2 head m
      let behind ← get_next h3 head
      let (h4, front) ← q_sort_loop fuel h3 head behind
      let h5 ← set_next h4 front head
      set_prev h5 head front

/-! ## Well-formed rings -/

/-- Forward links: `p`, then the nodes of `l`, then `q`, each reached from the
one before by `next`. -/
def nextSeg (h : Heap) : Nat → List Nat → Nat → Prop
  | p, [], q => h.next p = q
  | p, a :: l, q => h.next p = a ∧ nextSeg h a l q

/-- Backward links: `p`, then the nodes of `l`, then `q`, each reaching the
one before by `prev`. -/
def prevSeg (h : Heap) : Nat → List Nat → Nat → Prop
  | p, [], q => h.prev q = p
  | p, a :: l, q => h.prev a = p ∧ prevSeg h a l q

instance nextSeg.dec (h : Heap) : (p : Nat) → (l : List Nat) → (q : Nat) →
    Decidable (nextSeg h p l q)
  | p, [], q => inferInstanceAs (Decidable (h.next p = q))
  | _, a :: l, q => @instDecidableAnd _ _ _ (nextSeg.dec h a l q)

instance prevSeg.dec (h : Heap) : (p : Nat) → (l : List Nat) → (q : Nat) →
    Decidable (prevSeg h p l q)
  | p, [], q => inferInstanceAs (Decidable (h.prev q = p))
  | _, a :: l, q => @instDecidableAnd _ _ _ (prevSeg.dec h a l q)

/-- The queue with sentinel `head` is a well-formed ring whose forward
traversal visits exactly the nodes `xs`, in this order: the sentinel and the
elements are distinct allocated nodes, following `next` from the sentinel
runs through `xs` and returns to the sentinel, and every `prev` link is the
inverse of the `next` link (`n.next.prev = n` and `n.prev.next = n`). -/
def Ring (h : Heap) (head : Nat) (xs : List Nat) : Prop :=
  (head :: xs).Nodup ∧ (∀ a ∈ head :: xs, h.valid a) ∧
    nextSeg h head xs head ∧ prevSeg h head xs head

instance Ring.dec (h : Heap) (head : Nat) (xs : List Nat) : Decidable (Ring h head xs) :=
  inferInstanceAs (Decidable ((head :: xs).Nodup ∧ (∀ a ∈ head :: xs, h.valid a) ∧
    nextSeg h head xs head ∧ prevSeg h head xs head))

/-- A queue with sentinel `1` and the three elements `2`, `3`, `4`, holding
the strings "c", "a" and "a". -/
def demoHeap : Heap where
  next := fun a => match a with
    | 1 => 2 | 2 => 3 | 3 => 4 | 4 => 1 | _ => 0
  prev := fun a => match a with
    | 1 => 4 | 2 => 1 | 3 => 2 | 4 => 3 | _ => 0
  value := fun a => match a with
    | 2 => [99, 0] | 3 => [97, 0] | 4 => [97, 0] | _ => []
  live := fun a => decide (1 ≤ a ∧ a ≤ 4)

/-- Node `x` comes before node `y` in the traversal `l`. -/
def Precedes (l : List Nat) (x y : Nat) : Prop := List.Sublist [x, y] l

/-- The payload order of `merge_sort` on nodes, for the payloads `val`:
`strcmp(a->value, b->value) <= 0`. -/
def le (val : Nat → List Nat) (a b : Nat) : Bool := decide (strcmp (val a) (val b) ≤ 0)

/-- The order in which `merge_sort` leaves a chain `l`, on lists: a chain of
fewer than two nodes is left alone; otherwise the first `l.length / 2` nodes
and the remaining ones are sorted and merged, the left run winning ties. -/
def msort (val : Nat → List Nat) : Nat → List Nat → List Nat
  | 0, l => l
  | f + 1, l =>
    if l.length < 2 then l
    else List.merge (msort val f (l.take (l.length / 2)))
      (msort val f (l.drop (l.length / 2))) (le val)

/-- A null-terminated chain: following `next` from the pointer `p` visits
exactly the nodes `l` and then reaches `NULL`. -/
def lseg (h : Heap) : Nat → List Nat → Prop
  | p, [] => p = 0
  | p, a :: l => p = a ∧ lseg h (h.next a) l

/-- The heap in which every node of `S` has its `next` and `prev` links
exchanged. -/
def Heap.swapLinks (h : Heap) (S : List Nat) : Heap :=
  { h with
    next := fun a => if a ∈ S then h.prev a else h.next a
    prev := fun a => if a ∈ S then h.next a else h.prev a }

/-- The order `[x1, x0, x3, x2, ...]`: every two adjacent elements trade
places, a last unpaired element stays. -/
def swapPairs : List Nat → List Nat
  | a :: b :: l => b :: a :: swapPairs l
  | l => l

/-- A queue with sentinel `1` and the three elements `2`, `3`, `4`, holding
the strings "a", "a" and "b": sorted, with one duplicate. -/
def sortedHeap : Heap where
  next := fun a => match a with
    | 1 => 2 | 2 => 3 | 3 => 4 | 4 => 1 | _ => 0
  prev := fun a => match a with
    | 1 => 4 | 2 => 1 | 3 => 2 | 4 => 3 | _ => 0
  value := fun a => match a with
    | 2 => [97, 0] | 3 => [97, 0] | 4 => [98, 0] | _ => []
  live := fun a => decide (1 ≤ a ∧ a ≤ 4)

/-- An empty queue: the sentinel `1` points to itself in both directions. -/
def emptyHeap : Heap where
  next := fun a => if a = 1 then 1 else 0
  prev := fun a => if a = 1 then 1 else 0
  value := fun _ => []
  live := fun a => decide (a = 1)

/-- A string of `2^32` bytes, each the letter "a". -/
def longString : List Nat := List.replicate 4294967296 97

/-- The byte-wise lexicographic order on strings: `s` is below or equal to
`t` when `s` is exhausted first, or at the first position where they differ
the byte of `s` is the smaller one. -/
def lexLe : List Nat → List Nat → Prop
  | [], _ => True
  | _ :: _, [] => False
  | a :: s, b :: t => a < b ∨ (a = b ∧ lexLe s t)

/-- The number of values of the C type `size_t` (64 bits). -/
def SIZE_MOD : Nat := 18446744073709551616

/-- The `size_t` value `x - 1` (it wraps to the largest value when `x` is 0). -/
def size_pred (x : Nat) : Nat := (x + (SIZE_MOD - 1)) % SIZE_MOD

/-- The `size_t` value `x + 1`. -/
def size_succ (x : Nat) : Nat := (x + 1) % SIZE_MOD

/-- The macro `MIN` of `queue.c`. -/
def MIN (x y : Nat) : Nat := if x < y then x else y

/-- The C library call `strncpy(sp, src, n)` on a caller's buffer holding the
bytes `sp`: the first `n` bytes are overwritten; writing past the end of the
buffer is undefined. -/
def buf_strncpy (sp src : List Nat) (n : Nat) : Option (List Nat) :=
  if n ≤ sp.length then some (strncpy src n ++ sp.drop n) else none

/-- The store `sp[i] = b` on a caller's buffer; undefined past its end. -/
def buf_store (sp : List Nat) (i b : Nat) : Option (List Nat) :=
  if i < sp.length then some (sp.set i b) else none

/-- The statements that `q_remove_head` and `q_remove_tail` share, on the
payload `v` of the removed element (`sp` is `none` for a `NULL` buffer):
`if (sp) { strncpy(sp, item->value, MIN(bufsize - 1, strlen(item->value) + 1));
sp[bufsize - 1] = 0; }`.  Returns the buffer after the call. -/
def copy_removed (sp : Option (List Nat)) (v : List Nat) (bufsize : Nat) :
    Option (Option (List Nat)) :=
  match sp with
  | none => some none
  | some buf => do
    let b1 ← buf_strncpy buf v (MIN (size_pred bufsize) (size_succ (strlen v)))
    let b2 ← buf_store b1 (size_pred bufsize) 0
    pure (some b2)

/-- `q_new`: `r` is the address the allocator offers for the sentinel.
Returns the heap and the queue (`0` for `NULL`). -/
def q_new (h : Heap) (r : Nat) : Option (Heap × Nat) :=
  let (h1, q) := malloc h r
  if q ≠ 0 then do
    let h2 ← INIT_LIST_HEAD h1 q
    pure (h2, q)
  else some (h1, q)

/-- `q_remove_head`: returns the heap, the removed element (`0` for `NULL`)
and the caller's buffer after the call. -/
def q_remove_head (h : Heap) (head : Nat) (sp : Option (List Nat)) (bufsize : Nat) :
    Option (Heap × Nat × Option (List Nat)) :=
  if head = 0 then some (h, 0, sp)
  else do
    let e ← list_empty h head
    if e then pure (h, 0, sp)
    else do
      let item ← get_next h head
      let node ← get_next h head
      let h1 ← list_del_init h node
      let v ← get_value h1 item
      let b ← copy_removed sp v bufsize
      pure (h1, item, b)

/-- `q_remove_tail`: returns the heap, the removed element (`0` for `NULL`)
and the caller's buffer after the call. -/
def q_remove_tail (h : Heap) (head : Nat) (sp : Option (List Nat)) (bufsize : Nat) :
    Option (Heap × Nat × Option (List Nat)) :=
  if head = 0 then some (h, 0, sp)
  else do
    let e ← list_empty h head
    if e then pure (h, 0, sp)
    else do
      let item ← get_prev h head
      let node ← get_prev h head
      let h1 ← list_del_init h node
      let v ← get_value h1 item
      let b ← copy_removed sp v bufsize
      pure (h1, item, b)

/-- A call of `q_remove_head` or `q_remove_tail` passes either no buffer, or a
buffer of at least `bufsize >= 1` bytes (`bufsize` being a `size_t` value). -/
def BufOK (sp : Option (List Nat)) (bufsize : Nat) : Prop :=
  match sp with
  | none => True
  | some buf => 1 ≤ bufsize ∧ bufsize ≤ buf.length ∧ bufsize < SIZE_MOD

instance BufOK.dec (sp : Option (List Nat)) (bufsize : Nat) : Decidable (BufOK sp bufsize) :=
  match sp with
  | none => isTrue trivial
  | some buf => inferInstanceAs (Decidable (1 ≤ bufsize ∧ bufsize ≤ buf.length ∧
      bufsize < SIZE_MOD))


/-- A queue with sentinel `1` and the single element `2`, holding the
string "b". -/
def singleHeap : Heap where
  next := fun a => match a with
    | 1 => 2 | 2 => 1 | _ => 0
  prev := fun a => match a with
    | 1 => 2 | 2 => 1 | _ => 0
  value := fun a => match a with
    | 2 => [98, 0] | _ => []
  live := fun a => decide (1 ≤ a ∧ a ≤ 2)


/-! ## Traversals and sequences of operations -/

/-- Forward traversal as `list_for_each` does it: the nodes met from `node`
on, following `next`, until the sentinel `head` is reached. -/
def traverse_next : Nat → Heap → Nat → Nat → Option (List Nat)
  | 0, _, _, _ => none
  | fuel + 1, h, head, node =>
    if node = head then some []
    else do
      let nx ← get_next h node
      let rest ← traverse_next fuel h head nx
      pure (node :: rest)

/-- Backward traversal: the nodes met from `node` on, following `prev`, until
the sentinel `head` is reached. -/
def traverse_prev : Nat → Heap → Nat → Nat → Option (List Nat)
  | 0, _, _, _ => none
  | fuel + 1, h, head, node =>
    if node = head then some []
    else do
      let pv ← get_prev h node
      let rest ← traverse_prev fuel h head pv
      pure (node :: rest)

/-- The elements of the queue in forward order, from `head->next`. -/
def forward (fuel : Nat) (h : Heap) (head : Nat) : Option (List Nat) := do
  let first ← get_next h head
  traverse_next fuel h head first

/-- The elements of the queue in backward order, from `head->prev`. -/
def backward (fuel : Nat) (h : Heap) (head : Nat) : Option (List Nat) := do
  let last ← get_prev h head
  traverse_prev fuel h head last

/-- The two link invariants of a node: `n.next.prev = n` and
`n.prev.next = n`. -/
def Linked (h : Heap) (n : Nat) : Prop := h.prev (h.next n) = n ∧ h.next (h.prev n) = n

instance Linked.dec (h : Heap) (n : Nat) : Decidable (Linked h n) :=
  inferInstanceAs (Decidable (h.prev (h.next n) = n ∧ h.next (h.prev n) = n))

/-- Ring well-formedness in the words of the specification: forward traversal
from the sentinel returns to the sentinel, having visited `xs`, and the
sentinel and every node visited satisfy the two link invariants. -/
def WellFormed (fuel : Nat) (h : Heap) (head : Nat) (xs : List Nat) : Prop :=
  forward fuel h head = some xs ∧ ∀ n ∈ head :: xs, Linked h n

instance WellFormed.dec (fuel : Nat) (h : Heap) (head : Nat) (xs : List Nat) :
    Decidable (WellFormed fuel h head xs) :=
  inferInstanceAs (Decidable (forward fuel h head = some xs ∧ ∀ n ∈ head :: xs, Linked h n))

/-- A call of one of the operations on a queue, with its arguments and with
the answers of the allocator. -/
inductive Op where
  | insert_head (s : List Nat) (r : Nat) (vok : Bool)
  | insert_tail (s : List Nat) (r : Nat) (vok : Bool)
  | remove_head (sp : Option (List Nat)) (bufsize : Nat)
  | remove_tail (sp : Option (List Nat)) (bufsize : Nat)
  | delete_mid
  | swap
  | reverse
  | sort

/-- The buffer passed to a remove call is a proper one. -/
def Op.ok : Op → Prop
  | .remove_head sp bufsize => BufOK sp bufsize
  | .remove_tail sp bufsize => BufOK sp bufsize
  | _ => True

instance Op.decOk : (op : Op) → Decidable op.ok
  | .insert_head _ _ _ => isTrue trivial
  | .insert_tail _ _ _ => isTrue trivial
  | .remove_head sp bufsize => inferInstanceAs (Decidable (BufOK sp bufsize))
  | .remove_tail sp bufsize => inferInstanceAs (Decidable (BufOK sp bufsize))
  | .delete_mid => isTrue trivial
  | .swap => isTrue trivial
  | .reverse => isTrue trivial
  | .sort => isTrue trivial

/-- One call: the heap after it, and whether it returned true (for an insert
and for `q_delete_mid`) or an element (for a remove); the flag carries no
information for the three `void` operations. -/
def step (fuel : Nat) (h : Heap) (head : Nat) : Op → Option (Heap × Bool)
  | .insert_head s r vok => q_insert_head h head s r vok
  | .insert_tail s r vok => q_insert_tail h head s r vok
  | .remove_head sp bufsize =>
    (q_remove_head h head sp bufsize).map (fun x => (x.1, decide (x.2.1 ≠ 0)))
  | .remove_tail sp bufsize =>
    (q_remove_tail h head sp bufsize).map (fun x => (x.1, decide (x.2.1 ≠ 0)))
  | .delete_mid => q_delete_mid fuel h head
  | .swap => (q_swap fuel h head).map (fun h' => (h', true))
  | .reverse => (q_reverse fuel h head).map (fun h' => (h', true))
  | .sort => (q_sort fuel h head).map (fun h' => (h', true))

/-- The number of inserts that returned true, of removes that returned an
element, and of calls of `q_delete_mid` that returned true. -/
structure Tally where
  ins : Nat
  rem : Nat
  del : Nat

/-- The tally after one more call that returned `b`. -/
def Tally.add (t : Tally) : Op → Bool → Tally
  | .insert_head _ _ _, true => { t with ins := t.ins + 1 }
  | .insert_tail _ _ _, true => { t with ins := t.ins + 1 }
  | .remove_head _ _, true => { t with rem := t.rem + 1 }
  | .remove_tail _ _, true => { t with rem := t.rem + 1 }
  | .delete_mid, true => { t with del := t.del + 1 }
  | _, _ => t

/-- A sequence of calls on the queue `head`, keeping the tally. -/
def run (fuel : Nat) : Heap → Nat → Tally → List Op → Option (Heap × Tally)
  | h, _, t, [] => some (h, t)
  | h, head, t, op :: ops => do
    let (h', b) ← step fuel h head op
    run fuel h' head (t.add op b) ops

/-- A heap in which nothing is allocated. -/
def zeroHeap : Heap where
  next := fun _ => 0
  prev := fun _ => 0
  value := fun _ => []
  live := fun _ => false

/-- The sequence of `n` calls of `q_insert_tail` with the empty string, the
allocator offering the addresses `2`, `3`, ... in turn. -/
def manyInserts (n : Nat) : List Op :=
  (List.range' 2 n).map (fun a => Op.insert_tail [0] a true)

/-- The chain handed to a call of `merge_sort`: following `next` from `p`
visits the distinct allocated nodes `xs` and reaches `NULL`, and the `prev`
link of every node but the first points to its predecessor in the chain. -/
def SortChain (h : Heap) (p : Nat) (xs : List Nat) : Prop :=
  lseg h p xs ∧ xs.Nodup ∧ (∀ a ∈ xs, h.valid a) ∧
    List.Chain' (fun a b => h.prev b = a) xs

/-! ## The calls of `merge_sort` -/

/-- The call of `merge_sort` made by `q_sort`: the fuel handed to it, the heap
at the moment of the call and the argument `head->next`. -/
def q_sort_call (fuel : Nat) (h : Heap) (head : Nat) : Option (Nat × Heap × Nat) :=
  if head = 0 then none
  else do
    let hn ← get_next h head
    if hn = 0 then none
    else do
      let hp ← get_prev h head
      let h1 ← set_next h hp 0
      let first ← get_next h1 head
      pure (fuel, h1, first)

/-- The recursive calls made directly by the call `merge_sort fuel h head`,
in order: `merge_sort(head)` after the cut, then `merge_sort(slow)` in the
heap left by the first. -/
def merge_sort_calls : Nat → Heap → Nat → List (Nat × Heap × Nat)
  | 0, _, _ => []
  | fuel + 1, h, head =>
    if head = 0 then []
    else
      let cut : Option (Nat × Heap) := do
        let hn ← get_next h head
        if hn = 0 then none
        else do
          let slow ← merge_sort_split fuel h head head
          let sp ← get_prev h slow
          let h1 ← set_next h sp 0
          pure (slow, h1)
      match cut with
      | none => []
      | some (slow, h1) =>
        (fuel, h1, head) ::
          match merge_sort fuel h1 head with
          | none => []
          | some (h2, _) => [(fuel, h2, slow)]

/-- The call `c` of `merge_sort` is reached from the call `c0`: it is `c0` or
a recursive call made, directly or not, by `c0`. -/
def Reached (c0 c : Nat × Heap × Nat) : Prop :=
  Relation.ReflTransGen (fun a b => b ∈ merge_sort_calls a.1 a.2.1 a.2.2) c0 c

/-- The string handed to an insert is a terminated string of fewer than
`2^32 - 1` bytes, so that `q_alloc_element` stores it whole, terminator
included; nothing is asked of the other operations. -/
def Op.fits : Op → Prop
  | .insert_head s _ _ => 0 ∈ s ∧ strlen s + 1 < 4294967296
  | .insert_tail s _ _ => 0 ∈ s ∧ strlen s + 1 < 4294967296
  | _ => True

instance Op.decFits : (op : Op) → Decidable op.fits
  | .insert_head s _ _ => inferInstanceAs (Decidable (0 ∈ s ∧ strlen s + 1 < 4294967296))
  | .insert_tail s _ _ => inferInstanceAs (Decidable (0 ∈ s ∧ strlen s + 1 < 4294967296))
  | .remove_head _ _ => isTrue trivial
  | .remove_tail _ _ => isTrue trivial
  | .delete_mid => isTrue trivial
  | .swap => isTrue trivial
  | .reverse => isTrue trivial
  | .sort => isTrue trivial

/-! ## Basic facts about the memory model -/

section Basic

variable {h : Heap} {p v a : Nat}

@[simp] theorem setNext_next : (h.setNext p v).next a = if a = p then v else h.next a := rfl
@[simp] theorem setNext_prev : (h.setNext p v).prev = h.prev := rfl
@[simp] theorem setNext_value : (h.setNext p v).value = h.value := rfl
@[simp] theorem setNext_live : (h.setNext p v).live = h.live := rfl
@[simp] theorem setNext_valid : (h.setNext p v).valid a ↔ h.valid a := Iff.rfl
@[simp] theorem setPrev_prev : (h.setPrev p v).prev a = if a = p then v else h.prev a := rfl
@[simp] theorem setPrev_next : (h.setPrev p v).next = h.next := rfl
@[simp] theorem setPrev_value : (h.setPrev p v).value = h.value := rfl
@[simp] theorem setPrev_live : (h.setPrev p v).live = h.live := rfl
@[simp] theorem setPrev_valid : (h.setPrev p v).valid a ↔ h.valid a := Iff.rfl
@[simp] theorem setValue_value {s : List Nat} :
    (h.setValue p s).value a = if a = p then s else h.value a := rfl
@[simp] theorem setValue_next {s : List Nat} : (h.setValue p s).next = h.next := rfl
@[simp] theorem setValue_prev {s : List Nat} : (h.setValue p s).prev = h.prev := rfl
@[simp] theorem setValue_live {s : List Nat} : (h.setValue p s).live = h.live := rfl
@[simp] theorem setValue_valid {s : List Nat} : (h.setValue p s).valid a ↔ h.valid a := Iff.rfl
@[simp] theorem setLive_live {b : Bool} :
    (h.setLive p b).live a = if a = p then b else h.live a := rfl
@[simp] theorem setLive_next {b : Bool} : (h.setLive p b).next = h.next := rfl
@[simp] theorem setLive_prev {b : Bool} : (h.setLive p b).prev = h.prev := rfl
@[simp] theorem setLive_value {b : Bool} : (h.setLive p b).value = h.value := rfl

theorem Heap.ext_fields {h1 h2 : Heap} (hn : h1.next = h2.next) (hp : h1.prev = h2.prev)
    (hv : h1.value = h2.value) (hl : h1.live = h2.live) : h1 = h2 := by
  cases h1; cases h2; simp_all

theorem get_next_valid (hv : h.valid p) : get_next h p = some (h.next p) := by
  simp [get_next, hv]

theorem get_prev_valid (hv : h.valid p) : get_prev h p = some (h.prev p) := by
  simp [get_prev, hv]

theorem get_value_valid (hv : h.valid p) : get_value h p = some (h.value p) := by
  simp [get_value, hv]

theorem set_next_valid (hv : h.valid p) : set_next h p v = some (h.setNext p v) := by
  simp [set_next, hv]

theorem set_prev_valid (hv : h.valid p) : set_prev h p v = some (h.setPrev p v) := by
  simp [set_prev, hv]

end Basic

/-! ## Segments -/

theorem nextSeg_headD {h : Heap} {p q : Nat} {l : List Nat} (hs : nextSeg h p l q) :
    h.next p = l.headD q := by
  cases l with
  | nil => exact hs
  | cons a l => exact hs.1

theorem nextSeg_congr {h h' : Heap} : ∀ {l : List Nat} {p q : Nat},
    (∀ a ∈ p :: l, h'.next a = h.next a) → (nextSeg h' p l q ↔ nextSeg h p l q)
  | [], p, q, hf => by simp [nextSeg, hf p (by simp)]
  | a :: l, p, q, hf => by
    have ih := @nextSeg_congr h h' l a q (fun b hb => hf b (List.mem_cons_of_mem _ hb))
    simp [nextSeg, hf p (by simp), ih]

theorem prevSeg_congr {h h' : Heap} : ∀ {l : List Nat} {p q : Nat},
    (∀ a ∈ l ++ [q], h'.prev a = h.prev a) → (prevSeg h' p l q ↔ prevSeg h p l q)
  | [], p, q, hf => by simp [prevSeg, hf q (by simp)]
  | a :: l, p, q, hf => by
    have ih := @prevSeg_congr h h' l a q (fun b hb => hf b (List.mem_cons_of_mem _ hb))
    simp [prevSeg, hf a (by simp), ih]

theorem nextSeg_append {h : Heap} : ∀ {l1 : List Nat} {l2 : List Nat} {p a q : Nat},
    nextSeg h p (l1 ++ a :: l2) q ↔ nextSeg h p l1 a ∧ nextSeg h a l2 q
  | [], l2, p, a, q => by simp [nextSeg]
  | b :: l1, l2, p, a, q => by
    simp [nextSeg, @nextSeg_append h l1 l2 b a q, and_assoc]

theorem prevSeg_append {h : Heap} : ∀ {l1 : List Nat} {l2 : List Nat} {p a q : Nat},
    prevSeg h p (l1 ++ a :: l2) q ↔ prevSeg h p l1 a ∧ prevSeg h a l2 q
  | [], l2, p, a, q => by simp [prevSeg]
  | b :: l1, l2, p, a, q => by
    simp [prevSeg, @prevSeg_append h l1 l2 b a q, and_assoc]

/-- Two segments with the same ends over the same heap visit the same nodes,
as soon as neither passes through its end point. -/
theorem nextSeg_unique {h : Heap} {q : Nat} : ∀ {l1 l2 : List Nat} {p : Nat},
    nextSeg h p l1 q → nextSeg h p l2 q → q ∉ l1 → q ∉ l2 → l1 = l2
  | [], [], _, _, _, _, _ => rfl
  | [], b :: l2, p, h1, h2, _, n2 => by
    simp only [nextSeg] at h1 h2
    exact absurd (h1.symm.trans h2.1) (by simp at n2; exact n2.1)
  | a :: l1, [], p, h1, h2, n1, _ => by
    simp only [nextSeg] at h1 h2
    exact absurd (h2.symm.trans h1.1) (by simp at n1; exact n1.1)
  | a :: l1, b :: l2, p, h1, h2, n1, n2 => by
    simp only [nextSeg] at h1 h2
    have hab : a = b := h1.1.symm.trans h2.1
    subst hab
    simp only [List.mem_cons, not_or] at n1 n2
    rw [nextSeg_unique h1.2 h2.2 n1.2 n2.2]

theorem Ring.unique {h : Heap} {head : Nat} {xs ys : List Nat}
    (hx : Ring h head xs) (hy : Ring h head ys) : xs = ys :=
  nextSeg_unique hx.2.2.1 hy.2.2.1 (List.nodup_cons.1 hx.1).1 (List.nodup_cons.1 hy.1).1

/-- The links of the ring nodes are determined by the traversal: two heaps
that hold the same ring and agree elsewhere are equal. -/
theorem Ring.heap_eq {h1 h2 : Heap} {head : Nat} {xs : List Nat}
    (r1 : Ring h1 head xs) (r2 : Ring h2 head xs)
    (hn : ∀ a, a ∉ head :: xs → h1.next a = h2.next a)
    (hp : ∀ a, a ∉ head :: xs → h1.prev a = h2.prev a)
    (hv : h1.value = h2.value) (hl : h1.live = h2.live) : h1 = h2 := by
  have key1 : ∀ (l : List Nat) (p q : Nat), nextSeg h1 p l q → nextSeg h2 p l q →
      ∀ a ∈ p :: l, h1.next a = h2.next a := by
    intro l
    induction l with
    | nil =>
      intro p q s1 s2 a ha
      simp only [nextSeg] at s1 s2
      simp only [List.mem_singleton] at ha
      subst ha; rw [s1, s2]
    | cons b l ih =>
      intro p q s1 s2 a ha
      simp only [nextSeg] at s1 s2
      rcases List.mem_cons.1 ha with rfl | ha
      · rw [s1.1, s2.1]
      · exact ih b q s1.2 s2.2 a ha
  have key2 : ∀ (l : List Nat) (p q : Nat), prevSeg h1 p l q → prevSeg h2 p l q →
      ∀ a ∈ l ++ [q], h1.prev a = h2.prev a := by
    intro l
    induction l with
    | nil =>
      intro p q s1 s2 a ha
      simp only [prevSeg] at s1 s2
      simp only [List.nil_append, List.mem_singleton] at ha
      subst ha; rw [s1, s2]
    | cons b l ih =>
      intro p q s1 s2 a ha
      simp only [prevSeg] at s1 s2
      rcases List.mem_cons.1 ha with rfl | ha
      · rw [s1.1, s2.1]
      · exact ih b q s1.2 s2.2 a ha
  apply Heap.ext_fields _ _ hv hl
  · funext a
    by_cases ha : a ∈ head :: xs
    · exact key1 xs head head r1.2.2.1 r2.2.2.1 a ha
    · exact hn a ha
  · funext a
    by_cases ha : a ∈ head :: xs
    · refine key2 xs head head r1.2.2.2 r2.2.2.2 a ?_
      rcases List.mem_cons.1 ha with rfl | ha
      · simp
      · simp [ha]
    · exact hp a ha

/-! ## `q_size` -/

theorem q_size_loop_spec {h : Heap} {head : Nat} : ∀ (l : List Nat) (p count fuel : Nat),
    nextSeg h p l head → head ∉ l → (∀ a ∈ l, h.valid a) → l.length + 1 ≤ fuel →
    count ≤ INT_MAX →
    q_size_loop fuel h head (l.headD head) count =
      if count + l.length ≤ INT_MAX then some (count + l.length) else none
  | [], _, count, fuel, _, _, _, hf, hc => by
    obtain ⟨f, rfl⟩ : ∃ f, fuel = f + 1 := ⟨fuel - 1, by simp at hf; omega⟩
    simp [q_size_loop, hc]
  | a :: l, _, count, fuel, hs, hh, hv, hf, _ => by
    obtain ⟨f, rfl⟩ : ∃ f, fuel = f + 1 := ⟨fuel - 1, by simp at hf; omega⟩
    simp only [List.mem_cons, not_or] at hh
    have ha : ¬ a = head := fun e => hh.1 e.symm
    have hva : h.valid a := hv a (by simp)
    simp only [nextSeg] at hs
    simp only [List.headD_cons, q_size_loop, if_neg ha, get_next_valid hva,
      nextSeg_headD hs.2, Option.bind_eq_bind, Option.some_bind, List.length_cons]
    by_cases hc : INT_MAX < count + 1
    · rw [if_pos hc, if_neg (by omega)]
    · have ih := q_size_loop_spec l a (count + 1) f hs.2 hh.2
        (fun b hb => hv b (List.mem_cons_of_mem _ hb)) (by simp at hf; omega) (by omega)
      rw [if_neg hc, ih]
      have e : count + 1 + l.length = count + (l.length + 1) := by omega
      rw [e]

theorem q_size_spec {h : Heap} {head : Nat} {xs : List Nat} {fuel : Nat}
    (hr : Ring h head xs) (hf : xs.length + 1 ≤ fuel) :
    q_size fuel h head = if xs.length ≤ INT_MAX then some xs.length else none := by
  obtain ⟨hnd, hv, hn, -⟩ := hr
  have hh : h.valid head := hv head (by simp)
  have := q_size_loop_spec xs head 0 fuel hn (List.nodup_cons.1 hnd).1
    (fun a ha => hv a (List.mem_cons_of_mem _ ha)) hf (Nat.zero_le _)
  simp only [q_size, if_neg hh.1, get_next_valid hh, nextSeg_headD hn, Option.bind_eq_bind,
    Option.some_bind, this, Nat.zero_add]

/-! ## The payload order -/

theorem strcmp_neg : ∀ (s t : List Nat), strcmp t s = - strcmp s t
  | [], [] => by simp [strcmp]
  | [], b :: _ => by simp [strcmp]
  | a :: _, [] => by simp [strcmp]
  | a :: s, b :: t => by
    simp only [strcmp]
    by_cases h1 : a ≠ 0 ∧ a = b
    · have h2 : b ≠ 0 ∧ b = a := ⟨h1.2 ▸ h1.1, h1.2.symm⟩
      rw [if_pos h1, if_pos h2, strcmp_neg s t]
    · have h2 : ¬ (b ≠ 0 ∧ b = a) := fun h => h1 ⟨h.2 ▸ h.1, h.2.symm⟩
      rw [if_neg h1, if_neg h2]; omega

theorem strcmp_total (s t : List Nat) : strcmp s t ≤ 0 ∨ strcmp t s ≤ 0 := by
  rw [strcmp_neg s t]; omega

theorem strcmp_trans : ∀ (s t u : List Nat), strcmp s t ≤ 0 → strcmp t u ≤ 0 → strcmp s u ≤ 0
  | [], [], _, _, h2 => h2
  | [], _ :: _, [], _, _ => by simp [strcmp]
  | [], b :: _, c :: _, h1, h2 => by
    simp only [strcmp] at *
    split_ifs at h2 <;> omega
  | a :: _, [], [], h1, _ => h1
  | a :: _, [], c :: _, h1, h2 => by
    simp only [strcmp] at *
    split_ifs <;> omega
  | a :: _, b :: _, [], h1, h2 => by
    simp only [strcmp] at *
    split_ifs at h1 <;> omega
  | a :: s, b :: t, c :: u, h1, h2 => by
    simp only [strcmp] at *
    split_ifs at h1 h2 ⊢ <;> first | omega | exact strcmp_trans s t u h1 h2

theorem strcmp_self : ∀ (s : List Nat), strcmp s s = 0
  | [] => rfl
  | a :: s => by
    simp only [strcmp]
    split_ifs
    · exact strcmp_self s
    · omega

theorem le_iff {val : Nat → List Nat} {a b : Nat} :
    le val a b = true ↔ strcmp (val a) (val b) ≤ 0 := by
  simp [le]

theorem le_trans (val : Nat → List Nat) (a b c : Nat) :
    le val a b = true → le val b c = true → le val a c = true := by
  simp only [le_iff]; exact strcmp_trans _ _ _

theorem le_total (val : Nat → List Nat) (a b : Nat) :
    (le val a b || le val b a) = true := by
  simp only [Bool.or_eq_true, le_iff]; exact strcmp_total _ _

theorem le_of_value_eq {val : Nat → List Nat} {a b : Nat} (e : val a = val b) :
    le val a b = true := by
  rw [le_iff, e, strcmp_self]

theorem strcmp_cons_cons (a b : Nat) (s t : List Nat) :
    strcmp (a :: s) (b :: t) = if a ≠ 0 ∧ a = b then strcmp s t else (a : Int) - (b : Int) := by
  simp only [strcmp]

/-- The order of `strcmp` is the byte-wise lexicographic order on the strings
held by the two buffers. -/
theorem strcmp_le_iff : ∀ (s t : List Nat), strcmp s t ≤ 0 ↔ lexLe (cstr s) (cstr t)
  | [], [] => by simp [strcmp, cstr, lexLe]
  | [], b :: t => by simp [strcmp, cstr, lexLe]
  | a :: s, [] => by
    by_cases ha : a = 0
    · simp [strcmp, cstr, lexLe, ha]
    · have e : cstr (a :: s) = a :: cstr s := by simp [cstr, List.takeWhile_cons, ha]
      rw [e]
      simp only [strcmp, cstr, List.takeWhile_nil, lexLe, iff_false]
      omega
  | a :: s, b :: t => by
    have ih := strcmp_le_iff s t
    by_cases ha : a = 0
    · subst ha
      simp [strcmp, cstr, lexLe]
    · have ea : cstr (a :: s) = a :: cstr s := by simp [cstr, List.takeWhile_cons, ha]
      by_cases hb : b = 0
      · subst hb
        have eb : cstr (0 :: t) = [] := by simp [cstr]
        have hc : ¬ (a ≠ 0 ∧ a = 0) := fun h => h.1 h.2
        rw [ea, eb, strcmp_cons_cons, if_neg hc]
        simp only [lexLe, iff_false]
        omega
      · have eb : cstr (b :: t) = b :: cstr t := by simp [cstr, List.takeWhile_cons, hb]
        rw [ea, eb, strcmp_cons_cons]
        by_cases hab : a = b
        · subst hab
          have hc : a ≠ 0 ∧ a = a := ⟨ha, rfl⟩
          rw [if_pos hc]
          simp only [lexLe, lt_self_iff_false, true_and, false_or]
          exact ih
        · have hc : ¬ (a ≠ 0 ∧ a = b) := fun h => hab h.2
          rw [if_neg hc]
          simp only [lexLe, hab, false_and, or_false]
          omega

/-! ## The sorted order on lists -/

theorem msort_of_short {val : Nat → List Nat} {l : List Nat} (hl : l.length < 2) :
    ∀ f, msort val f l = l
  | 0 => rfl
  | f + 1 => by simp [msort, hl]

theorem msort_perm (val : Nat → List Nat) : ∀ (f : Nat) (l : List Nat),
    (msort val f l).Perm l
  | 0, l => List.Perm.refl l
  | f + 1, l => by
    simp only [msort]
    split_ifs with hl
    · exact List.Perm.refl l
    · refine (List.merge_perm_append (le val)).trans ?_
      refine ((msort_perm val f _).append (msort_perm val f _)).trans ?_
      rw [List.take_append_drop]

theorem msort_length (val : Nat → List Nat) (f : Nat) (l : List Nat) :
    (msort val f l).length = l.length := (msort_perm val f l).length_eq

theorem msort_sorted (val : Nat → List Nat) : ∀ (f : Nat) (l : List Nat),
    l.length ≤ f + 1 → List.Pairwise (fun a b => le val a b = true) (msort val f l)
  | 0, l, hl => by
    match l, hl with
    | [], _ => simp [msort]
    | [a], _ => simp [msort]
  | f + 1, l, hl => by
    simp only [msort]
    split_ifs with h2
    · match l, h2 with
      | [], _ => simp
      | [a], _ => simp
    · have h1 : (l.take (l.length / 2)).length ≤ f + 1 := by
        rw [List.length_take]; omega
      have h3 : (l.drop (l.length / 2)).length ≤ f + 1 := by
        rw [List.length_drop]; omega
      exact List.sorted_merge (le_trans val) (le_total val) _ _
        (msort_sorted val f _ h1) (msort_sorted val f _ h3)

theorem msort_of_sorted (val : Nat → List Nat) : ∀ (f : Nat) (l : List Nat),
    List.Pairwise (fun a b => le val a b = true) l → msort val f l = l
  | 0, _, _ => rfl
  | f + 1, l, hs => by
    simp only [msort]
    split_ifs with h2
    · rfl
    · have hs2 : List.Pairwise (fun a b => le val a b = true)
          (l.take (l.length / 2) ++ l.drop (l.length / 2)) := by
        rw [List.take_append_drop]; exact hs
      rw [List.pairwise_append] at hs2
      rw [msort_of_sorted val f _ hs2.1, msort_of_sorted val f _ hs2.2.1,
        List.merge_of_le (fun a b ha hb => hs2.2.2 a ha b hb), List.take_append_drop]

theorem sublist_merge_left (s : Nat → Nat → Bool) : ∀ (l r : List Nat),
    List.Sublist l (List.merge l r s)
  | [], r => by simp
  | a :: l, [] => by simp
  | a :: l, b :: r => by
    rw [List.cons_merge_cons]
    split_ifs
    · exact (sublist_merge_left s l (b :: r)).cons₂ a
    · exact (sublist_merge_left s (a :: l) r).cons b

theorem sublist_merge_right (s : Nat → Nat → Bool) : ∀ (l r : List Nat),
    List.Sublist r (List.merge l r s)
  | [], r => by simp
  | a :: l, [] => by simp
  | a :: l, b :: r => by
    rw [List.cons_merge_cons]
    split_ifs
    · exact (sublist_merge_right s l (b :: r)).cons a
    · exact (sublist_merge_right s (a :: l) r).cons₂ b

/-- In the merge of two sorted runs, a node of the left run comes before every
node of the right run that is not smaller. -/
theorem pair_sublist_merge (val : Nat → List Nat) {x y : Nat} (hxy : le val x y = true) :
    ∀ (l r : List Nat), List.Pairwise (fun a b => le val a b = true) l →
      x ∈ l → y ∈ r → List.Sublist [x, y] (List.merge l r (le val))
  | [], _, _, hx, _ => by simp at hx
  | _ :: _, [], _, _, hy => by simp at hy
  | a :: l, b :: r, hl, hx, hy => by
    rw [List.cons_merge_cons]
    split_ifs with hab
    · rcases List.mem_cons.1 hx with rfl | hx
      · refine List.Sublist.cons₂ x ?_
        rw [List.singleton_sublist]
        exact List.mem_merge_right _ hy
      · exact (pair_sublist_merge val hxy l (b :: r) (List.pairwise_cons.1 hl).2 hx hy).cons a
    · rcases List.mem_cons.1 hy with rfl | hy
      · exfalso
        apply hab
        rcases List.mem_cons.1 hx with rfl | hx
        · exact hxy
        · exact le_trans val _ _ _ ((List.pairwise_cons.1 hl).1 x hx) hxy
      · exact (pair_sublist_merge val hxy (a :: l) r hl hx hy).cons b

theorem msort_stable (val : Nat → List Nat) {x y : Nat} (hxy : le val x y = true) :
    ∀ (f : Nat) (l : List Nat), l.length ≤ f + 1 →
      List.Sublist [x, y] l → List.Sublist [x, y] (msort val f l)
  | 0, _, _, hs => hs
  | f + 1, l, hl, hs => by
    simp only [msort]
    split_ifs with h2
    · exact hs
    · have h1 : (l.take (l.length / 2)).length ≤ f + 1 := by
        rw [List.length_take]; omega
      have h3 : (l.drop (l.length / 2)).length ≤ f + 1 := by
        rw [List.length_drop]; omega
      rw [← List.take_append_drop (l.length / 2) l, List.sublist_append_iff] at hs
      obtain ⟨u, v, huv, hu, hv⟩ := hs
      match u, v, huv, hu, hv with
      | [], v, huv, _, hv =>
        simp only [List.nil_append] at huv
        subst huv
        exact (msort_stable val hxy f _ h3 hv).trans (sublist_merge_right _ _ _)
      | [a], v, huv, hu, hv =>
        simp only [List.singleton_append, List.cons.injEq] at huv
        obtain ⟨rfl, rfl⟩ := huv
        refine pair_sublist_merge val hxy _ _ (msort_sorted val f _ h1) ?_ ?_
        · exact (msort_perm val f _).mem_iff.2 (List.singleton_sublist.1 hu)
        · exact (msort_perm val f _).mem_iff.2 (List.singleton_sublist.1 hv)
      | [a, b], v, huv, hu, _ =>
        simp only [List.cons_append, List.nil_append, List.cons.injEq] at huv
        obtain ⟨rfl, rfl, -⟩ := huv
        exact (msort_stable val hxy f _ h1 hu).trans (sublist_merge_left _ _ _)
      | a :: b :: c :: u, v, huv, _, _ =>
        simp at huv

/-! ## Null-terminated chains -/

theorem lseg_headD {h : Heap} {p : Nat} {l : List Nat} (hs : lseg h p l) : p = l.headD 0 := by
  cases l with
  | nil => exact hs
  | cons a l => exact hs.1

theorem lseg_congr {h h' : Heap} : ∀ {l : List Nat} {p : Nat},
    (∀ a ∈ l, h'.next a = h.next a) → (lseg h' p l ↔ lseg h p l)
  | [], p, _ => by simp [lseg]
  | a :: l, p, hf => by
    have ih := @lseg_congr h h' l (h.next a) (fun b hb => hf b (List.mem_cons_of_mem _ hb))
    simp [lseg, hf a (by simp), ih]

theorem nextSeg_null {h : Heap} : ∀ {l : List Nat} {a : Nat},
    nextSeg h a l 0 ↔ lseg h (h.next a) l
  | [], a => by simp [nextSeg, lseg]
  | b :: l, a => by
    simp only [nextSeg, lseg, @nextSeg_null h l b]

/-- Storing `NULL` in the `next` link of a node cuts a chain in two. -/
theorem lseg_cut {h : Heap} {z : Nat} {r : List Nat} : ∀ {l : List Nat} {p : Nat},
    lseg h p (l ++ z :: r) → (l ++ z :: r).Nodup →
    lseg (h.setNext z 0) p (l ++ [z]) ∧ lseg (h.setNext z 0) (r.headD 0) r
  | [], p, hs, hn => by
    simp only [List.nil_append, lseg] at hs ⊢
    simp only [List.nil_append, List.nodup_cons] at hn
    refine ⟨⟨hs.1, by simp⟩, ?_⟩
    rw [lseg_congr (h := h)]
    · rw [← lseg_headD hs.2]; exact hs.2
    · intro a ha
      have : a ≠ z := fun e => hn.1 (e ▸ ha)
      simp [this]
  | b :: l, p, hs, hn => by
    simp only [List.cons_append, lseg] at hs ⊢
    simp only [List.cons_append, List.nodup_cons] at hn
    have hbz : b ≠ z := fun e => hn.1 (by simp [e])
    have ih := @lseg_cut h z r l (h.next b) hs.2 hn.2
    simp only [setNext_next, if_neg hbz]
    exact ⟨⟨hs.1, ih.1⟩, ih.2⟩

theorem merge_sort_split_spec {h : Heap} : ∀ (f m : List Nat) (slow fast fuel : Nat),
    lseg h slow m → lseg h fast f → (∀ a ∈ m, h.valid a) → (∀ a ∈ f, h.valid a) →
    f.length / 2 ≤ m.length → f.length / 2 + 1 ≤ fuel →
    merge_sort_split fuel h slow fast = some ((m.drop (f.length / 2)).headD 0)
  | [], m, slow, fast, fuel, hm, hf, _, _, _, hfuel => by
    obtain ⟨g, rfl⟩ : ∃ g, fuel = g + 1 := ⟨fuel - 1, by omega⟩
    simp only [lseg] at hf
    simp [merge_sort_split, hf, lseg_headD hm]
  | [a], m, slow, fast, fuel, hm, hf, _, hvf, _, hfuel => by
    obtain ⟨g, rfl⟩ : ∃ g, fuel = g + 1 := ⟨fuel - 1, by omega⟩
    simp only [lseg] at hf
    have hva : h.valid a := hvf a (by simp)
    obtain ⟨rfl, hn⟩ := hf
    simp [merge_sort_split, hva.1, get_next_valid hva, hn, lseg_headD hm]
  | a :: b :: f, [], slow, fast, fuel, hm, hf, _, hvf, hlen, hfuel => by
    simp only [List.length_cons, List.length_nil] at hlen
    omega
  | a :: b :: f, c :: m, slow, fast, fuel, hm, hf, hvm, hvf, hlen, hfuel => by
    obtain ⟨g, rfl⟩ : ∃ g, fuel = g + 1 := ⟨fuel - 1, by omega⟩
    simp only [lseg] at hf hm
    have hva : h.valid a := hvf a (by simp)
    have hvb : h.valid b := hvf b (by simp)
    have hvc : h.valid c := hvm c (by simp)
    obtain ⟨rfl, hab, hf⟩ := hf
    obtain ⟨rfl, hm⟩ := hm
    have e : ∀ x : Nat, (x :: b :: f).length / 2 = f.length / 2 + 1 := by
      intro x; simp only [List.length_cons]; omega
    have ih := merge_sort_split_spec f m _ _ g hm hf
      (fun x hx => hvm x (List.mem_cons_of_mem _ hx))
      (fun x hx => hvf x (List.mem_cons_of_mem _ (List.mem_cons_of_mem _ hx)))
      (by simp only [List.length_cons] at hlen; omega)
      (by simp only [List.length_cons] at hfuel; omega)
    simp only [merge_sort_split, if_neg hva.1, get_next_valid hva, hab, if_neg hvb.1,
      get_next_valid hvc, get_next_valid hvb, Option.bind_eq_bind, Option.some_bind, ih, e,
      List.drop_succ_cons]

/-! ## `merge_sort` -/

theorem merge_sort_loop_spec : ∀ (fuel : Nat) (h : Heap) (ptr left right : Nat)
    (l r : List Nat),
    lseg h left l → lseg h right r → h.valid ptr → (∀ a ∈ l ++ r, h.valid a) →
    ptr ∉ l ++ r → (l ++ r).Nodup → l.length + r.length + 1 ≤ fuel → (l ≠ [] ∨ r ≠ []) →
    ∃ h', merge_sort_loop fuel h ptr left right = some h' ∧
      lseg h' (h'.next ptr) (List.merge l r (le h.value)) ∧
      h'.prev = h.prev ∧ h'.value = h.value ∧ h'.live = h.live ∧
      ∀ a, a ∉ ptr :: (l ++ r) → h'.next a = h.next a
  | 0, _, _, _, _, _, _, _, _, _, _, _, _, hf, _ => by omega
  | fuel + 1, h, ptr, left, right, [], [], _, _, _, _, _, _, _, hne => by simp at hne
  | fuel + 1, h, ptr, left, right, [], b :: r, hl, hr, hp, hv, hnp, hnd, hf, _ => by
    simp only [lseg] at hl hr
    obtain ⟨rfl, hr⟩ := hr
    subst hl
    have hvb : h.valid right := hv right (by simp)
    refine ⟨h.setNext ptr right, ?_, ?_, rfl, rfl, rfl, ?_⟩
    · simp [merge_sort_loop, hvb.1, set_next_valid hp]
    · simp only [List.nil_merge, lseg, setNext_next, if_true, true_and]
      have hne : right ≠ ptr := fun e => hnp (by simp [e])
      rw [if_neg hne, lseg_congr (h := h)]
      · exact hr
      · intro a ha
        have : a ≠ ptr := fun e => hnp (by simp [← e, ha])
        simp [this]
    · intro a ha
      have : a ≠ ptr := fun e => ha (by simp [e])
      simp [this]
  | fuel + 1, h, ptr, left, right, a :: l, [], hl, hr, hp, hv, hnp, hnd, hf, _ => by
    simp only [lseg] at hl hr
    obtain ⟨rfl, hl⟩ := hl
    subst hr
    have hva : h.valid left := hv left (by simp)
    refine ⟨h.setNext ptr left, ?_, ?_, rfl, rfl, rfl, ?_⟩
    · simp [merge_sort_loop, hva.1, set_next_valid hp]
    · simp only [List.merge_right, lseg, setNext_next, if_true, true_and]
      have hne : left ≠ ptr := fun e => hnp (by simp [e])
      rw [if_neg hne, lseg_congr (h := h)]
      · exact hl
      · intro a ha
        have : a ≠ ptr := fun e => hnp (by simp [← e, ha])
        simp [this]
    · intro a ha
      have : a ≠ ptr := fun e => ha (by simp [e])
      simp [this]
  | fuel + 1, h, ptr, left, right, a :: l, b :: r, hl, hr, hp, hv, hnp, hnd, hf, _ => by
    simp only [lseg] at hl hr
    obtain ⟨rfl, hl⟩ := hl
    obtain ⟨rfl, hr⟩ := hr
    have hva : h.valid left := hv left (by simp)
    have hvb : h.valid right := hv right (by simp)
    have hla : left ≠ ptr := fun e => hnp (by simp [e])
    have hrb : right ≠ ptr := fun e => hnp (by simp [e])
    simp only [List.cons_append, List.nodup_cons, List.mem_append, List.mem_cons, not_or,
      List.nodup_append] at hnd hnp
    by_cases hc : strcmp (h.value left) (h.value right) ≤ 0
    · have hle : le h.value left right = true := le_iff.2 hc
      have hs1 : lseg (h.setNext ptr left) (h.next left) l := by
        rw [lseg_congr (h := h)]
        · exact hl
        · intro x hx
          have : x ≠ ptr := fun e => hnp.2.1 (e ▸ hx)
          simp [this]
      have hs2 : lseg (h.setNext ptr left) right (right :: r) := by
        rw [lseg_congr (h := h)]
        · exact ⟨rfl, hr⟩
        · intro x hx
          have : x ≠ ptr := by
            rintro rfl
            rcases List.mem_cons.1 hx with e | hx
            · exact hrb e.symm
            · exact hnp.2.2.2 hx
          simp [this]
      obtain ⟨h', e1, e2, e3, e4, e5, e6⟩ := merge_sort_loop_spec fuel (h.setNext ptr left)
        left (h.next left) right l (right :: r) hs1 hs2 hva
        (fun x hx => hv x (by simp at hx ⊢; tauto))
        (by simp; tauto) (by simp [List.nodup_append]; tauto)
        (by simp at hf ⊢; omega) (Or.inr (by simp))
      refine ⟨h', ?_, ?_, e3, e4, e5, ?_⟩
      · simp [merge_sort_loop, hva.1, hvb.1, get_value_valid hva, get_value_valid hvb, hc,
          set_next_valid hp, get_next_valid, hva, hp, hla, e1]
      · rw [List.cons_merge_cons_pos _ _ _ hle]
        refine ⟨?_, e2⟩
        rw [e6 ptr (by simp; tauto)]
        simp
      · intro x hx
        simp only [List.mem_cons, List.mem_append, not_or] at hx
        rw [e6 x (by simp; tauto)]
        simp [hx.1]
    · have hle : ¬ le h.value left right = true := fun e => hc (le_iff.1 e)
      have hs1 : lseg (h.setNext ptr right) left (left :: l) := by
        rw [lseg_congr (h := h)]
        · exact ⟨rfl, hl⟩
        · intro x hx
          have : x ≠ ptr := by
            rintro rfl
            rcases List.mem_cons.1 hx with e | hx
            · exact hla e.symm
            · exact hnp.2.1 hx
          simp [this]
      have hs2 : lseg (h.setNext ptr right) (h.next right) r := by
        rw [lseg_congr (h := h)]
        · exact hr
        · intro x hx
          have : x ≠ ptr := fun e => hnp.2.2.2 (e ▸ hx)
          simp [this]
      obtain ⟨h', e1, e2, e3, e4, e5, e6⟩ := merge_sort_loop_spec fuel (h.setNext ptr right)
        right left (h.next right) (left :: l) r hs1 hs2 hvb
        (fun x hx => hv x (by simp at hx ⊢; tauto))
        (by simp; tauto) (by simp [List.nodup_append]; tauto)
        (by simp at hf ⊢; omega) (Or.inl (by simp))
      refine ⟨h', ?_, ?_, e3, e4, e5, ?_⟩
      · simp [merge_sort_loop, hva.1, hvb.1, get_value_valid hva, get_value_valid hvb, hc,
          set_next_valid hp, get_next_valid, hvb, hp, hrb, e1]
      · rw [List.cons_merge_cons_neg _ _ _ hle]
        refine ⟨?_, e2⟩
        rw [e6 ptr (by simp; tauto)]
        simp
      · intro x hx
        simp only [List.mem_cons, List.mem_append, not_or] at hx
        rw [e6 x (by simp; tauto)]
        simp [hx.1]

theorem exists_snoc_of_length_pos {l : List Nat} (hl : 0 < l.length) :
    ∃ l0 z, l = l0 ++ [z] := by
  rcases List.eq_nil_or_concat l with rfl | ⟨l0, z, rfl⟩
  · simp at hl
  · exact ⟨l0, z, by simp⟩

theorem merge_sort_spec : ∀ (fuel : Nat) (h : Heap) (p : Nat) (xs : List Nat),
    lseg h p xs → xs.Nodup → (∀ a ∈ xs, h.valid a) →
    List.Chain' (fun a b => h.prev b = a) xs → xs.length + 1 ≤ fuel →
    ∃ h', merge_sort fuel h p = some (h', (msort h.value fuel xs).headD 0) ∧
      lseg h' ((msort h.value fuel xs).headD 0) (msort h.value fuel xs) ∧
      h'.prev = h.prev ∧ h'.value = h.value ∧ h'.live = h.live ∧
      ∀ a, a ∉ xs → h'.next a = h.next a
  | 0, _, _, _, _, _, _, _, hf => by omega
  | fuel + 1, h, p, [], hs, _, _, _, _ => by
    simp only [lseg] at hs
    subst hs
    exact ⟨h, by simp [merge_sort, msort], by simp [msort, lseg], rfl, rfl, rfl, fun _ _ => rfl⟩
  | fuel + 1, h, p, [a], hs, _, hv, _, _ => by
    simp only [lseg] at hs
    obtain ⟨rfl, hs⟩ := hs
    have hva : h.valid p := hv p (by simp)
    exact ⟨h, by simp [merge_sort, msort, hva.1, get_next_valid hva, hs],
      by simp [msort, lseg, hs], rfl, rfl, rfl, fun _ _ => rfl⟩
  | fuel + 1, h, p, a :: b :: t, hs, hnd, hv, hpc, hf => by
    -- the chain and its two halves
    obtain ⟨xs, hxs⟩ : ∃ xs, xs = a :: b :: t := ⟨_, rfl⟩
    have hn2 : 2 ≤ xs.length := by simp [hxs]
    have hva : h.valid a := hv a (by simp)
    have hvb : h.valid b := hv b (by simp)
    have hpa : p = a := hs.1
    have hab : h.next a = b := hs.2.1
    rw [← hxs] at hs hnd hv hpc hf ⊢
    obtain ⟨l0, z, hL⟩ : ∃ l0 z, xs.take (xs.length / 2) = l0 ++ [z] :=
      exists_snoc_of_length_pos (by rw [List.length_take]; omega)
    obtain ⟨s, r, hR⟩ : ∃ s r, xs.drop (xs.length / 2) = s :: r :=
      List.exists_cons_of_length_pos (by rw [List.length_drop]; omega)
    have hx : xs = l0 ++ z :: s :: r := by
      rw [← List.take_append_drop (xs.length / 2) xs, hL, hR]; simp
    have hlenL : (l0 ++ [z]).length = xs.length / 2 := by
      rw [← hL, List.length_take]; omega
    have hlenR : (s :: r).length = xs.length - xs.length / 2 := by
      rw [← hR, List.length_drop]
    have hvs : h.valid s := hv s (by rw [hx]; simp)
    have hvz : h.valid z := hv z (by rw [hx]; simp)
    -- the walk
    have hsplit : merge_sort_split fuel h a a = some s := by
      have := merge_sort_split_spec (h := h) xs xs p p fuel hs hs hv hv (by omega) (by omega)
      rw [hR] at this
      rw [← hpa]; simpa using this
    have hprev : h.prev s = z := by
      rw [hx] at hpc
      have := List.chain'_split.1 hpc
      exact (List.chain'_cons.1 this.2).1
    -- the cut
    have hnd' := hnd
    rw [hx] at hnd' hs
    obtain ⟨hc1, hc2⟩ := lseg_cut hs hnd'
    simp only [List.headD_cons] at hc2
    have hdisj : ∀ x, x ∈ l0 ++ [z] → x ∉ s :: r := by
      intro x hx1 hx2
      have : (l0 ++ [z] ++ s :: r).Nodup := by simpa using hnd'
      exact (List.nodup_append.1 this).2.2 hx1 hx2
    have hpcL : List.Chain' (fun a b => h.prev b = a) (l0 ++ [z]) := by
      rw [← hL]; exact hpc.take _
    have hpcR : List.Chain' (fun a b => h.prev b = a) (s :: r) := by
      rw [← hR]; exact hpc.drop _
    have hndL : (l0 ++ [z]).Nodup := by rw [← hL]; exact hnd.sublist (List.take_sublist _ _)
    have hndR : (s :: r).Nodup := by rw [← hR]; exact hnd.sublist (List.drop_sublist _ _)
    have hvL : ∀ x ∈ l0 ++ [z], h.valid x := fun x hx1 => hv x (by rw [hx]; simp at hx1 ⊢; tauto)
    have hvR : ∀ x ∈ s :: r, h.valid x := fun x hx1 => hv x (by rw [hx]; simp at hx1 ⊢; tauto)
    -- the left half
    obtain ⟨h2, l1, l2, l3, l4, l5, l6⟩ := merge_sort_spec fuel (h.setNext z 0) p (l0 ++ [z])
      hc1 hndL hvL hpcL (by omega)
    simp only [setNext_value, setNext_prev, setNext_live] at l1 l2 l3 l4 l5
    -- the right half
    have hs2 : lseg h2 s (s :: r) := by
      rw [lseg_congr (h := h.setNext z 0)]
      · exact hc2
      · intro x hx1
        exact l6 x (fun hx2 => hdisj x hx2 hx1)
    obtain ⟨h3, r1, r2, r3, r4, r5, r6⟩ := merge_sort_spec fuel h2 s (s :: r)
      hs2 hndR (fun x hx1 => ⟨(hvR x hx1).1, by rw [l5]; exact (hvR x hx1).2⟩)
      (by rw [l3]; exact hpcR) (by omega)
    rw [l4] at r1 r2
    -- the two sorted runs
    have hpL := msort_perm h.value fuel (l0 ++ [z])
    have hpR := msort_perm h.value fuel (s :: r)
    obtain ⟨a', ml, hML⟩ : ∃ a' ml, msort h.value fuel (l0 ++ [z]) = a' :: ml :=
      List.exists_cons_of_length_pos (by rw [msort_length, hlenL]; omega)
    obtain ⟨b', mr, hMR⟩ : ∃ b' mr, msort h.value fuel (s :: r) = b' :: mr :=
      List.exists_cons_of_length_pos (by rw [msort_length, hlenR]; omega)
    rw [hML] at l1 l2 hpL
    rw [hMR] at r1 r2 hpR
    simp only [List.headD_cons] at l1 l2 r1 r2
    have hs3 : lseg h3 a' (a' :: ml) := by
      rw [lseg_congr (h := h2)]
      · exact l2
      · intro x hx1
        exact r6 x (fun hx2 => hdisj x (hpL.mem_iff.1 hx1) hx2)
    have hv3 : ∀ x, x ∈ xs → h3.valid x := fun x hx1 =>
      ⟨(hv x hx1).1, by rw [r5, l5]; exact (hv x hx1).2⟩
    have hmemL : ∀ x, x ∈ a' :: ml → x ∈ xs := fun x hx1 => by
      have := hpL.mem_iff.1 hx1
      rw [hx]; simp at this ⊢; tauto
    have hmemR : ∀ x, x ∈ b' :: mr → x ∈ xs := fun x hx1 => by
      have := hpR.mem_iff.1 hx1
      rw [hx]; simp at this ⊢; tauto
    have hndM : (a' :: ml ++ b' :: mr).Nodup := by
      have : (a' :: ml ++ b' :: mr).Perm (l0 ++ [z] ++ s :: r) := hpL.append hpR
      rw [this.nodup_iff]; simpa using hnd'
    have hlenM : (a' :: ml).length + (b' :: mr).length = xs.length := by
      rw [hpL.length_eq, hpR.length_eq, hlenL, hlenR]; omega
    have hva' : h3.valid a' := hv3 a' (hmemL a' (by simp))
    have hvb' : h3.valid b' := hv3 b' (hmemR b' (by simp))
    have hval3 : h3.value = h.value := by rw [r4, l4]
    have hmsort : msort h.value (fuel + 1) xs =
        List.merge (a' :: ml) (b' :: mr) (le h.value) := by
      simp only [msort, if_neg (show ¬ xs.length < 2 by omega), hL, hR, hML, hMR]
    have hframe : ∀ y, y ∉ xs → h3.next y = h.next y := by
      intro y hy
      have hyz : y ≠ z := fun e => hy (by rw [hx, e]; simp)
      rw [r6 y (fun hy2 => hy (by rw [hx]; simp at hy2 ⊢; tauto)),
        l6 y (fun hy2 => hy (by rw [hx]; simp at hy2 ⊢; tauto))]
      simp [hyz]
    have hrun : merge_sort (fuel + 1) h p =
        (if strcmp (h3.value a') (h3.value b') ≤ 0 then
          (merge_sort_loop fuel h3 a' (h3.next a') b').bind (fun h4 => some (h4, a'))
        else (merge_sort_loop fuel h3 b' a' (h3.next b')).bind (fun h4 => some (h4, b'))) := by
      rw [hpa]
      simp only [merge_sort, if_neg hva.1, get_next_valid hva, hab, if_neg hvb.1, hsplit,
        get_prev_valid hvs, hprev, set_next_valid hvz, Option.bind_eq_bind, Option.some_bind]
      rw [← hpa, l1]
      simp only [Option.some_bind, r1, get_value_valid hva', get_value_valid hvb',
        get_next_valid hva', get_next_valid hvb']
      split_ifs <;> rfl
    rw [hrun, hmsort]
    simp only [List.cons_append, List.nodup_cons, List.mem_append, List.mem_cons, not_or,
      List.nodup_append] at hndM
    simp only [List.length_cons] at hlenM
    by_cases hc : strcmp (h3.value a') (h3.value b') ≤ 0
    · have hle : le h.value a' b' = true := by rw [← hval3]; exact le_iff.2 hc
      obtain ⟨h4, m1, m2, m3, m4, m5, m6⟩ := merge_sort_loop_spec fuel h3 a' (h3.next a') b'
        ml (b' :: mr) hs3.2 ⟨rfl, r2.2⟩ hva'
        (fun x hx1 => hv3 x (by
          rcases List.mem_append.1 hx1 with hx1 | hx1
          · exact hmemL x (List.mem_cons_of_mem _ hx1)
          · exact hmemR x hx1))
        (by simp; tauto) (by simp [List.nodup_append]; tauto)
        (by simp only [List.length_cons]; omega) (Or.inr (by simp))
      rw [hval3] at m2
      refine ⟨h4, ?_, ?_, by rw [m3, r3, l3], by rw [m4, hval3], by rw [m5, r5, l5], ?_⟩
      · rw [if_pos hc, m1, List.cons_merge_cons_pos _ _ _ hle]; rfl
      · rw [List.cons_merge_cons_pos _ _ _ hle]
        exact ⟨rfl, m2⟩
      · intro y hy
        rw [m6 y, hframe y hy]
        intro hy2
        apply hy
        rcases List.mem_cons.1 hy2 with e | hy2
        · exact e ▸ hmemL a' (by simp)
        · rcases List.mem_append.1 hy2 with hy2 | hy2
          · exact hmemL y (List.mem_cons_of_mem _ hy2)
          · exact hmemR y hy2
    · have hle : ¬ le h.value a' b' = true := by
        rw [← hval3]; exact fun e => hc (le_iff.1 e)
      obtain ⟨h4, m1, m2, m3, m4, m5, m6⟩ := merge_sort_loop_spec fuel h3 b' a' (h3.next b')
        (a' :: ml) mr ⟨rfl, hs3.2⟩ r2.2 hvb'
        (fun x hx1 => hv3 x (by
          rcases List.mem_append.1 hx1 with hx1 | hx1
          · exact hmemL x hx1
          · exact hmemR x (List.mem_cons_of_mem _ hx1)))
        (by simp; tauto) (by simp [List.nodup_append]; tauto)
        (by simp only [List.length_cons]; omega) (Or.inl (by simp))
      rw [hval3] at m2
      refine ⟨h4, ?_, ?_, by rw [m3, r3, l3], by rw [m4, hval3], by rw [m5, r5, l5], ?_⟩
      · rw [if_neg hc, m1, List.cons_merge_cons_neg _ _ _ hle]; rfl
      · rw [List.cons_merge_cons_neg _ _ _ hle]
        exact ⟨rfl, m2⟩
      · intro y hy
        rw [m6 y, hframe y hy]
        intro hy2
        apply hy
        rcases List.mem_cons.1 hy2 with e | hy2
        · exact e ▸ hmemR b' (by simp)
        · rcases List.mem_append.1 hy2 with hy2 | hy2
          · exact hmemL y hy2
          · exact hmemR y (List.mem_cons_of_mem _ hy2)

/-! ## More on segments -/

theorem getLastD_mem : ∀ (l : List Nat) (p : Nat), l.getLastD p ∈ p :: l
  | [], p => by simp
  | a :: l, p => by
    rw [List.getLastD_cons]
    exact List.mem_cons_of_mem _ (getLastD_mem l a)

theorem prevSeg_getLastD {h : Heap} : ∀ {l : List Nat} {p q : Nat},
    prevSeg h p l q → h.prev q = l.getLastD p
  | [], _, _, hs => hs
  | a :: l, _, _, hs => by
    rw [List.getLastD_cons]; exact prevSeg_getLastD hs.2

theorem prevSeg_chain' {h : Heap} : ∀ {l : List Nat} {p q : Nat},
    prevSeg h p l q → List.Chain' (fun a b => h.prev b = a) l
  | [], _, _, _ => List.chain'_nil
  | [a], _, _, _ => List.chain'_singleton a
  | a :: b :: l, _, _, hs => by
    rw [List.chain'_cons]
    exact ⟨hs.2.1, prevSeg_chain' hs.2⟩

/-- Redirecting the `next` link of the last node of a segment changes the end
of the segment. -/
theorem nextSeg_setLast {h : Heap} {q : Nat} (q' : Nat) : ∀ {l : List Nat} {p : Nat},
    nextSeg h p l q → (p :: l).Nodup → nextSeg (h.setNext (l.getLastD p) q') p l q'
  | [], p, _, _ => by simp [nextSeg]
  | a :: l, p, hs, hn => by
    rw [List.nodup_cons] at hn
    have hne : p ≠ l.getLastD a := fun e => hn.1 (e ▸ getLastD_mem l a)
    simp only [nextSeg, List.getLastD_cons, setNext_next, if_neg hne]
    exact ⟨hs.1, nextSeg_setLast q' hs.2 hn.2⟩

/-! ## `q_sort` -/

theorem q_sort_loop_spec : ∀ (l : List Nat) (fuel : Nat) (h : Heap) (front behind : Nat),
    lseg h behind l → l.Nodup → (∀ a ∈ l, h.valid a) → l.length + 1 ≤ fuel →
    ∃ h', q_sort_loop fuel h front behind = some (h', l.getLastD front) ∧
      h'.next = h.next ∧ h'.value = h.value ∧ h'.live = h.live ∧
      (∀ a, a ∉ l → h'.prev a = h.prev a) ∧
      ∀ q, q ∉ l → prevSeg (h'.setPrev q (l.getLastD front)) front l q
  | [], fuel, h, front, behind, hs, _, _, hf => by
    obtain ⟨g, rfl⟩ : ∃ g, fuel = g + 1 := ⟨fuel - 1, by simp at hf; omega⟩
    simp only [lseg] at hs
    subst hs
    exact ⟨h, by simp [q_sort_loop], rfl, rfl, rfl, fun _ _ => rfl, fun q _ => by simp [prevSeg]⟩
  | a :: l, fuel, h, front, behind, hs, hn, hv, hf => by
    obtain ⟨g, rfl⟩ : ∃ g, fuel = g + 1 := ⟨fuel - 1, by simp at hf; omega⟩
    simp only [lseg] at hs
    obtain ⟨rfl, hs⟩ := hs
    rw [List.nodup_cons] at hn
    have hva : h.valid behind := hv behind (by simp)
    obtain ⟨h', e1, e2, e3, e4, e5, e6⟩ := q_sort_loop_spec l g (h.setPrev behind front) behind
      (h.next behind) ((@lseg_congr h (h.setPrev behind front) l (h.next behind) (fun _ _ => rfl)).2 hs) hn.2
      (fun x hx => hv x (List.mem_cons_of_mem _ hx)) (by simp at hf; omega)
    rw [List.getLastD_cons]
    refine ⟨h', ?_, e2, e3, e4, ?_, ?_⟩
    · have hva' : (h.setPrev behind front).valid behind := hva
      simp only [q_sort_loop, if_neg hva.1, set_prev_valid hva, get_next_valid hva',
        Option.bind_eq_bind, Option.some_bind, setPrev_next, e1]
    · intro x hx
      simp only [List.mem_cons, not_or] at hx
      rw [e5 x hx.2]; simp [hx.1]
    · intro q hq
      simp only [List.mem_cons, not_or] at hq
      simp only [prevSeg, setPrev_prev, if_neg (Ne.symm hq.1)]
      refine ⟨?_, e6 q hq.2⟩
      rw [e5 behind hn.1]; simp

theorem q_sort_spec {h : Heap} {head : Nat} {xs : List Nat} {fuel : Nat}
    (hr : Ring h head xs) (hf : xs.length + 1 ≤ fuel) :
    ∃ h', q_sort fuel h head = some h' ∧ Ring h' head (msort h.value fuel xs) ∧
      h'.value = h.value ∧ h'.live = h.live ∧
      ∀ a, a ∉ head :: xs → h'.next a = h.next a ∧ h'.prev a = h.prev a := by
  obtain ⟨hnd, hv, hn, hp⟩ := hr
  have hvh : h.valid head := hv head (by simp)
  have hvx : ∀ a ∈ xs, h.valid a := fun a ha => hv a (List.mem_cons_of_mem _ ha)
  have hnd2 := List.nodup_cons.1 hnd
  -- the ring is opened
  have hz := getLastD_mem xs head
  have hvz : h.valid (xs.getLastD head) := hv _ hz
  have hn1 := nextSeg_setLast 0 hn hnd
  rw [nextSeg_null] at hn1
  -- the chain is sorted
  have hpc : List.Chain' (fun a b => h.prev b = a) xs := prevSeg_chain' hp
  obtain ⟨h2, m1, m2, m3, m4, m5, m6⟩ := merge_sort_spec fuel (h.setNext (xs.getLastD head) 0)
    _ xs hn1 hnd2.2 hvx hpc hf
  simp only [setNext_value, setNext_prev, setNext_live] at m1 m2 m3 m4 m5
  have hperm := msort_perm h.value fuel xs
  generalize msort h.value fuel xs = ys at m1 m2 hperm ⊢
  have hndy : (head :: ys).Nodup := by
    rw [List.nodup_cons, hperm.nodup_iff, hperm.mem_iff]; exact hnd2
  have hndy2 := List.nodup_cons.1 hndy
  have hv2 : ∀ a ∈ head :: ys, h2.valid a := fun a ha =>
    ⟨(hv a (by simp at ha ⊢; rw [← hperm.mem_iff]; exact ha)).1, by
      rw [m5]; exact (hv a (by simp at ha ⊢; rw [← hperm.mem_iff]; exact ha)).2⟩
  have hvh2 : h2.valid head := hv2 head (by simp)
  -- the prev links are rebuilt
  have hs3 : lseg (h2.setNext head (ys.headD 0)) (ys.headD 0) ys := by
    rw [lseg_congr (h := h2)]
    · exact m2
    · intro a ha
      have : a ≠ head := fun e => hndy2.1 (e ▸ ha)
      simp [this]
  obtain ⟨h4, l1, l2, l3, l4, l5, l6⟩ := q_sort_loop_spec ys fuel (h2.setNext head (ys.headD 0))
    head (ys.headD 0) hs3 hndy2.2 (fun a ha => hv2 a (List.mem_cons_of_mem _ ha))
    (by rw [hperm.length_eq]; exact hf)
  simp only [setNext_value, setNext_prev, setNext_live] at l3 l4 l5
  have hfr := getLastD_mem ys head
  have hv4 : ∀ a ∈ head :: ys, h4.valid a := fun a ha =>
    ⟨(hv2 a ha).1, by rw [l4]; exact (hv2 a ha).2⟩
  have hvf : h4.valid (ys.getLastD head) := hv4 _ hfr
  have hvh4 : h4.valid head := hv4 head (by simp)
  refine ⟨(h4.setNext (ys.getLastD head) head).setPrev head (ys.getLastD head), ?_, ?_, ?_, ?_, ?_⟩
  · have hne : ¬ h.next head = 0 := by
      rw [nextSeg_headD hn]
      cases xs with
      | nil => exact hvh.1
      | cons a l => exact (hvx a (by simp)).1
    have hvh1 : (h.setNext (xs.getLastD head) 0).valid head := hvh
    have hvh3 : (h2.setNext head (ys.headD 0)).valid head := hvh2
    have hvh5 : (h4.setNext (ys.getLastD head) head).valid head := hvh4
    have e3 : (h2.setNext head (ys.headD 0)).next head = ys.headD 0 := by simp
    simp only [q_sort, if_neg hvh.1, get_next_valid hvh, if_neg hne, get_prev_valid hvh,
      prevSeg_getLastD hp, set_next_valid hvz, Option.bind_eq_bind, Option.some_bind,
      get_next_valid hvh1, m1, set_next_valid hvh2, get_next_valid hvh3, e3, l1,
      set_next_valid hvf, set_prev_valid hvh5]
  · refine ⟨hndy, fun a ha => hv4 a ha, ?_, ?_⟩
    · rw [nextSeg_congr (h := h4.setNext (ys.getLastD head) head)]
      swap
      · intro a _; rfl
      refine nextSeg_setLast (q := 0) head ?_ hndy
      have e : h4.next head = ys.headD 0 := by rw [l2]; simp
      rw [nextSeg_null, e, lseg_congr (h := h2.setNext head (ys.headD 0)) (fun a _ => by rw [l2])]
      exact hs3
    · rw [prevSeg_congr (h := h4.setPrev head (ys.getLastD head))]
      · exact l6 head hndy2.1
      · intro a _; rfl
  · simp only [setPrev_value, setNext_value, l3, m4]
  · simp only [setPrev_live, setNext_live, l4, m5]
  · intro a ha
    have ha' : a ∉ head :: ys := by
      simp only [List.mem_cons, hperm.mem_iff] at ha ⊢; exact ha
    have h1 : a ≠ head := fun e => ha (by simp [e])
    have h2' : a ≠ ys.getLastD head := fun e => ha' (e ▸ hfr)
    have h3 : a ≠ xs.getLastD head := fun e => ha (e ▸ hz)
    have h4' : a ∉ xs := fun e => ha (List.mem_cons_of_mem _ e)
    have h5 : a ∉ ys := fun e => ha' (List.mem_cons_of_mem _ e)
    constructor
    · simp only [setPrev_next, setNext_next, if_neg h2', l2, if_neg h1, m6 a h4', if_neg h3]
    · simp only [setPrev_prev, if_neg h1, setNext_prev, l5 a h5, m3]

/-! ## Claims on `q_sort` -/

/-- C1: after `q_sort` on a well-formed queue, every two adjacent elements
`a`, `b` of the forward traversal satisfy `strcmp(a.payload, b.payload) <= 0`,
that is, `a.payload <= b.payload` in the byte-wise lexicographic order. -/
theorem q_sort_sorted (h : Heap) (head : Nat) (xs : List Nat) (fuel : Nat)
    (hr : Ring h head xs) (hf : xs.length + 1 ≤ fuel) :
    ∃ h' ys, q_sort fuel h head = some h' ∧ Ring h' head ys ∧
      List.Chain' (fun a b => strcmp (h'.value a) (h'.value b) ≤ 0 ∧
        lexLe (cstr (h'.value a)) (cstr (h'.value b))) ys := by
  obtain ⟨h', e, r, hv, -, -⟩ := q_sort_spec hr hf
  refine ⟨h', _, e, r, ?_⟩
  have hs := msort_sorted h.value fuel xs (by omega)
  rw [hv]
  exact (hs.imp (fun hab => ⟨le_iff.1 hab, (strcmp_le_iff _ _).1 (le_iff.1 hab)⟩)).chain'

theorem q_sort_sorted_witness :
    Ring demoHeap 1 [2, 3, 4] ∧
      ∃ h' ys, q_sort 4 demoHeap 1 = some h' ∧ Ring h' 1 ys ∧
        List.Chain' (fun a b => strcmp (h'.value a) (h'.value b) ≤ 0 ∧
          lexLe (cstr (h'.value a)) (cstr (h'.value b))) ys :=
  ⟨by decide, q_sort_sorted demoHeap 1 [2, 3, 4] 4 (by decide) (by decide)⟩

/-- C2: after `q_sort` on a well-formed queue the forward traversal is a
permutation of the one before: the same nodes, with the same payloads and the
same allocation status, so that `q_size` is unchanged. -/
theorem q_sort_perm (h : Heap) (head : Nat) (xs : List Nat) (fuel : Nat)
    (hr : Ring h head xs) (hf : xs.length + 1 ≤ fuel) :
    ∃ h' ys, q_sort fuel h head = some h' ∧ Ring h' head ys ∧ ys.Perm xs ∧
      h'.value = h.value ∧ h'.live = h.live ∧ q_size fuel h' head = q_size fuel h head := by
  obtain ⟨h', e, r, hv, hl, -⟩ := q_sort_spec hr hf
  have hp := msort_perm h.value fuel xs
  refine ⟨h', _, e, r, hp, hv, hl, ?_⟩
  rw [q_size_spec hr hf, q_size_spec r (by rw [hp.length_eq]; exact hf), hp.length_eq]

theorem q_sort_perm_witness :
    Ring demoHeap 1 [2, 3, 4] ∧
      ∃ h' ys, q_sort 4 demoHeap 1 = some h' ∧ Ring h' 1 ys ∧ ys.Perm [2, 3, 4] ∧
        h'.value = demoHeap.value ∧ h'.live = demoHeap.live ∧
        q_size 4 h' 1 = q_size 4 demoHeap 1 :=
  ⟨by decide, q_sort_perm demoHeap 1 [2, 3, 4] 4 (by decide) (by decide)⟩

/-- C3: `q_sort` is stable: two elements whose payloads are equal strings
(`strcmp` returns `0`) keep their relative order in the forward traversal. -/
theorem q_sort_stable (h : Heap) (head : Nat) (xs : List Nat) (fuel : Nat)
    (hr : Ring h head xs) (hf : xs.length + 1 ≤ fuel) :
    ∃ h' ys, q_sort fuel h head = some h' ∧ Ring h' head ys ∧
      ∀ x y, strcmp (h.value x) (h.value y) = 0 → Precedes xs x y → Precedes ys x y := by
  obtain ⟨h', e, r, -, -, -⟩ := q_sort_spec hr hf
  refine ⟨h', _, e, r, ?_⟩
  intro x y hxy hpre
  exact msort_stable h.value (le_iff.2 (by omega)) fuel xs (by omega) hpre

theorem q_sort_stable_witness :
    Ring demoHeap 1 [2, 3, 4] ∧
      ∃ h' ys, q_sort 4 demoHeap 1 = some h' ∧ Ring h' 1 ys ∧
        ∀ x y, strcmp (demoHeap.value x) (demoHeap.value y) = 0 →
          Precedes [2, 3, 4] x y → Precedes ys x y :=
  ⟨by decide, q_sort_stable demoHeap 1 [2, 3, 4] 4 (by decide) (by decide)⟩

/-- C4: `q_sort` is idempotent: sorting a sorted queue again leaves the heap,
hence the element order and every link of the ring, exactly as the first
sort left it. -/
theorem q_sort_idempotent (h : Heap) (head : Nat) (xs : List Nat) (fuel : Nat)
    (hr : Ring h head xs) (hf : xs.length + 1 ≤ fuel) :
    ∃ h', q_sort fuel h head = some h' ∧ q_sort fuel h' head = some h' := by
  obtain ⟨h', e, r, hv, -, -⟩ := q_sort_spec hr hf
  have hp := msort_perm h.value fuel xs
  have hs := msort_sorted h.value fuel xs (by omega)
  have hf' : (msort h.value fuel xs).length + 1 ≤ fuel := by rw [hp.length_eq]; exact hf
  obtain ⟨h'', e', r', hv', hl', hfr⟩ := q_sort_spec r hf'
  rw [hv, msort_of_sorted h.value fuel _ hs] at r'
  have : h'' = h' := Ring.heap_eq r' r (fun a ha => (hfr a ha).1) (fun a ha => (hfr a ha).2)
    hv' hl'
  exact ⟨h', e, by rw [e', this]⟩

theorem q_sort_idempotent_witness :
    Ring demoHeap 1 [2, 3, 4] ∧
      ∃ h', q_sort 4 demoHeap 1 = some h' ∧ q_sort 4 h' 1 = some h' :=
  ⟨by decide, q_sort_idempotent demoHeap 1 [2, 3, 4] 4 (by decide) (by decide)⟩

/-! ## `q_reverse` -/

theorem list_empty_ring {h : Heap} {head : Nat} {xs : List Nat} (hr : Ring h head xs) :
    list_empty h head = some (decide (xs = [])) := by
  obtain ⟨hnd, hv, hn, -⟩ := hr
  have hvh : h.valid head := hv head (by simp)
  simp only [list_empty, get_next_valid hvh, Option.bind_eq_bind, Option.some_bind,
    nextSeg_headD hn]
  cases xs with
  | nil => simp
  | cons a l =>
    have : a ≠ head := fun e => (List.nodup_cons.1 hnd).1 (by simp [e])
    simp [this]

theorem q_reverse_loop_spec {h0 : Heap} {head : Nat} : ∀ (r : List Nat) (p fuel : Nat)
    (h : Heap), nextSeg h0 p r head → (∀ a ∈ r, h.next a = h0.next a) →
    (∀ a ∈ r, h.valid a) → head ∉ r → r.Nodup → r.length + 1 ≤ fuel →
    q_reverse_loop fuel h head (r.headD head) = some (h.swapLinks r)
  | [], p, fuel, h, _, _, _, _, _, hf => by
    obtain ⟨g, rfl⟩ : ∃ g, fuel = g + 1 := ⟨fuel - 1, by simp at hf; omega⟩
    simp only [List.headD_nil, q_reverse_loop, if_true, Option.some.injEq]
    apply Heap.ext_fields <;> simp [Heap.swapLinks]
  | a :: r, p, fuel, h, hs, he, hv, hh, hn, hf => by
    obtain ⟨g, rfl⟩ : ∃ g, fuel = g + 1 := ⟨fuel - 1, by simp at hf; omega⟩
    simp only [List.mem_cons, not_or] at hh
    rw [List.nodup_cons] at hn
    have hva : h.valid a := hv a (by simp)
    have hva1 : (h.setPrev a (h.next a)).valid a := hva
    have hva2 : ((h.setPrev a (h.next a)).setNext a (h.prev a)).valid a := hva
    have hne : ¬ a = head := fun e => hh.1 e.symm
    have hnx : h.next a = r.headD head := by
      rw [he a (by simp)]; exact nextSeg_headD hs.2
    have ih := q_reverse_loop_spec r a g ((h.setPrev a (h.next a)).setNext a (h.prev a)) hs.2
      (fun b hb => by
        have : b ≠ a := fun e => hn.1 (e ▸ hb)
        simp only [setNext_next, if_neg this, setPrev_next]
        exact he b (List.mem_cons_of_mem _ hb))
      (fun b hb => hv b (List.mem_cons_of_mem _ hb)) hh.2 hn.2 (by simp at hf; omega)
    rw [← hnx] at ih
    simp only [List.headD_cons, q_reverse_loop, if_neg hne, get_prev_valid hva,
      get_next_valid hva, set_prev_valid hva, set_next_valid hva1, get_prev_valid hva2,
      Option.bind_eq_bind, Option.some_bind, setNext_prev, setPrev_prev, if_true, ih,
      Option.some.injEq]
    apply Heap.ext_fields
    · funext x
      by_cases hx : x = a
      · subst hx; simp [Heap.swapLinks, hn.1]
      · simp [Heap.swapLinks, hx]
    · funext x
      by_cases hx : x = a
      · subst hx; simp [Heap.swapLinks, hn.1]
      · simp [Heap.swapLinks, hx]
    · rfl
    · rfl

theorem nextSeg_swapLinks {h : Heap} {S : List Nat} : ∀ {l : List Nat} {p q : Nat},
    prevSeg h p l q → (∀ a ∈ l ++ [q], a ∈ S) → nextSeg (h.swapLinks S) q l.reverse p
  | [], p, q, hs, hm => by
    have : q ∈ S := hm q (by simp)
    simpa [nextSeg, Heap.swapLinks, this] using hs
  | a :: l, p, q, hs, hm => by
    have ha : a ∈ S := hm a (by simp)
    have ih := @nextSeg_swapLinks h S l a q hs.2 (fun b hb => hm b (List.mem_cons_of_mem _ hb))
    rw [List.reverse_cons, nextSeg_append]
    refine ⟨ih, ?_⟩
    simpa [nextSeg, Heap.swapLinks, ha] using hs.1

theorem prevSeg_swapLinks {h : Heap} {S : List Nat} : ∀ {l : List Nat} {p q : Nat},
    nextSeg h p l q → (∀ a ∈ p :: l, a ∈ S) → prevSeg (h.swapLinks S) q l.reverse p
  | [], p, q, hs, hm => by
    have : p ∈ S := hm p (by simp)
    simpa [prevSeg, Heap.swapLinks, this] using hs
  | a :: l, p, q, hs, hm => by
    have hp : p ∈ S := hm p (by simp)
    have ih := @prevSeg_swapLinks h S l a q hs.2 (fun b hb => hm b (List.mem_cons_of_mem _ hb))
    rw [List.reverse_cons, prevSeg_append]
    refine ⟨ih, ?_⟩
    simpa [prevSeg, Heap.swapLinks, hp] using hs.1

theorem swapLinks_valid {h : Heap} {S : List Nat} {a : Nat} :
    (h.swapLinks S).valid a ↔ h.valid a := Iff.rfl

theorem ring_swapLinks {h : Heap} {head : Nat} {xs : List Nat} (hr : Ring h head xs) :
    Ring (h.swapLinks (head :: xs)) head xs.reverse := by
  obtain ⟨hnd, hv, hn, hp⟩ := hr
  refine ⟨?_, ?_, ?_, ?_⟩
  · rw [List.nodup_cons] at hnd ⊢
    exact ⟨by simpa using hnd.1, List.nodup_reverse.2 hnd.2⟩
  · intro a ha
    exact hv a (by simpa using ha)
  · exact nextSeg_swapLinks hp (fun a ha => by simp at ha ⊢; tauto)
  · exact prevSeg_swapLinks hn (fun a ha => ha)

theorem q_reverse_spec {h : Heap} {head : Nat} {xs : List Nat} {fuel : Nat}
    (hr : Ring h head xs) (hf : xs.length + 1 ≤ fuel) :
    ∃ h', q_reverse fuel h head = some h' ∧ Ring h' head xs.reverse ∧
      (xs = [] → h' = h) ∧ h' = h.swapLinks (head :: xs) := by
  have hr' := hr
  obtain ⟨hnd, hv, hn, hp⟩ := hr
  have hvh : h.valid head := hv head (by simp)
  have hnd2 := List.nodup_cons.1 hnd
  by_cases hx : xs = []
  · subst hx
    have e : h.swapLinks [head] = h := by
      simp only [nextSeg, prevSeg] at hn hp
      apply Heap.ext_fields
      · funext a
        by_cases ha : a = head
        · subst ha; simp [Heap.swapLinks, hn, hp]
        · simp [Heap.swapLinks, ha]
      · funext a
        by_cases ha : a = head
        · subst ha; simp [Heap.swapLinks, hn, hp]
        · simp [Heap.swapLinks, ha]
      · rfl
      · rfl
    refine ⟨h, ?_, hr', fun _ => rfl, e.symm⟩
    simp [q_reverse, hvh.1, list_empty_ring hr']
  · have hloop := @q_reverse_loop_spec h head xs head fuel h hn (fun _ _ => rfl)
      (fun a ha => hv a (List.mem_cons_of_mem _ ha)) hnd2.1 hnd2.2 hf
    have hv1 : (h.swapLinks xs).valid head := hvh
    have hv2 : ((h.swapLinks xs).setNext head ((h.swapLinks xs).prev head)).valid head := hvh
    have e : ((h.swapLinks xs).setNext head ((h.swapLinks xs).prev head)).setPrev head
        ((h.swapLinks xs).next head) = h.swapLinks (head :: xs) := by
      apply Heap.ext_fields
      · funext a
        by_cases ha : a = head
        · subst ha; simp [Heap.swapLinks, hnd2.1]
        · simp [Heap.swapLinks, ha]
      · funext a
        by_cases ha : a = head
        · subst ha; simp [Heap.swapLinks, hnd2.1]
        · simp [Heap.swapLinks, ha]
      · rfl
      · rfl
    refine ⟨h.swapLinks (head :: xs), ?_, ring_swapLinks hr', fun e => absurd e hx, rfl⟩
    simp only [q_reverse, if_neg hvh.1, list_empty_ring hr', hx, decide_False,
      Option.bind_eq_bind, Option.some_bind, Bool.false_eq_true, if_false,
      get_next_valid hvh, nextSeg_headD hn, hloop, get_next_valid hv1, get_prev_valid hv1,
      set_next_valid hv1, set_prev_valid hv2, e]

/-- Exchanging the links of the same nodes twice restores the heap. -/
theorem swapLinks_swapLinks {h : Heap} {S T : List Nat} (hST : ∀ a, a ∈ T ↔ a ∈ S) :
    (h.swapLinks S).swapLinks T = h := by
  apply Heap.ext_fields
  · funext a
    by_cases ha : a ∈ S <;> simp [Heap.swapLinks, hST, ha]
  · funext a
    by_cases ha : a ∈ S <;> simp [Heap.swapLinks, hST, ha]
  · rfl
  · rfl

/-- C5: on a well-formed queue `q_reverse` turns the forward traversal `xs`
into its reverse; payloads and allocation status of all nodes are unchanged
and no link outside the ring is written; on a null queue, and on an empty one,
the heap is left exactly as it was. -/
theorem q_reverse_reverses (h : Heap) (head : Nat) (xs : List Nat) (fuel : Nat)
    (hr : Ring h head xs) (hf : xs.length + 1 ≤ fuel) :
    (∃ h', q_reverse fuel h head = some h' ∧ Ring h' head xs.reverse ∧
      h'.value = h.value ∧ h'.live = h.live ∧
      (∀ a, a ∉ head :: xs → h'.next a = h.next a ∧ h'.prev a = h.prev a) ∧
      (xs = [] → h' = h)) ∧
    q_reverse fuel h 0 = some h := by
  obtain ⟨h', e, r, he, hs⟩ := q_reverse_spec hr hf
  refine ⟨⟨h', e, r, ?_, ?_, ?_, he⟩, by simp [q_reverse]⟩
  · rw [hs]; rfl
  · rw [hs]; rfl
  · intro a ha
    rw [hs]
    simp only [Heap.swapLinks, if_neg ha, and_self]

theorem q_reverse_reverses_witness :
    Ring demoHeap 1 [2, 3, 4] ∧
    ((∃ h', q_reverse 4 demoHeap 1 = some h' ∧ Ring h' 1 [2, 3, 4].reverse ∧
      h'.value = demoHeap.value ∧ h'.live = demoHeap.live ∧
      (∀ a, a ∉ 1 :: [2, 3, 4] → h'.next a = demoHeap.next a ∧ h'.prev a = demoHeap.prev a) ∧
      ([2, 3, 4] = [] → h' = demoHeap)) ∧
    q_reverse 4 demoHeap 0 = some demoHeap) :=
  ⟨by decide, q_reverse_reverses demoHeap 1 [2, 3, 4] 4 (by decide) (by decide)⟩

/-- C6: `q_reverse` is its own inverse: applying it twice to a well-formed
queue gives back the original heap, so every `next` and `prev` link is as
before. -/
theorem q_reverse_involutive (h : Heap) (head : Nat) (xs : List Nat) (fuel : Nat)
    (hr : Ring h head xs) (hf : xs.length + 1 ≤ fuel) :
    ∃ h', q_reverse fuel h head = some h' ∧ q_reverse fuel h' head = some h := by
  obtain ⟨h', e, r, -, hs⟩ := q_reverse_spec hr hf
  have hf' : xs.reverse.length + 1 ≤ fuel := by simpa using hf
  obtain ⟨h'', e', -, -, hs'⟩ := q_reverse_spec r hf'
  refine ⟨h', e, ?_⟩
  rw [e', hs', hs, swapLinks_swapLinks (fun a => by simp)]

theorem q_reverse_involutive_witness :
    Ring demoHeap 1 [2, 3, 4] ∧
      ∃ h', q_reverse 4 demoHeap 1 = some h' ∧ q_reverse 4 h' 1 = some demoHeap :=
  ⟨by decide, q_reverse_involutive demoHeap 1 [2, 3, 4] 4 (by decide) (by decide)⟩

/-! ## `q_swap` -/

theorem headD_mem : ∀ (l : List Nat) (q : Nat), l.headD q ∈ l ++ [q]
  | [], q => by simp
  | a :: l, q => by simp

theorem nextSeg_restart {h h' : Heap} {a b q : Nat} {l : List Nat}
    (hs : nextSeg h b l q) (ha : h'.next a = h.next b)
    (hf : ∀ x ∈ l, h'.next x = h.next x) : nextSeg h' a l q := by
  cases l with
  | nil => simp only [nextSeg] at hs ⊢; rw [ha, hs]
  | cons c l =>
    simp only [nextSeg] at hs ⊢
    exact ⟨by rw [ha, hs.1], (nextSeg_congr hf).2 hs.2⟩

theorem prevSeg_restart {h h' : Heap} {a b q : Nat} {l : List Nat}
    (hs : prevSeg h b l q) (ha : h'.prev (l.headD q) = a)
    (hf : ∀ x ∈ (l ++ [q]).tail, h'.prev x = h.prev x) : prevSeg h' a l q := by
  cases l with
  | nil => simp only [prevSeg] at hs ⊢; simpa using ha
  | cons c l =>
    simp only [prevSeg] at hs ⊢
    exact ⟨by simpa using ha, (prevSeg_congr (by simpa using hf)).2 hs.2⟩

theorem list_swap_spec {h : Heap} {a b : Nat} (hva : h.valid a) (hvb : h.valid b)
    (hvp : h.valid (h.prev a)) (hvc : h.valid (h.next b)) (hab : a ≠ b) (hbp : b ≠ h.prev a) :
    list_swap h a b = some ((((((h.setNext (h.prev a) b).setPrev b (h.prev a)).setPrev a b).setNext
      a (h.next b)).setNext b a).setPrev (h.next b) a) := by
  simp [list_swap, get_prev, get_next, set_next, set_prev, hva, hvb, hvp, hvc, hab, hbp]

theorem q_swap_loop_spec {head : Nat} : ∀ (l : List Nat) (p fuel : Nat) (h : Heap),
    nextSeg h p l head → prevSeg h p l head → (p :: l).Nodup → head ∉ l →
    (∀ a ∈ p :: head :: l, h.valid a) → l.length + 1 ≤ fuel →
    ∃ h', q_swap_loop fuel h head (l.headD head) = some h' ∧
      nextSeg h' p (swapPairs l) head ∧ prevSeg h' p (swapPairs l) head ∧
      h'.value = h.value ∧ h'.live = h.live ∧
      (∀ a, a ∉ p :: l → h'.next a = h.next a) ∧
      (∀ a, a ∉ l ++ [head] → h'.prev a = h.prev a)
  | [], p, fuel, h, hn, hp, _, _, _, hf => by
    obtain ⟨g, rfl⟩ : ∃ g, fuel = g + 1 := ⟨fuel - 1, by simp at hf; omega⟩
    exact ⟨h, by simp [q_swap_loop], hn, hp, rfl, rfl, fun _ _ => rfl, fun _ _ => rfl⟩
  | [a], p, fuel, h, hn, hp, _, hh, hv, hf => by
    obtain ⟨g, rfl⟩ : ∃ g, fuel = g + 1 := ⟨fuel - 1, by simp at hf; omega⟩
    have hva : h.valid a := hv a (by simp)
    have hne : ¬ a = head := fun e => hh (by simp [e])
    refine ⟨h, ?_, hn, hp, rfl, rfl, fun _ _ => rfl, fun _ _ => rfl⟩
    simp only [nextSeg] at hn
    simp [q_swap_loop, hne, get_next_valid hva, hn.2]
  | a :: b :: l, p, fuel, h, hn, hp, hnd, hh, hv, hf => by
    obtain ⟨g, rfl⟩ : ∃ g, fuel = g + 1 := ⟨fuel - 1, by simp at hf; omega⟩
    simp only [nextSeg] at hn
    simp only [prevSeg] at hp
    obtain ⟨hn1, hn2, hn3⟩ := hn
    obtain ⟨hp1, hp2, hp3⟩ := hp
    simp only [List.nodup_cons, List.mem_cons, not_or] at hnd hh
    obtain ⟨⟨hpa, hpb, hpl⟩, ⟨hab, hal⟩, hbl, hl⟩ := hnd
    obtain ⟨hha, hhb, hhl⟩ := hh
    have hva : h.valid a := hv a (by simp)
    have hvb : h.valid b := hv b (by simp)
    have hvp : h.valid p := hv p (by simp)
    have hvh : h.valid head := hv head (by simp)
    have hcm := headD_mem l head
    have hcn : h.next b = l.headD head := nextSeg_headD hn3
    have hvc : h.valid (l.headD head) := hv _ (by
      simp only [List.mem_append, List.mem_singleton] at hcm
      simp only [List.mem_cons]; tauto)
    have hca : l.headD head ≠ a := fun e => by
      rw [e] at hcm
      simp only [List.mem_append, List.mem_singleton] at hcm
      rcases hcm with hcm | hcm
      · exact hal hcm
      · exact hha hcm.symm
    have hcb : l.headD head ≠ b := fun e => by
      rw [e] at hcm
      simp only [List.mem_append, List.mem_singleton] at hcm
      rcases hcm with hcm | hcm
      · exact hbl hcm
      · exact hhb hcm.symm
    -- the heap after `list_swap`
    obtain ⟨h6, hh6⟩ : ∃ h6, h6 = (((((h.setNext p b).setPrev b p).setPrev a b).setNext
      a (l.headD head)).setNext b a).setPrev (l.headD head) a := ⟨_, rfl⟩
    have hswap : list_swap h a b = some h6 := by
      rw [list_swap_spec hva hvb (by rw [hp1]; exact hvp) (by rw [hcn]; exact hvc) hab
        (by rw [hp1]; exact fun e => hpb e.symm), hp1, hcn, hh6]
    have h6n : ∀ x, h6.next x =
        if x = b then a else if x = a then l.headD head else if x = p then b else h.next x := by
      intro x; rw [hh6]; simp
    have h6p : ∀ x, h6.prev x =
        if x = l.headD head then a else if x = a then b else if x = b then p else h.prev x := by
      intro x; rw [hh6]; simp
    have h6v : ∀ x, h6.valid x ↔ h.valid x := by
      intro x; rw [hh6]; exact Iff.rfl
    have hs1 : nextSeg h6 a l head := by
      refine nextSeg_restart hn3 ?_ ?_
      · rw [h6n, if_neg hab, if_pos rfl, hcn]
      · intro x hx
        have h1 : x ≠ b := fun e => hbl (e ▸ hx)
        have h2 : x ≠ a := fun e => hal (e ▸ hx)
        have h3 : x ≠ p := fun e => hpl (e ▸ hx)
        rw [h6n, if_neg h1, if_neg h2, if_neg h3]
    have hs2 : prevSeg h6 a l head := by
      refine prevSeg_restart hp3 ?_ ?_
      · rw [h6p, if_pos rfl]
      · intro x hx
        have h1 : x ≠ l.headD head ∧ x ≠ a ∧ x ≠ b := by
          cases l with
          | nil => simp at hx
          | cons c l =>
            simp only [List.cons_append, List.tail_cons, List.mem_append,
              List.mem_singleton] at hx
            simp only [List.nodup_cons, List.mem_cons, not_or] at hl hal hbl hhl
            refine ⟨?_, ?_, ?_⟩
            · rintro rfl
              rcases hx with hx | hx
              · exact hl.1 hx
              · exact hhl.1 hx.symm
            · rintro rfl
              rcases hx with hx | hx
              · exact hal.2 hx
              · exact hha hx.symm
            · rintro rfl
              rcases hx with hx | hx
              · exact hbl.2 hx
              · exact hhb hx.symm
        rw [h6p, if_neg h1.1, if_neg h1.2.1, if_neg h1.2.2]
    obtain ⟨h', e1, e2, e3, e4, e5, e6, e7⟩ := q_swap_loop_spec l a g h6 hs1 hs2
      (List.nodup_cons.2 ⟨hal, hl⟩) hhl
      (fun x hx => (h6v x).2 (hv x (by simp only [List.mem_cons] at hx ⊢; tauto)))
      (by simp at hf; omega)
    refine ⟨h', ?_, ?_, ?_, ?_, ?_, ?_, ?_⟩
    · have hva6 : h6.valid a := (h6v a).2 hva
      have e : h6.next a = l.headD head := by rw [h6n, if_neg hab, if_pos rfl]
      simp only [List.headD_cons, q_swap_loop, if_neg (Ne.symm hha), get_next_valid hva, hn2,
        if_neg (Ne.symm hhb), hswap, get_next_valid hva6, e, Option.bind_eq_bind,
        Option.some_bind, e1]
    · simp only [swapPairs, nextSeg]
      refine ⟨?_, ?_, e2⟩
      · rw [e6 p (by simp only [List.mem_cons, not_or]; exact ⟨hpa, hpl⟩), h6n,
          if_neg hpb, if_neg hpa, if_pos rfl]
      · rw [e6 b (by simp only [List.mem_cons, not_or]; exact ⟨Ne.symm hab, hbl⟩), h6n,
          if_pos rfl]
    · simp only [swapPairs, prevSeg]
      refine ⟨?_, ?_, e3⟩
      · have hb' : b ∉ l ++ [head] := by
          simp only [List.mem_append, List.mem_singleton, not_or]
          exact ⟨hbl, Ne.symm hhb⟩
        rw [e7 b hb', h6p, if_neg (Ne.symm hcb), if_neg (Ne.symm hab), if_pos rfl]
      · have ha' : a ∉ l ++ [head] := by
          simp only [List.mem_append, List.mem_singleton, not_or]
          exact ⟨hal, Ne.symm hha⟩
        rw [e7 a ha', h6p, if_neg (Ne.symm hca), if_pos rfl]
    · rw [e4, hh6]; rfl
    · rw [e5, hh6]; rfl
    · intro x hx
      simp only [List.mem_cons, not_or] at hx
      rw [e6 x (by simp only [List.mem_cons, not_or]; exact ⟨hx.2.1, hx.2.2.2⟩), h6n,
        if_neg hx.2.2.1, if_neg hx.2.1, if_neg hx.1]
    · intro x hx
      simp only [List.cons_append, List.mem_cons, not_or] at hx
      have hxc : x ≠ l.headD head := fun e => hx.2.2 (e ▸ hcm)
      rw [e7 x hx.2.2, h6p, if_neg hxc, if_neg hx.1, if_neg hx.2.1]

theorem swapPairs_perm : ∀ (l : List Nat), (swapPairs l).Perm l
  | [] => List.Perm.refl _
  | [a] => List.Perm.refl _
  | a :: b :: l => by
    simp only [swapPairs]
    exact (List.Perm.swap a b _).trans (((swapPairs_perm l).cons b).cons a)

theorem swapPairs_length (l : List Nat) : (swapPairs l).length = l.length :=
  (swapPairs_perm l).length_eq

theorem swapPairs_pair : ∀ (l : List Nat) (k : Nat), 2 * k + 1 < l.length →
    (swapPairs l)[2 * k]? = l[2 * k + 1]? ∧ (swapPairs l)[2 * k + 1]? = l[2 * k]?
  | [], k, hk => by simp at hk
  | [a], k, hk => by simp at hk
  | a :: b :: l, 0, _ => by simp [swapPairs]
  | a :: b :: l, k + 1, hk => by
    have ih := swapPairs_pair l k (by simp only [List.length_cons] at hk; omega)
    have e1 : 2 * (k + 1) = 2 * k + 1 + 1 := by omega
    simp only [swapPairs, e1, List.getElem?_cons_succ]
    exact ih

theorem swapPairs_last : ∀ (l : List Nat), l.length % 2 = 1 →
    (swapPairs l)[l.length - 1]? = l[l.length - 1]?
  | [], hl => by simp at hl
  | [a], _ => by simp [swapPairs]
  | a :: b :: l, hl => by
    have hl' : l.length % 2 = 1 := by simp only [List.length_cons] at hl; omega
    have ih := swapPairs_last l hl'
    have e1 : (a :: b :: l).length - 1 = (l.length - 1) + 1 + 1 := by
      simp only [List.length_cons]; omega
    simp only [swapPairs, e1, List.getElem?_cons_succ]
    exact ih

theorem q_swap_spec {h : Heap} {head : Nat} {xs : List Nat} {fuel : Nat}
    (hr : Ring h head xs) (hf : xs.length + 1 ≤ fuel) :
    ∃ h', q_swap fuel h head = some h' ∧ Ring h' head (swapPairs xs) ∧
      h'.value = h.value ∧ h'.live = h.live ∧
      ∀ a, a ∉ head :: xs → h'.next a = h.next a ∧ h'.prev a = h.prev a := by
  have hr' := hr
  obtain ⟨hnd, hv, hn, hp⟩ := hr
  have hvh : h.valid head := hv head (by simp)
  have hnd2 := List.nodup_cons.1 hnd
  by_cases hx : xs = []
  · subst hx
    refine ⟨h, ?_, hr', rfl, rfl, fun _ _ => ⟨rfl, rfl⟩⟩
    simp [q_swap, hvh.1, list_empty_ring hr']
  · obtain ⟨h', e1, e2, e3, e4, e5, e6, e7⟩ := q_swap_loop_spec xs head fuel h hn hp hnd hnd2.1
      (fun a ha => hv a (by simp only [List.mem_cons] at ha ⊢; tauto)) hf
    have hperm := swapPairs_perm xs
    refine ⟨h', ?_, ⟨?_, ?_, e2, e3⟩, e4, e5, ?_⟩
    · simp only [q_swap, if_neg hvh.1, list_empty_ring hr', hx, decide_False,
        Option.bind_eq_bind, Option.some_bind, Bool.false_eq_true, if_false,
        get_next_valid hvh, nextSeg_headD hn, e1]
    · rw [List.nodup_cons, hperm.nodup_iff, hperm.mem_iff]; exact hnd2
    · intro a ha
      have ha' : a ∈ head :: xs := by
        simp only [List.mem_cons, hperm.mem_iff] at ha ⊢; exact ha
      exact ⟨(hv a ha').1, by rw [e5]; exact (hv a ha').2⟩
    · intro a ha
      refine ⟨e6 a ha, e7 a ?_⟩
      simp only [List.mem_cons, not_or] at ha
      simp only [List.mem_append, List.mem_singleton, not_or]
      exact ⟨ha.2, ha.1⟩

/-- C7: on a well-formed queue with elements `xs`, `q_swap` yields the order
`[x1, x0, x3, x2, ...]`: the nodes at positions `2k` and `2k+1` trade places
whenever `2k+1 < n`, and when `n` is odd the last node stays in place; the
nodes themselves move, every payload stays with its node. -/
theorem q_swap_pairs (h : Heap) (head : Nat) (xs : List Nat) (fuel : Nat)
    (hr : Ring h head xs) (hf : xs.length + 1 ≤ fuel) :
    ∃ h' ys, q_swap fuel h head = some h' ∧ Ring h' head ys ∧ ys.length = xs.length ∧
      (∀ k, 2 * k + 1 < xs.length →
        ys[2 * k]? = xs[2 * k + 1]? ∧ ys[2 * k + 1]? = xs[2 * k]?) ∧
      (xs.length % 2 = 1 → ys[xs.length - 1]? = xs[xs.length - 1]?) ∧
      h'.value = h.value ∧ h'.live = h.live := by
  obtain ⟨h', e, r, hv, hl, -⟩ := q_swap_spec hr hf
  exact ⟨h', _, e, r, swapPairs_length xs, swapPairs_pair xs, swapPairs_last xs, hv, hl⟩

theorem q_swap_pairs_witness :
    Ring demoHeap 1 [2, 3, 4] ∧
      ∃ h' ys, q_swap 4 demoHeap 1 = some h' ∧ Ring h' 1 ys ∧ ys.length = [2, 3, 4].length ∧
        (∀ k, 2 * k + 1 < [2, 3, 4].length →
          ys[2 * k]? = [2, 3, 4][2 * k + 1]? ∧ ys[2 * k + 1]? = [2, 3, 4][2 * k]?) ∧
        ([2, 3, 4].length % 2 = 1 → ys[[2, 3, 4].length - 1]? = [2, 3, 4][[2, 3, 4].length - 1]?) ∧
        h'.value = demoHeap.value ∧ h'.live = demoHeap.live :=
  ⟨by decide, q_swap_pairs demoHeap 1 [2, 3, 4] 4 (by decide) (by decide)⟩

/-! ## `q_delete_mid` -/

theorem q_delete_mid_loop_spec {h : Heap} {head : Nat} : ∀ (f m : List Nat)
    (pm pf fuel : Nat), nextSeg h pm m head → nextSeg h pf f head →
    (∀ a ∈ m, h.valid a) → (∀ a ∈ f, h.valid a) → head ∉ f →
    f.length / 2 ≤ m.length → f.length / 2 + 1 ≤ fuel →
    q_delete_mid_loop fuel h head (m.headD head) (f.headD head) =
      some ((m.drop (f.length / 2)).headD head)
  | [], m, pm, pf, fuel, _, _, _, _, _, _, hfuel => by
    obtain ⟨g, rfl⟩ : ∃ g, fuel = g + 1 := ⟨fuel - 1, by omega⟩
    simp [q_delete_mid_loop]
  | [a], m, pm, pf, fuel, _, hf, _, hvf, _, _, hfuel => by
    obtain ⟨g, rfl⟩ : ∃ g, fuel = g + 1 := ⟨fuel - 1, by omega⟩
    have hva : h.valid a := hvf a (by simp)
    simp only [nextSeg] at hf
    simp [q_delete_mid_loop, get_next_valid hva, hf.2]
  | a :: b :: f, [], pm, pf, fuel, _, _, _, _, _, hlen, _ => by
    simp only [List.length_cons, List.length_nil] at hlen
    omega
  | a :: b :: f, c :: m, pm, pf, fuel, hm, hf, hvm, hvf, hh, hlen, hfuel => by
    obtain ⟨g, rfl⟩ : ∃ g, fuel = g + 1 := ⟨fuel - 1, by omega⟩
    simp only [nextSeg] at hf hm
    simp only [List.mem_cons, not_or] at hh
    have hva : h.valid a := hvf a (by simp)
    have hvb : h.valid b := hvf b (by simp)
    have hvc : h.valid c := hvm c (by simp)
    have e : (a :: b :: f).length / 2 = f.length / 2 + 1 := by
      simp only [List.length_cons]; omega
    have ih := q_delete_mid_loop_spec f m c b g hm.2 hf.2.2
      (fun x hx => hvm x (List.mem_cons_of_mem _ hx))
      (fun x hx => hvf x (List.mem_cons_of_mem _ (List.mem_cons_of_mem _ hx))) hh.2.2
      (by simp only [List.length_cons] at hlen; omega)
      (by simp only [List.length_cons] at hfuel; omega)
    simp only [List.headD_cons, q_delete_mid_loop, if_neg (Ne.symm hh.1), get_next_valid hva,
      hf.2.1, if_neg (Ne.symm hh.2.1), get_next_valid hvc, get_next_valid hvb,
      Option.bind_eq_bind, Option.some_bind, nextSeg_headD hm.2, nextSeg_headD hf.2.2, ih, e,
      List.drop_succ_cons]

/-- Unlinking, forward direction: the node between two adjacent segments is
bypassed by redirecting the `next` link of its predecessor. -/
theorem nextSeg_unlink {h : Heap} {m q : Nat} {r : List Nat} : ∀ {l : List Nat} {p : Nat},
    nextSeg h p l m → nextSeg h m r q → (p :: l).Nodup → (∀ x ∈ r, x ∉ p :: l) →
    nextSeg (h.setNext (l.getLastD p) (r.headD q)) p (l ++ r) q
  | [], p, _, hr, _, hd => by
    show nextSeg (h.setNext p (r.headD q)) p r q
    refine nextSeg_restart hr ?_ ?_
    · simp only [setNext_next, if_true, nextSeg_headD hr]
    · intro x hx
      have : x ≠ p := fun e => hd x hx (by simp [e])
      simp only [setNext_next, if_neg this]
  | a :: l, p, hl, hr, hn, hd => by
    rw [List.nodup_cons] at hn
    have hne : p ≠ l.getLastD a := fun e => hn.1 (e ▸ getLastD_mem l a)
    simp only [List.cons_append, nextSeg, List.getLastD_cons, setNext_next, if_neg hne]
    exact ⟨hl.1, nextSeg_unlink hl.2 hr hn.2
      (fun x hx hx' => hd x hx (List.mem_cons_of_mem _ hx'))⟩

/-- Unlinking, backward direction: the node between two adjacent segments is
bypassed by redirecting the `prev` link of its successor. -/
theorem prevSeg_unlink {h : Heap} {m q : Nat} {r : List Nat} : ∀ {l : List Nat} {p : Nat},
    prevSeg h p l m → prevSeg h m r q → (r ++ [q]).Nodup → (∀ x ∈ l, x ∉ r ++ [q]) →
    prevSeg (h.setPrev (r.headD q) (l.getLastD p)) p (l ++ r) q
  | [], p, _, hr, hn, _ => by
    show prevSeg (h.setPrev (r.headD q) p) p r q
    refine prevSeg_restart hr ?_ ?_
    · simp only [setPrev_prev, if_true]
    · intro x hx
      have : x ≠ r.headD q := by
        cases r with
        | nil => simp at hx
        | cons c r =>
          simp only [List.cons_append, List.tail_cons] at hx
          simp only [List.cons_append, List.nodup_cons] at hn
          simp only [List.headD_cons]
          exact fun e => hn.1 (e ▸ hx)
      simp only [setPrev_prev, if_neg this]
  | a :: l, p, hl, hr, hn, hd => by
    have hne : a ≠ r.headD q := fun e => hd a (by simp) (e ▸ headD_mem r q)
    simp only [List.cons_append, prevSeg, List.getLastD_cons, setPrev_prev, if_neg hne]
    exact ⟨hl.1, prevSeg_unlink hl.2 hr hn (fun x hx => hd x (List.mem_cons_of_mem _ hx))⟩

theorem q_delete_mid_spec {h : Heap} {head : Nat} {xs : List Nat} {fuel : Nat}
    (hr : Ring h head xs) (hne : xs ≠ []) (hf : xs.length + 1 ≤ fuel) :
    ∃ h' m, q_delete_mid fuel h head = some (h', true) ∧
      xs[xs.length / 2]? = some m ∧
      Ring h' head (xs.eraseIdx (xs.length / 2)) ∧
      h'.value = h.value ∧ (∀ a, h'.live a = if a = m then false else h.live a) ∧
      ∀ a, a ∉ head :: xs → h'.next a = h.next a ∧ h'.prev a = h.prev a := by
  have hr' := hr
  obtain ⟨hnd, hv, hn, hp⟩ := hr
  have hvh : h.valid head := hv head (by simp)
  have hnd2 := List.nodup_cons.1 hnd
  have hpos : 0 < xs.length := List.length_pos.2 hne
  have hk : xs.length / 2 < xs.length := by omega
  -- the list around the middle node
  obtain ⟨m, r, hR⟩ : ∃ m r, xs.drop (xs.length / 2) = m :: r :=
    List.exists_cons_of_length_pos (by rw [List.length_drop]; omega)
  obtain ⟨l, hL⟩ : ∃ l, l = xs.take (xs.length / 2) := ⟨_, rfl⟩
  have hx : xs = l ++ m :: r := by
    rw [hL, ← hR, List.take_append_drop]
  have hm : xs[xs.length / 2]? = some m := by
    rw [List.getElem?_eq_getElem hk, List.drop_eq_getElem_cons hk] at *
    simp only [List.cons.injEq] at hR
    rw [hR.1]
  have her : xs.eraseIdx (xs.length / 2) = l ++ r := by
    rw [List.eraseIdx_eq_take_drop_succ, ← hL]
    have : xs.drop (xs.length / 2 + 1) = (xs.drop (xs.length / 2)).tail := by
      rw [List.tail_drop]
    rw [this, hR, List.tail_cons]
  -- the walk
  have hloop : q_delete_mid_loop fuel h head (xs.headD head) (xs.headD head) = some m := by
    have := q_delete_mid_loop_spec (h := h) xs xs head head fuel hn hn
      (fun a ha => hv a (List.mem_cons_of_mem _ ha))
      (fun a ha => hv a (List.mem_cons_of_mem _ ha)) hnd2.1 (by omega) (by omega)
    rw [this, hR, List.headD_cons]
  -- the neighbours of the middle node
  rw [hx] at hn hp hnd hnd2 hv
  rw [nextSeg_append] at hn
  rw [prevSeg_append] at hp
  have hnx : h.next m = r.headD head := nextSeg_headD hn.2
  have hpv : h.prev m = l.getLastD head := prevSeg_getLastD hp.1
  have hvm : h.valid m := hv m (by simp)
  have hvn : h.valid (r.headD head) := hv _ (by
    have := headD_mem r head
    simp only [List.mem_append, List.mem_singleton, List.mem_cons] at this ⊢; tauto)
  have hvp : h.valid (l.getLastD head) := hv _ (by
    have := getLastD_mem l head
    simp only [List.mem_append, List.mem_cons] at this ⊢; tauto)
  have hndm : (head :: l ++ m :: r).Nodup := hnd
  simp only [List.cons_append, List.nodup_cons, List.mem_append, List.mem_cons, not_or,
    List.nodup_append] at hndm
  obtain ⟨⟨hhl, hhm, hhr⟩, hnl, ⟨hmr, hnr⟩, hdis⟩ := hndm
  refine ⟨((h.setPrev (r.headD head) (l.getLastD head)).setNext (l.getLastD head)
    (r.headD head)).setLive m false, m, ?_, hm, ?_, rfl, fun _ => rfl, ?_⟩
  · have hv1 : (h.setPrev (r.headD head) (l.getLastD head)).valid (l.getLastD head) := hvp
    have hv2 : ((h.setPrev (r.headD head) (l.getLastD head)).setNext (l.getLastD head)
      (r.headD head)).valid m := hvm
    simp only [q_delete_mid, if_neg hvh.1, list_empty_ring hr', hne, decide_False,
      Option.bind_eq_bind, Option.some_bind, Bool.false_eq_true, if_false, get_next_valid hvh,
      nextSeg_headD (show nextSeg h head xs head from hr'.2.2.1), hloop, list_del,
      get_next_valid hvm, get_prev_valid hvm, hnx, hpv, set_prev_valid hvn, set_next_valid hv1,
      q_release_element, if_pos hv2, free, if_neg hvm.1]
    simp [hvm.2]
  · rw [her]
    have hml : m ∉ l := fun e => hdis e (List.mem_cons_self _ _)
    refine ⟨?_, ?_, ?_, ?_⟩
    · simp only [List.cons_append, List.nodup_cons, List.mem_append, not_or,
        List.nodup_append]
      exact ⟨⟨hhl, hhr⟩, hnl, hnr, fun a ha hb => hdis ha (List.mem_cons_of_mem _ hb)⟩
    · intro a ha
      have ha' : a ∈ head :: (l ++ m :: r) := by
        simp only [List.mem_cons, List.mem_append] at ha ⊢; tauto
      have hne' : a ≠ m := by
        rintro rfl
        simp only [List.mem_cons, List.mem_append] at ha
        rcases ha with rfl | ha | ha
        · exact hhm rfl
        · exact hml ha
        · exact hmr ha
      exact ⟨(hv a ha').1, by simp [hne', (hv a ha').2]⟩
    · rw [nextSeg_congr (h := h.setNext (l.getLastD head) (r.headD head))]
      · refine nextSeg_unlink hn.1 hn.2 (List.nodup_cons.2 ⟨hhl, hnl⟩) ?_
        intro a ha ha'
        rcases List.mem_cons.1 ha' with rfl | ha'
        · exact hhr ha
        · exact hdis ha' (List.mem_cons_of_mem _ ha)
      · intro a _; rfl
    · rw [prevSeg_congr (h := h.setPrev (r.headD head) (l.getLastD head))]
      · refine prevSeg_unlink hp.1 hp.2 ?_ ?_
        · rw [List.nodup_append]
          refine ⟨hnr, List.nodup_singleton _, ?_⟩
          intro a ha hb
          simp only [List.mem_singleton] at hb
          exact hhr (hb ▸ ha)
        · intro a ha hb
          simp only [List.mem_append, List.mem_singleton] at hb
          rcases hb with hb | hb
          · exact hdis ha (List.mem_cons_of_mem _ hb)
          · exact hhl (hb ▸ ha)
      · intro a _; rfl
  · intro a ha
    rw [hx] at ha
    have h1 : a ≠ l.getLastD head := fun e => ha (by
      have := getLastD_mem l head
      rw [e]
      simp only [List.mem_append, List.mem_cons] at this ⊢; tauto)
    have h2 : a ≠ r.headD head := fun e => ha (by
      have := headD_mem r head
      rw [e]
      simp only [List.mem_append, List.mem_singleton, List.mem_cons] at this ⊢; tauto)
    simp only [setLive_next, setNext_next, if_neg h1, setPrev_next, setLive_prev, setNext_prev,
      setPrev_prev, if_neg h2, and_self]

/-- C8: on a well-formed queue with `n >= 1` elements `q_delete_mid` returns
true and leaves the queue with exactly the element at index `n / 2` (0-based)
removed, the others in their original order; the removed element is released
and no payload changes. -/
theorem q_delete_mid_removes (h : Heap) (head : Nat) (xs : List Nat) (fuel : Nat)
    (hr : Ring h head xs) (hn : 1 ≤ xs.length) (hf : xs.length + 1 ≤ fuel) :
    ∃ h' m, q_delete_mid fuel h head = some (h', true) ∧
      xs[xs.length / 2]? = some m ∧
      Ring h' head (xs.eraseIdx (xs.length / 2)) ∧
      h'.value = h.value ∧ h'.live m = false ∧ ∀ a, a ≠ m → h'.live a = h.live a := by
  obtain ⟨h', m, e, hm, r, hv, hl, -⟩ := q_delete_mid_spec hr (List.length_pos.1 hn) hf
  refine ⟨h', m, e, hm, r, hv, ?_, ?_⟩
  · rw [hl, if_pos rfl]
  · intro a ha
    rw [hl, if_neg ha]

theorem q_delete_mid_removes_witness :
    Ring demoHeap 1 [2, 3, 4] ∧
      ∃ h' m, q_delete_mid 4 demoHeap 1 = some (h', true) ∧
        [2, 3, 4][[2, 3, 4].length / 2]? = some m ∧
        Ring h' 1 ([2, 3, 4].eraseIdx ([2, 3, 4].length / 2)) ∧
        h'.value = demoHeap.value ∧ h'.live m = false ∧
        ∀ a, a ≠ m → h'.live a = demoHeap.live a :=
  ⟨by decide, q_delete_mid_removes demoHeap 1 [2, 3, 4] 4 (by decide) (by decide) (by decide)⟩

/-! ## `q_delete_dup` -/

/-- C9 (the code at a failing input): on the sorted queue holding "a", "a", "b"
`q_delete_dup` returns true and leaves the heap as it was, so the two equal
payloads are still adjacent in the traversal and the size is still three. -/
theorem q_delete_dup_keeps_duplicates :
    Ring sortedHeap 1 [2, 3, 4] ∧
      strcmp (sortedHeap.value 2) (sortedHeap.value 3) ≤ 0 ∧
      strcmp (sortedHeap.value 3) (sortedHeap.value 4) ≤ 0 ∧
      q_delete_dup sortedHeap 1 = (sortedHeap, true) ∧
      Ring (q_delete_dup sortedHeap 1).1 1 [2, 3, 4] ∧
      strcmp ((q_delete_dup sortedHeap 1).1.value 2) ((q_delete_dup sortedHeap 1).1.value 3) = 0 :=
  ⟨by decide, by decide, by decide, rfl, by decide, by decide⟩

/-! ## `q_insert_head` and `q_insert_tail` -/

theorem size_of_int_of_size {x : Nat} (hx : x < 4294967296) :
    x ≤ size_of_int (int_of_size x) := by
  unfold size_of_int int_of_size
  split_ifs <;> omega

theorem size_of_int_of_size_small {x : Nat} (hx : x < 2147483648) :
    size_of_int (int_of_size x) = x := by
  unfold size_of_int int_of_size
  split_ifs <;> omega

theorem cstr_append_zeros : ∀ (s : List Nat) (k : Nat),
    cstr (cstr s ++ List.replicate (k + 1) 0) = cstr s
  | [], k => by simp [cstr, List.replicate_succ]
  | a :: s, k => by
    have ih := cstr_append_zeros s k
    unfold cstr at ih ⊢
    by_cases ha : a = 0
    · simp [ha, List.replicate_succ]
    · simp [ha, List.takeWhile_cons, ih]

theorem cstr_strncpy {s : List Nat} {n : Nat} (hn : strlen s + 1 ≤ n) :
    cstr (strncpy s n) = cstr s := by
  unfold strncpy
  obtain ⟨k, hk⟩ : ∃ k, n - strlen s = k + 1 := ⟨n - strlen s - 1, by omega⟩
  rw [hk, List.take_of_length_le (by unfold strlen at hn; omega), cstr_append_zeros]

theorem tail_ne_headD {l : List Nat} {q x : Nat} (hn : (l ++ [q]).Nodup)
    (hx : x ∈ (l ++ [q]).tail) : x ≠ l.headD q := by
  cases l with
  | nil => simp at hx
  | cons c l =>
    simp only [List.cons_append, List.tail_cons] at hx
    simp only [List.cons_append, List.nodup_cons] at hn
    simp only [List.headD_cons]
    exact fun e => hn.1 (e ▸ hx)

/-- A segment ends at a new node once the `prev` link of that node points to
the last node of the segment. -/
theorem prevSeg_newEnd {h : Heap} {q q' : Nat} : ∀ {l : List Nat} {p : Nat},
    prevSeg h p l q → q' ∉ l → prevSeg (h.setPrev q' (l.getLastD p)) p l q'
  | [], p, _, _ => by simp [prevSeg]
  | a :: l, p, hs, hq => by
    simp only [List.mem_cons, not_or] at hq
    simp only [prevSeg, List.getLastD_cons, setPrev_prev, if_neg (Ne.symm hq.1)]
    exact ⟨hs.1, prevSeg_newEnd hs.2 hq.2⟩

theorem q_alloc_element_spec {h : Heap} {s : List Nat} {r : Nat} (hr0 : r ≠ 0)
    (hrl : h.live r = false) :
    q_alloc_element h s r true = some
      ((((h.setLive r true).setNext r r).setPrev r r).setValue r
        (strncpy s (size_of_int (int_of_size (strlen s + 1)))), r) := by
  have hv : (h.setLive r true).valid r := ⟨hr0, by simp⟩
  have hv1 : ((h.setLive r true).setNext r r).valid r := hv
  simp [q_alloc_element, malloc, hr0, hrl, INIT_LIST_HEAD, set_next_valid hv,
    set_prev_valid hv1]

theorem setLive_true_valid {h : Heap} {r a : Nat} (hv : h.valid a) :
    (h.setLive r true).valid a := by
  refine ⟨hv.1, ?_⟩
  by_cases e : a = r
  · simp [e]
  · simp [e, hv.2]

theorem fresh_not_mem {h : Heap} {r : Nat} {l : List Nat} (hrl : h.live r = false)
    (hv : ∀ a ∈ l, h.valid a) : r ∉ l := by
  intro hr
  have := (hv r hr).2
  rw [hrl] at this
  exact Bool.false_ne_true this

theorem q_insert_head_spec {h : Heap} {head : Nat} {xs : List Nat} {s : List Nat} {r : Nat}
    (hr : Ring h head xs) (hr0 : r ≠ 0) (hrl : h.live r = false) :
    ∃ h', q_insert_head h head s r true = some (h', true) ∧ Ring h' head (r :: xs) ∧
      h'.value r = strncpy s (size_of_int (int_of_size (strlen s + 1))) ∧
      (∀ a, a ≠ r → h'.value a = h.value a ∧ h'.live a = h.live a) ∧
      ∀ a, a ≠ r → a ∉ head :: xs → h'.next a = h.next a ∧ h'.prev a = h.prev a := by
  obtain ⟨hnd, hv, hn, hp⟩ := hr
  have hvh : h.valid head := hv head (by simp)
  have hnd2 := List.nodup_cons.1 hnd
  have hrm : r ∉ head :: xs := fresh_not_mem hrl hv
  have hrh : r ≠ head := fun e => hrm (by simp [e])
  have hrx : r ∉ xs := fun e => hrm (List.mem_cons_of_mem _ e)
  have hcm := headD_mem xs head
  have hcne : xs.headD head ≠ r := fun e => by
    rw [e] at hcm
    simp only [List.mem_append, List.mem_singleton] at hcm
    rcases hcm with hcm | hcm
    · exact hrx hcm
    · exact hrh hcm
  have hvc : h.valid (xs.headD head) := hv _ (by
    simp only [List.mem_append, List.mem_singleton] at hcm
    simp only [List.mem_cons]; tauto)
  obtain ⟨v, hvdef⟩ : ∃ v, v = strncpy s (size_of_int (int_of_size (strlen s + 1))) := ⟨_, rfl⟩
  obtain ⟨h2, hh2⟩ : ∃ h2, h2 = (((h.setLive r true).setNext r r).setPrev r r).setValue r v :=
    ⟨_, rfl⟩
  have hv2 : ∀ a, h.valid a → h2.valid a := fun a ha => by
    rw [hh2]; exact setLive_true_valid ha
  have hv2r : h2.valid r := by rw [hh2]; exact ⟨hr0, by simp⟩
  have h2n : ∀ x, h2.next x = if x = r then r else h.next x := by
    intro x; rw [hh2]; simp
  have h2p : ∀ x, h2.prev x = if x = r then r else h.prev x := by
    intro x; rw [hh2]; simp
  obtain ⟨h6, hh6⟩ : ∃ h6, h6 = (((h2.setPrev (xs.headD head) r).setNext r
    (xs.headD head)).setPrev r head).setNext head r := ⟨_, rfl⟩
  have h6n : ∀ x, h6.next x =
      if x = head then r else if x = r then xs.headD head else h.next x := by
    intro x; rw [hh6]; simp only [setNext_next, setPrev_next, h2n]
    split_ifs <;> rfl
  have h6p : ∀ x, h6.prev x =
      if x = r then head else if x = xs.headD head then r else h.prev x := by
    intro x; rw [hh6]; simp only [setNext_prev, setPrev_prev, h2p]
    split_ifs <;> rfl
  have hrun : q_insert_head h head s r true = some (h6, true) := by
    have e1 : h2.next head = xs.headD head := by rw [h2n, if_neg (Ne.symm hrh), nextSeg_headD hn]
    have a1 : (h2.setPrev (xs.headD head) r).valid r := hv2r
    have a2 : ((h2.setPrev (xs.headD head) r).setNext r (xs.headD head)).valid r := hv2r
    have a3 : (((h2.setPrev (xs.headD head) r).setNext r (xs.headD head)).setPrev r head).valid
      head := hv2 head hvh
    simp only [q_insert_head, if_neg hvh.1, q_alloc_element_spec hr0 hrl, ← hvdef, ← hh2,
      Option.bind_eq_bind, Option.some_bind, if_neg hr0, list_add, get_next_valid (hv2 head hvh),
      e1, set_prev_valid (hv2 _ hvc), set_next_valid a1, set_prev_valid a2, set_next_valid a3,
      ← hh6]
    rfl
  refine ⟨h6, hrun, ⟨?_, ?_, ?_, ?_⟩, ?_, ?_, ?_⟩
  · exact List.nodup_cons.2 ⟨fun e => by
      rcases List.mem_cons.1 e with e | e
      · exact hrh e.symm
      · exact hnd2.1 e, List.nodup_cons.2 ⟨hrx, hnd2.2⟩⟩
  · intro a ha
    rw [hh6]
    show h2.valid a
    simp only [List.mem_cons] at ha
    rcases ha with rfl | rfl | ha
    · exact hv2 _ hvh
    · exact hv2r
    · exact hv2 a (hv a (List.mem_cons_of_mem _ ha))
  · refine ⟨by rw [h6n, if_pos rfl], nextSeg_restart hn ?_ ?_⟩
    · rw [h6n, if_neg hrh, if_pos rfl, nextSeg_headD hn]
    · intro x hx
      have h1 : x ≠ head := fun e => hnd2.1 (e ▸ hx)
      have h2' : x ≠ r := fun e => hrx (e ▸ hx)
      rw [h6n, if_neg h1, if_neg h2']
  · refine ⟨by rw [h6p, if_pos rfl], prevSeg_restart hp ?_ ?_⟩
    · rw [h6p, if_neg hcne, if_pos rfl]
    · intro x hx
      have hnd3 : (xs ++ [head]).Nodup := by
        rw [List.nodup_append]
        refine ⟨hnd2.2, List.nodup_singleton _, ?_⟩
        intro a ha hb
        simp only [List.mem_singleton] at hb
        exact hnd2.1 (hb ▸ ha)
      have h1 : x ≠ xs.headD head := tail_ne_headD hnd3 hx
      have h2' : x ≠ r := fun e => by
        have := List.mem_of_mem_tail hx
        rw [e] at this
        simp only [List.mem_append, List.mem_singleton] at this
        rcases this with this | this
        · exact hrx this
        · exact hrh this
      rw [h6p, if_neg h2', if_neg h1]
  · rw [hh6, hh2, hvdef]; simp
  · intro a ha
    rw [hh6, hh2]; simp [ha]
  · intro a ha hm
    simp only [List.mem_cons, not_or] at hm
    have h1 : a ≠ xs.headD head := fun e => by
      rw [e] at hm
      simp only [List.mem_append, List.mem_singleton] at hcm
      tauto
    rw [h6n, h6p, if_neg hm.1, if_neg ha, if_neg ha, if_neg h1]
    exact ⟨rfl, rfl⟩

theorem q_insert_tail_spec {h : Heap} {head : Nat} {xs : List Nat} {s : List Nat} {r : Nat}
    (hr : Ring h head xs) (hr0 : r ≠ 0) (hrl : h.live r = false) :
    ∃ h', q_insert_tail h head s r true = some (h', true) ∧ Ring h' head (xs ++ [r]) ∧
      h'.value r = strncpy s (size_of_int (int_of_size (strlen s + 1))) ∧
      (∀ a, a ≠ r → h'.value a = h.value a ∧ h'.live a = h.live a) ∧
      ∀ a, a ≠ r → a ∉ head :: xs → h'.next a = h.next a ∧ h'.prev a = h.prev a := by
  obtain ⟨hnd, hv, hn, hp⟩ := hr
  have hvh : h.valid head := hv head (by simp)
  have hnd2 := List.nodup_cons.1 hnd
  have hrm : r ∉ head :: xs := fresh_not_mem hrl hv
  have hrh : r ≠ head := fun e => hrm (by simp [e])
  have hrx : r ∉ xs := fun e => hrm (List.mem_cons_of_mem _ e)
  have hzm := getLastD_mem xs head
  have hzne : xs.getLastD head ≠ r := fun e => hrm (e ▸ hzm)
  have hvz : h.valid (xs.getLastD head) := hv _ hzm
  obtain ⟨v, hvdef⟩ : ∃ v, v = strncpy s (size_of_int (int_of_size (strlen s + 1))) := ⟨_, rfl⟩
  obtain ⟨h2, hh2⟩ : ∃ h2, h2 = (((h.setLive r true).setNext r r).setPrev r r).setValue r v :=
    ⟨_, rfl⟩
  have hv2 : ∀ a, h.valid a → h2.valid a := fun a ha => by
    rw [hh2]; exact setLive_true_valid ha
  have hv2r : h2.valid r := by rw [hh2]; exact ⟨hr0, by simp⟩
  have h2n : ∀ x, h2.next x = if x = r then r else h.next x := by
    intro x; rw [hh2]; simp
  have h2p : ∀ x, h2.prev x = if x = r then r else h.prev x := by
    intro x; rw [hh2]; simp
  obtain ⟨h6, hh6⟩ : ∃ h6, h6 = (((h2.setNext (xs.getLastD head) r).setNext r
    head).setPrev r (xs.getLastD head)).setPrev head r := ⟨_, rfl⟩
  have h6n : ∀ x, h6.next x =
      if x = r then head else if x = xs.getLastD head then r else h.next x := by
    intro x; rw [hh6]; simp only [setNext_next, setPrev_next, h2n]
    split_ifs <;> rfl
  have h6p : ∀ x, h6.prev x =
      if x = head then r else if x = r then xs.getLastD head else h.prev x := by
    intro x; rw [hh6]; simp only [setNext_prev, setPrev_prev, h2p]
    split_ifs <;> rfl
  have hrun : q_insert_tail h head s r true = some (h6, true) := by
    have e1 : h2.prev head = xs.getLastD head := by
      rw [h2p, if_neg (Ne.symm hrh), prevSeg_getLastD hp]
    have a1 : (h2.setNext (xs.getLastD head) r).valid r := hv2r
    have a2 : ((h2.setNext (xs.getLastD head) r).setNext r head).valid r := hv2r
    have a3 : (((h2.setNext (xs.getLastD head) r).setNext r head).setPrev r
      (xs.getLastD head)).valid head := hv2 head hvh
    simp only [q_insert_tail, if_neg hvh.1, q_alloc_element_spec hr0 hrl, ← hvdef, ← hh2,
      Option.bind_eq_bind, Option.some_bind, if_neg hr0, list_add_tail,
      get_prev_valid (hv2 head hvh), e1, set_next_valid (hv2 _ hvz), set_next_valid a1,
      set_prev_valid a2, set_prev_valid a3, ← hh6]
    rfl
  refine ⟨h6, hrun, ⟨?_, ?_, ?_, ?_⟩, ?_, ?_, ?_⟩
  · rw [List.nodup_cons] at hnd ⊢
    refine ⟨?_, ?_⟩
    · simp only [List.mem_append, List.mem_singleton, not_or]
      exact ⟨hnd.1, Ne.symm hrh⟩
    · rw [List.nodup_append]
      refine ⟨hnd.2, List.nodup_singleton _, ?_⟩
      intro a ha hb
      simp only [List.mem_singleton] at hb
      exact hrx (hb ▸ ha)
  · intro a ha
    rw [hh6]
    show h2.valid a
    simp only [List.mem_cons, List.mem_append, List.mem_singleton, List.not_mem_nil,
      or_false] at ha
    rcases ha with rfl | ha | rfl
    · exact hv2 _ hvh
    · exact hv2 a (hv a (List.mem_cons_of_mem _ ha))
    · exact hv2r
  · rw [nextSeg_append]
    refine ⟨?_, by simp only [nextSeg]; rw [h6n, if_pos rfl]⟩
    rw [nextSeg_congr (h := h.setNext (xs.getLastD head) r)]
    · exact nextSeg_setLast r hn hnd
    · intro a ha
      have h1 : a ≠ r := fun e => hrm (e ▸ ha)
      rw [h6n, if_neg h1]; rfl
  · rw [prevSeg_append]
    refine ⟨?_, by simp only [prevSeg]; rw [h6p, if_pos rfl]⟩
    rw [prevSeg_congr (h := h.setPrev r (xs.getLastD head))]
    · exact prevSeg_newEnd hp hrx
    · intro a ha
      simp only [List.mem_append, List.mem_singleton] at ha
      have h1 : a ≠ head := by
        rintro rfl
        rcases ha with ha | ha
        · exact hnd2.1 ha
        · exact hrh ha.symm
      rw [h6p, if_neg h1]; rfl
  · rw [hh6, hh2, hvdef]; simp
  · intro a ha
    rw [hh6, hh2]; simp [ha]
  · intro a ha hm
    have h1 : a ≠ xs.getLastD head := fun e => hm (e ▸ hzm)
    simp only [List.mem_cons, not_or] at hm
    rw [h6n, h6p, if_neg hm.1, if_neg ha, if_neg ha, if_neg h1]
    exact ⟨rfl, rfl⟩

theorem cstr_replicate (n : Nat) : cstr (List.replicate n 97) = List.replicate n 97 := by
  induction n with
  | zero => rfl
  | succ n ih =>
    unfold cstr at ih ⊢
    rw [List.replicate_succ, List.takeWhile_cons]
    simp [ih]

theorem strlen_longString : strlen longString = 4294967296 := by
  unfold strlen longString
  rw [cstr_replicate, List.length_replicate]

theorem len_longString : size_of_int (int_of_size (4294967296 + 1)) = 1 := by
  unfold size_of_int int_of_size
  norm_num

theorem take_one_replicate (n a : Nat) : (List.replicate (n + 1) a).take 1 = [a] := by
  rw [List.replicate_succ, List.take_succ_cons, List.take_zero]

theorem strncpy_longString :
    strncpy longString (size_of_int (int_of_size (strlen longString + 1))) = [97] := by
  have hc : cstr longString = List.replicate (4294967295 + 1) 97 := by
    unfold longString
    rw [cstr_replicate]
  unfold strncpy
  rw [strlen_longString, len_longString, hc, take_one_replicate]
  have e : 1 - 4294967296 = 0 := by omega
  rw [e, List.replicate_zero, List.append_nil]

/-- C10 (the code at a failing input): inserting a string of `2^32` bytes into
the empty queue returns true, yet the new element holds a single byte with no
terminator: `int len` in `q_alloc_element` wraps to `1`, so one byte is
allocated and copied and the payload is not the string that was passed. -/
theorem q_insert_head_long_string :
    Ring emptyHeap 1 [] ∧ emptyHeap.live 2 = false ∧
      ∃ h', q_insert_head emptyHeap 1 longString 2 true = some (h', true) ∧
        Ring h' 1 [2] ∧ h'.value 2 = [97] ∧ cstr (h'.value 2) ≠ cstr longString := by
  have hr : Ring emptyHeap 1 [] := by decide
  refine ⟨hr, by decide, ?_⟩
  obtain ⟨h', e, r, hv, -, -⟩ := q_insert_head_spec (s := longString) hr
    (show (2 : Nat) ≠ 0 by decide) (show emptyHeap.live 2 = false by decide)
  rw [strncpy_longString] at hv
  refine ⟨h', e, r, hv, ?_⟩
  rw [hv]
  intro hc
  have h1 : (cstr [97]).length = 1 := rfl
  have h2 : (cstr longString).length = 4294967296 := strlen_longString
  rw [hc, h2] at h1
  omega

/-- Insertion of a string that `int len` holds: for a well-formed queue with
elements `xs` and a string `s` with `strlen(s) + 1 < 2^32`, when both
allocations succeed `q_insert_head` returns true and the traversal becomes the
new node followed by `xs`, and `q_insert_tail` returns true and the traversal
becomes `xs` followed by the new node; the new payload is the string `s`, and
the payloads and allocation status of the existing elements are unchanged. -/
theorem q_insert_ends (h : Heap) (head : Nat) (xs s : List Nat) (r : Nat)
    (hr : Ring h head xs) (hr0 : r ≠ 0) (hrl : h.live r = false)
    (hs : strlen s + 1 < 4294967296) :
    (∃ h', q_insert_head h head s r true = some (h', true) ∧ Ring h' head (r :: xs) ∧
      cstr (h'.value r) = cstr s ∧
      ∀ a, a ≠ r → h'.value a = h.value a ∧ h'.live a = h.live a) ∧
    (∃ h', q_insert_tail h head s r true = some (h', true) ∧ Ring h' head (xs ++ [r]) ∧
      cstr (h'.value r) = cstr s ∧
      ∀ a, a ≠ r → h'.value a = h.value a ∧ h'.live a = h.live a) := by
  have hc : cstr (strncpy s (size_of_int (int_of_size (strlen s + 1)))) = cstr s :=
    cstr_strncpy (size_of_int_of_size hs)
  constructor
  · obtain ⟨h', e, r', hv, hfr, -⟩ := q_insert_head_spec (s := s) hr hr0 hrl
    exact ⟨h', e, r', by rw [hv, hc], hfr⟩
  · obtain ⟨h', e, r', hv, hfr, -⟩ := q_insert_tail_spec (s := s) hr hr0 hrl
    exact ⟨h', e, r', by rw [hv, hc], hfr⟩

theorem q_insert_ends_witness :
    Ring demoHeap 1 [2, 3, 4] ∧
    (∃ h', q_insert_head demoHeap 1 [120, 0] 5 true = some (h', true) ∧
      Ring h' 1 (5 :: [2, 3, 4]) ∧ cstr (h'.value 5) = cstr [120, 0] ∧
      ∀ a, a ≠ 5 → h'.value a = demoHeap.value a ∧ h'.live a = demoHeap.live a) ∧
    (∃ h', q_insert_tail demoHeap 1 [120, 0] 5 true = some (h', true) ∧
      Ring h' 1 ([2, 3, 4] ++ [5]) ∧ cstr (h'.value 5) = cstr [120, 0] ∧
      ∀ a, a ≠ 5 → h'.value a = demoHeap.value a ∧ h'.live a = demoHeap.live a) :=
  ⟨by decide, q_insert_ends demoHeap 1 [2, 3, 4] [120, 0] 5 (by decide) (by decide)
    (by decide) (by decide)⟩

/-! ## `q_remove_head` and `q_remove_tail` -/

/-- A ring stays a ring in any heap that agrees with it on the links and the
validity of its nodes. -/
theorem Ring.congr {h h' : Heap} {head : Nat} {xs : List Nat} (hr : Ring h head xs)
    (hn : ∀ a ∈ head :: xs, h'.next a = h.next a)
    (hp : ∀ a ∈ head :: xs, h'.prev a = h.prev a)
    (hv : ∀ a ∈ head :: xs, h'.valid a) : Ring h' head xs := by
  obtain ⟨hnd, -, hns, hps⟩ := hr
  refine ⟨hnd, hv, (nextSeg_congr hn).2 hns, (prevSeg_congr ?_).2 hps⟩
  intro a ha
  refine hp a ?_
  simp only [List.mem_append, List.mem_singleton, List.mem_cons] at ha ⊢
  tauto

/-- Unlinking the node `m` of a ring by joining its two neighbours. -/
theorem ring_unlink {h : Heap} {head m : Nat} {l r : List Nat}
    (hr : Ring h head (l ++ m :: r)) :
    Ring ((h.setPrev (r.headD head) (l.getLastD head)).setNext (l.getLastD head)
      (r.headD head)) head (l ++ r) ∧
    h.next m = r.headD head ∧ h.prev m = l.getLastD head ∧ m ∉ head :: (l ++ r) ∧
    h.valid m ∧ h.valid (r.headD head) ∧ h.valid (l.getLastD head) := by
  obtain ⟨hnd, hv, hn, hp⟩ := hr
  rw [nextSeg_append] at hn
  rw [prevSeg_append] at hp
  have hvn : h.valid (r.headD head) := hv _ (by
    have := headD_mem r head
    simp only [List.mem_append, List.mem_singleton, List.mem_cons] at this ⊢; tauto)
  have hvp : h.valid (l.getLastD head) := hv _ (by
    have := getLastD_mem l head
    simp only [List.mem_append, List.mem_cons] at this ⊢; tauto)
  have hndm : (head :: l ++ m :: r).Nodup := hnd
  simp only [List.cons_append, List.nodup_cons, List.mem_append, List.mem_cons, not_or,
    List.nodup_append] at hndm
  obtain ⟨⟨hhl, hhm, hhr⟩, hnl, ⟨hmr, hnr⟩, hdis⟩ := hndm
  have hml : m ∉ l := fun e => hdis e (List.mem_cons_self _ _)
  refine ⟨⟨?_, ?_, ?_, ?_⟩, nextSeg_headD hn.2, prevSeg_getLastD hp.1, ?_, hv m (by simp),
    hvn, hvp⟩
  · simp only [List.cons_append, List.nodup_cons, List.mem_append, not_or,
      List.nodup_append]
    exact ⟨⟨hhl, hhr⟩, hnl, hnr, fun a ha hb => hdis ha (List.mem_cons_of_mem _ hb)⟩
  · intro a ha
    exact hv a (by simp only [List.mem_cons, List.mem_append] at ha ⊢; tauto)
  · rw [nextSeg_congr (h := h.setNext (l.getLastD head) (r.headD head))]
    · refine nextSeg_unlink hn.1 hn.2 (List.nodup_cons.2 ⟨hhl, hnl⟩) ?_
      intro a ha ha'
      rcases List.mem_cons.1 ha' with rfl | ha'
      · exact hhr ha
      · exact hdis ha' (List.mem_cons_of_mem _ ha)
    · intro a _; rfl
  · rw [prevSeg_congr (h := h.setPrev (r.headD head) (l.getLastD head))]
    · refine prevSeg_unlink hp.1 hp.2 ?_ ?_
      · rw [List.nodup_append]
        refine ⟨hnr, List.nodup_singleton _, ?_⟩
        intro a ha hb
        simp only [List.mem_singleton] at hb
        exact hhr (hb ▸ ha)
      · intro a ha hb
        simp only [List.mem_append, List.mem_singleton] at hb
        rcases hb with hb | hb
        · exact hdis ha (List.mem_cons_of_mem _ hb)
        · exact hhl (hb ▸ ha)
    · intro a _; rfl
  · simp only [List.mem_cons, List.mem_append, not_or]
    exact ⟨Ne.symm hhm, hml, hmr⟩

/-- The heap after `list_del_init(m)` on the node `m` of a ring. -/
theorem list_del_init_spec {h : Heap} {head m : Nat} {l r : List Nat}
    (hr : Ring h head (l ++ m :: r)) :
    ∃ h', list_del_init h m = some h' ∧ Ring h' head (l ++ r) ∧
      h'.next m = m ∧ h'.prev m = m ∧ h'.value = h.value ∧ h'.live = h.live ∧
      (∀ a, a ∉ head :: (l ++ m :: r) → h'.next a = h.next a ∧ h'.prev a = h.prev a) ∧
      (∀ a, a ≠ m → a ≠ l.getLastD head → h'.next a = h.next a) ∧
      (∀ a, a ≠ m → a ≠ r.headD head → h'.prev a = h.prev a) ∧
      h'.next (l.getLastD head) = r.headD head ∧ h'.prev (r.headD head) = l.getLastD head := by
  obtain ⟨hu, hnx, hpv, hm, hvm, hvn, hvp⟩ := ring_unlink hr
  simp only [List.mem_cons, List.mem_append, not_or] at hm
  have hzm : l.getLastD head ≠ m := fun e => by
    have := getLastD_mem l head
    rw [e] at this
    simp only [List.mem_cons, List.mem_append] at this
    tauto
  have hcm : r.headD head ≠ m := fun e => by
    have := headD_mem r head
    rw [e] at this
    simp only [List.mem_append, List.mem_singleton] at this
    tauto
  obtain ⟨h2, hh2⟩ : ∃ h2, h2 = ((h.setPrev (r.headD head) (l.getLastD head)).setNext
    (l.getLastD head) (r.headD head)) := ⟨_, rfl⟩
  rw [← hh2] at hu
  refine ⟨(h2.setNext m m).setPrev m m, ?_, ?_, by simp, by simp, by rw [hh2]; rfl,
    by rw [hh2]; rfl, ?_, ?_, ?_, ?_, ?_⟩
  · have a1 : (h.setPrev (r.headD head) (l.getLastD head)).valid (l.getLastD head) := hvp
    have a2 : h2.valid m := by rw [hh2]; exact hvm
    have a3 : (h2.setNext m m).valid m := a2
    simp only [list_del_init, list_del, get_next_valid hvm, get_prev_valid hvm, hnx, hpv,
      set_prev_valid hvn, set_next_valid a1, ← hh2, INIT_LIST_HEAD, set_next_valid a2,
      set_prev_valid a3, Option.bind_eq_bind, Option.some_bind]
  · refine hu.congr ?_ ?_ ?_
    · intro a ha
      have : a ≠ m := fun e => by
        rw [e] at ha
        simp only [List.mem_cons, List.mem_append] at ha; tauto
      simp [this]
    · intro a ha
      have : a ≠ m := fun e => by
        rw [e] at ha
        simp only [List.mem_cons, List.mem_append] at ha; tauto
      simp [this]
    · intro a ha
      exact hu.2.1 a ha
  · intro a ha
    have h1 : a ≠ m := fun e => ha (by simp [e])
    have h3 : a ≠ l.getLastD head := fun e => ha (by
      have := getLastD_mem l head
      rw [e]
      simp only [List.mem_append, List.mem_cons] at this ⊢; tauto)
    have h4 : a ≠ r.headD head := fun e => ha (by
      have := headD_mem r head
      rw [e]
      simp only [List.mem_append, List.mem_singleton, List.mem_cons] at this ⊢; tauto)
    rw [hh2]
    simp only [setPrev_next, setNext_next, if_neg h1, if_neg h3, setPrev_prev, setNext_prev,
      if_neg h4, and_self]
  · intro a h1 h3
    rw [hh2]
    simp only [setPrev_next, setNext_next, if_neg h1, if_neg h3]
  · intro a h1 h4
    rw [hh2]
    simp only [setPrev_prev, setNext_prev, if_neg h1, if_neg h4]
  · rw [hh2]
    simp only [setPrev_next, setNext_next, if_neg hzm, if_true]
  · rw [hh2]
    simp only [setPrev_prev, setNext_prev, if_neg hcm, if_true]

theorem copy_removed_none (v : List Nat) (bufsize : Nat) :
    copy_removed none v bufsize = some none := rfl

theorem size_pred_pos {x : Nat} (h1 : 1 ≤ x) (h2 : x < SIZE_MOD) : size_pred x = x - 1 := by
  unfold size_pred SIZE_MOD at *
  omega

theorem size_succ_small {x : Nat} (h : x + 1 < SIZE_MOD) : size_succ x = x + 1 := by
  unfold size_succ
  exact Nat.mod_eq_of_lt h

theorem MIN_le_left (x y : Nat) : MIN x y ≤ x := by
  unfold MIN; split_ifs <;> omega

theorem strncpy_length (s : List Nat) (n : Nat) : (strncpy s n).length = n := by
  unfold strncpy strlen
  rw [List.length_append, List.length_take, List.length_replicate]
  omega

/-- With a proper buffer the copy of `q_remove_head` and `q_remove_tail` is
defined. -/
theorem copy_removed_some {buf v : List Nat} {bufsize : Nat}
    (hb : BufOK (some buf) bufsize) :
    copy_removed (some buf) v bufsize = some (some
      ((strncpy v (MIN (bufsize - 1) (size_succ (strlen v))) ++
        buf.drop (MIN (bufsize - 1) (size_succ (strlen v)))).set (bufsize - 1) 0)) := by
  obtain ⟨h1, h2, h3⟩ := hb
  have hle := MIN_le_left (bufsize - 1) (size_succ (strlen v))
  have hlen : (strncpy v (MIN (bufsize - 1) (size_succ (strlen v))) ++
      buf.drop (MIN (bufsize - 1) (size_succ (strlen v)))).length = buf.length := by
    rw [List.length_append, strncpy_length, List.length_drop]; omega
  simp only [copy_removed, size_pred_pos h1 h3, buf_strncpy,
    if_pos (show MIN (bufsize - 1) (size_succ (strlen v)) ≤ buf.length by omega),
    Option.bind_eq_bind, Option.some_bind, buf_store, hlen,
    if_pos (show bufsize - 1 < buf.length by omega)]
  rfl

theorem copy_removed_ok {sp : Option (List Nat)} {bufsize : Nat} (v : List Nat)
    (hb : BufOK sp bufsize) : ∃ b, copy_removed sp v bufsize = some b := by
  cases sp with
  | none => exact ⟨none, rfl⟩
  | some buf => exact ⟨_, copy_removed_some hb⟩

theorem q_remove_head_spec {h : Heap} {head a : Nat} {xs : List Nat}
    (sp : Option (List Nat)) (bufsize : Nat) (hr : Ring h head (a :: xs)) :
    ∃ h', Ring h' head xs ∧ h'.next a = a ∧ h'.prev a = a ∧
      h'.value = h.value ∧ h'.live = h.live ∧
      (∀ x, x ∉ head :: a :: xs → h'.next x = h.next x ∧ h'.prev x = h.prev x) ∧
      (∀ x, x ≠ a → x ≠ head → h'.next x = h.next x) ∧
      (∀ x, x ≠ a → x ≠ xs.headD head → h'.prev x = h.prev x) ∧
      h'.next head = xs.headD head ∧ h'.prev (xs.headD head) = head ∧
      q_remove_head h head sp bufsize =
        (copy_removed sp (h.value a) bufsize).map (fun b => (h', a, b)) := by
  have hr0 : Ring h head ([] ++ a :: xs) := hr
  obtain ⟨h', e, r, e1, e2, e3, e4, e5, e6, e7, e8, e9⟩ := list_del_init_spec hr0
  have hvh : h.valid head := hr.2.1 head (by simp)
  have hva' : h'.valid a := ⟨(hr.2.1 a (by simp)).1, by rw [e4]; exact (hr.2.1 a (by simp)).2⟩
  have hnx : h.next head = a := hr.2.2.1.1
  refine ⟨h', r, e1, e2, e3, e4, e5, e6, e7, e8, e9, ?_⟩
  simp only [q_remove_head, if_neg hvh.1, list_empty_ring hr, Option.bind_eq_bind,
    Option.some_bind, get_next_valid hvh, hnx, e, get_value_valid hva', e3]
  simp only [List.cons_ne_nil, decide_False, Bool.false_eq_true, if_false]
  cases copy_removed sp (h.value a) bufsize <;> rfl

theorem q_remove_tail_spec {h : Heap} {head z : Nat} {xs : List Nat}
    (sp : Option (List Nat)) (bufsize : Nat) (hr : Ring h head (xs ++ [z])) :
    ∃ h', Ring h' head xs ∧ h'.next z = z ∧ h'.prev z = z ∧
      h'.value = h.value ∧ h'.live = h.live ∧
      (∀ x, x ∉ head :: (xs ++ [z]) → h'.next x = h.next x ∧ h'.prev x = h.prev x) ∧
      q_remove_tail h head sp bufsize =
        (copy_removed sp (h.value z) bufsize).map (fun b => (h', z, b)) := by
  obtain ⟨h', e, r, e1, e2, e3, e4, e5, -⟩ := list_del_init_spec hr
  rw [List.append_nil] at r
  have hvh : h.valid head := hr.2.1 head (by simp)
  have hva' : h'.valid z := ⟨(hr.2.1 z (by simp)).1, by rw [e4]; exact (hr.2.1 z (by simp)).2⟩
  have hpv : h.prev head = z := by
    rw [prevSeg_getLastD hr.2.2.2, List.getLastD_concat]
  have hne : xs ++ [z] ≠ [] := by simp
  refine ⟨h', r, e1, e2, e3, e4, e5, ?_⟩
  simp only [q_remove_tail, if_neg hvh.1, list_empty_ring hr, Option.bind_eq_bind,
    Option.some_bind, get_prev_valid hvh, hpv, e, get_value_valid hva', e3, hne, decide_False,
    Bool.false_eq_true, if_false]
  cases copy_removed sp (h.value z) bufsize <;> rfl

theorem q_remove_head_empty {h : Heap} {head : Nat} (sp : Option (List Nat)) (bufsize : Nat)
    (hr : head = 0 ∨ Ring h head []) : q_remove_head h head sp bufsize = some (h, 0, sp) := by
  rcases hr with rfl | hr
  · simp [q_remove_head]
  · have hvh : h.valid head := hr.2.1 head (by simp)
    simp [q_remove_head, hvh.1, list_empty_ring hr]

theorem q_remove_tail_empty {h : Heap} {head : Nat} (sp : Option (List Nat)) (bufsize : Nat)
    (hr : head = 0 ∨ Ring h head []) : q_remove_tail h head sp bufsize = some (h, 0, sp) := by
  rcases hr with rfl | hr
  · simp [q_remove_tail]
  · have hvh : h.valid head := hr.2.1 head (by simp)
    simp [q_remove_tail, hvh.1, list_empty_ring hr]

theorem q_delete_mid_empty {h : Heap} {head : Nat} (fuel : Nat)
    (hr : head = 0 ∨ Ring h head []) : q_delete_mid fuel h head = some (h, false) := by
  rcases hr with rfl | hr
  · simp [q_delete_mid]
  · have hvh : h.valid head := hr.2.1 head (by simp)
    simp [q_delete_mid, hvh.1, list_empty_ring hr]

/-- C11: on a non-empty well-formed queue `q_remove_head` returns the first
element and leaves the others in their order, `q_remove_tail` returns the last
element and leaves the others in their order; the returned node is not in the
ring any more, keeps its payload and allocation, and its `next` and `prev`
links point to itself. -/
theorem q_remove_ends (h : Heap) (head : Nat) (xs : List Nat) (sp : Option (List Nat))
    (bufsize : Nat) (hr : Ring h head xs) (hne : xs ≠ []) (hb : BufOK sp bufsize) :
    (∃ h' a rest b, xs = a :: rest ∧ q_remove_head h head sp bufsize = some (h', a, b) ∧
      Ring h' head rest ∧ a ∉ head :: rest ∧ h'.next a = a ∧ h'.prev a = a ∧
      h'.value = h.value ∧ h'.live = h.live) ∧
    (∃ h' z rest b, xs = rest ++ [z] ∧ q_remove_tail h head sp bufsize = some (h', z, b) ∧
      Ring h' head rest ∧ z ∉ head :: rest ∧ h'.next z = z ∧ h'.prev z = z ∧
      h'.value = h.value ∧ h'.live = h.live) := by
  constructor
  · obtain ⟨a, rest, rfl⟩ := List.exists_cons_of_ne_nil hne
    obtain ⟨h', r, e1, e2, e3, e4, -, -, -, -, -, e⟩ := q_remove_head_spec sp bufsize hr
    obtain ⟨b, hb'⟩ := copy_removed_ok (h.value a) hb
    refine ⟨h', a, rest, b, rfl, by rw [e, hb']; rfl, r, ?_, e1, e2, e3, e4⟩
    have hnd := hr.1
    simp only [List.nodup_cons, List.mem_cons, not_or] at hnd ⊢
    exact ⟨Ne.symm hnd.1.1, hnd.2.1⟩
  · obtain ⟨rest, z, rfl⟩ := exists_snoc_of_length_pos (List.length_pos.2 hne)
    obtain ⟨h', r, e1, e2, e3, e4, -, e⟩ := q_remove_tail_spec sp bufsize hr
    obtain ⟨b, hb'⟩ := copy_removed_ok (h.value z) hb
    refine ⟨h', z, rest, b, rfl, by rw [e, hb']; rfl, r, ?_, e1, e2, e3, e4⟩
    intro hz
    have h1 : (head :: rest ++ [z]).Nodup := hr.1
    rw [List.nodup_append] at h1
    exact h1.2.2 hz (List.mem_singleton.2 rfl)

theorem q_remove_ends_witness :
    Ring demoHeap 1 [2, 3, 4] ∧
    ((∃ h' a rest b, [2, 3, 4] = a :: rest ∧
      q_remove_head demoHeap 1 (some [9, 9, 9]) 3 = some (h', a, b) ∧
      Ring h' 1 rest ∧ a ∉ 1 :: rest ∧ h'.next a = a ∧ h'.prev a = a ∧
      h'.value = demoHeap.value ∧ h'.live = demoHeap.live) ∧
    (∃ h' z rest b, [2, 3, 4] = rest ++ [z] ∧
      q_remove_tail demoHeap 1 (some [9, 9, 9]) 3 = some (h', z, b) ∧
      Ring h' 1 rest ∧ z ∉ 1 :: rest ∧ h'.next z = z ∧ h'.prev z = z ∧
      h'.value = demoHeap.value ∧ h'.live = demoHeap.live)) :=
  ⟨by decide, q_remove_ends demoHeap 1 [2, 3, 4] (some [9, 9, 9]) 3 (by decide) (by decide)
    (by decide)⟩

/-! ## The output buffer of `q_remove_head` and `q_remove_tail` -/

theorem cstr_nonzero : ∀ (s : List Nat), ∀ x ∈ cstr s, x ≠ 0
  | [], x, hx => by simp [cstr] at hx
  | a :: s, x, hx => by
    unfold cstr at hx
    by_cases ha : a = 0
    · simp [ha] at hx
    · rw [List.takeWhile_cons] at hx
      simp only [bne_iff_ne, ne_eq, ha, not_false_eq_true, if_true, List.mem_cons] at hx
      rcases hx with rfl | hx
      · exact ha
      · exact cstr_nonzero s x hx

/-- A buffer that starts with non-zero bytes followed by a terminator holds
exactly these bytes. -/
theorem cstr_of_terminated : ∀ (p rest : List Nat), (∀ x ∈ p, x ≠ 0) →
    cstr (p ++ 0 :: rest) = p
  | [], rest, _ => by simp [cstr]
  | a :: p, rest, hp => by
    have ha : a ≠ 0 := hp a (by simp)
    have ih := cstr_of_terminated p rest (fun x hx => hp x (List.mem_cons_of_mem _ hx))
    unfold cstr at ih ⊢
    rw [List.cons_append, List.takeWhile_cons]
    simp only [bne_iff_ne, ne_eq, ha, not_false_eq_true, if_true, ih]

/-- The bytes left in the caller's buffer: the string it holds is the first
`min (strlen v) (bufsize - 1)` bytes of the payload, the buffer keeps its
size, and there is a terminator at index `bufsize - 1` at the latest. -/
theorem copied_string {buf v : List Nat} {bufsize : Nat} (h1 : 1 ≤ bufsize)
    (h2 : bufsize ≤ buf.length) (hv : strlen v + 1 < SIZE_MOD) :
    ∃ b, (strncpy v (MIN (bufsize - 1) (size_succ (strlen v))) ++
        buf.drop (MIN (bufsize - 1) (size_succ (strlen v)))).set (bufsize - 1) 0 = b ∧
      b.length = buf.length ∧
      cstr b = (cstr v).take (min (strlen v) (bufsize - 1)) ∧
      b[bufsize - 1]? = some 0 := by
  rw [size_succ_small hv]
  have hlen : (strncpy v (MIN (bufsize - 1) (strlen v + 1)) ++
      buf.drop (MIN (bufsize - 1) (strlen v + 1))).length = buf.length := by
    have := MIN_le_left (bufsize - 1) (strlen v + 1)
    rw [List.length_append, strncpy_length, List.length_drop]; omega
  refine ⟨_, rfl, by rw [List.length_set, hlen], ?_,
    List.getElem?_set_self (by rw [hlen]; omega)⟩
  by_cases hc : bufsize - 1 < strlen v + 1
  · -- the payload is cut after `bufsize - 1` bytes
    have hn : MIN (bufsize - 1) (strlen v + 1) = bufsize - 1 := by simp [MIN, hc]
    have hs : strncpy v (bufsize - 1) = (cstr v).take (bufsize - 1) := by
      unfold strncpy
      have : bufsize - 1 - strlen v = 0 := by omega
      rw [this, List.replicate_zero, List.append_nil]
    obtain ⟨c, t, hd⟩ : ∃ c t, buf.drop (bufsize - 1) = c :: t :=
      List.exists_cons_of_length_pos (by rw [List.length_drop]; omega)
    have hl : ((cstr v).take (bufsize - 1)).length = bufsize - 1 := by
      rw [List.length_take]; unfold strlen at hc; omega
    rw [hn, hs, hd, List.set_append_right _ _ (by rw [hl]), hl, Nat.sub_self,
      List.set_cons_zero, cstr_of_terminated _ _
        (fun x hx => cstr_nonzero v x (List.mem_of_mem_take hx))]
    congr 1
    omega
  · -- the whole payload and its terminator fit
    have hn : MIN (bufsize - 1) (strlen v + 1) = strlen v + 1 := by simp [MIN, hc]
    have hs : strncpy v (strlen v + 1) = cstr v ++ [0] := by
      unfold strncpy
      have : strlen v + 1 - strlen v = 1 := by omega
      rw [this, List.take_of_length_le (by unfold strlen; omega)]
      rfl
    have hl : (cstr v).length = strlen v := rfl
    obtain ⟨k, hk⟩ : ∃ k, bufsize - 1 - strlen v = k + 1 :=
      ⟨bufsize - 1 - strlen v - 1, by omega⟩
    rw [hn, hs, List.append_assoc, List.set_append_right _ _ (by rw [hl]; omega), hl, hk,
      List.singleton_append, List.set_cons_succ,
      cstr_of_terminated _ _ (cstr_nonzero v),
      List.take_of_length_le (by rw [hl]; omega)]

/-- C13: for a non-empty well-formed queue, a buffer of at least `bufsize >= 1`
bytes (`bufsize` a `size_t` value, every payload an object of the address
space), after `q_remove_head` or `q_remove_tail` the buffer holds, as a
terminated string, exactly the first `min (len, bufsize - 1)` bytes of the
payload of the removed element: the whole payload when it fits, its first
`bufsize - 1` bytes otherwise, with a terminator at index `bufsize - 1` at the
latest. -/
theorem q_remove_copies (h : Heap) (head : Nat) (xs buf : List Nat) (bufsize : Nat)
    (hr : Ring h head xs) (hne : xs ≠ []) (h1 : 1 ≤ bufsize) (h2 : bufsize ≤ buf.length)
    (h3 : bufsize < SIZE_MOD) (hv : ∀ a ∈ xs, strlen (h.value a) + 1 < SIZE_MOD) :
    (∃ h' a rest b, xs = a :: rest ∧
      q_remove_head h head (some buf) bufsize = some (h', a, some b) ∧
      b.length = buf.length ∧
      cstr b = (cstr (h.value a)).take (min (strlen (h.value a)) (bufsize - 1)) ∧
      strlen b = min (strlen (h.value a)) (bufsize - 1) ∧ b[bufsize - 1]? = some 0) ∧
    (∃ h' z rest b, xs = rest ++ [z] ∧
      q_remove_tail h head (some buf) bufsize = some (h', z, some b) ∧
      b.length = buf.length ∧
      cstr b = (cstr (h.value z)).take (min (strlen (h.value z)) (bufsize - 1)) ∧
      strlen b = min (strlen (h.value z)) (bufsize - 1) ∧ b[bufsize - 1]? = some 0) := by
  have hb : BufOK (some buf) bufsize := ⟨h1, h2, h3⟩
  constructor
  · obtain ⟨a, rest, rfl⟩ := List.exists_cons_of_ne_nil hne
    obtain ⟨h', -, -, -, -, -, -, -, -, -, -, e⟩ := q_remove_head_spec (some buf) bufsize hr
    obtain ⟨b, hb1, hb2, hb3, hb4⟩ := copied_string h1 h2 (hv a (by simp))
    refine ⟨h', a, rest, b, rfl, ?_, hb2, hb3, ?_, hb4⟩
    · rw [e, copy_removed_some hb, hb1]; rfl
    · unfold strlen at *
      rw [hb3, List.length_take]
      omega
  · obtain ⟨rest, z, rfl⟩ := exists_snoc_of_length_pos (List.length_pos.2 hne)
    obtain ⟨h', -, -, -, -, -, -, e⟩ := q_remove_tail_spec (some buf) bufsize hr
    obtain ⟨b, hb1, hb2, hb3, hb4⟩ := copied_string h1 h2 (hv z (by simp))
    refine ⟨h', z, rest, b, rfl, ?_, hb2, hb3, ?_, hb4⟩
    · rw [e, copy_removed_some hb, hb1]; rfl
    · unfold strlen at *
      rw [hb3, List.length_take]
      omega

theorem q_remove_copies_witness :
    Ring demoHeap 1 [2, 3, 4] ∧
    ((∃ h' a rest b, [2, 3, 4] = a :: rest ∧
      q_remove_head demoHeap 1 (some [9, 9, 9]) 3 = some (h', a, some b) ∧
      b.length = [9, 9, 9].length ∧
      cstr b = (cstr (demoHeap.value a)).take (min (strlen (demoHeap.value a)) (3 - 1)) ∧
      strlen b = min (strlen (demoHeap.value a)) (3 - 1) ∧ b[3 - 1]? = some 0) ∧
    (∃ h' z rest b, [2, 3, 4] = rest ++ [z] ∧
      q_remove_tail demoHeap 1 (some [9, 9, 9]) 3 = some (h', z, some b) ∧
      b.length = [9, 9, 9].length ∧
      cstr b = (cstr (demoHeap.value z)).take (min (strlen (demoHeap.value z)) (3 - 1)) ∧
      strlen b = min (strlen (demoHeap.value z)) (3 - 1) ∧ b[3 - 1]? = some 0)) :=
  ⟨by decide, q_remove_copies demoHeap 1 [2, 3, 4] [9, 9, 9] 3 (by decide) (by decide)
    (by decide) (by decide) (by decide) (by decide)⟩

/-- C16: on a null or empty queue `q_remove_head` and `q_remove_tail` return
`NULL` and `q_delete_mid` returns false, and the heap and the caller's buffer
are exactly as before the call. -/
theorem q_remove_nothing (h : Heap) (head : Nat) (sp : Option (List Nat)) (bufsize fuel : Nat)
    (hr : head = 0 ∨ Ring h head []) :
    q_remove_head h head sp bufsize = some (h, 0, sp) ∧
    q_remove_tail h head sp bufsize = some (h, 0, sp) ∧
    q_delete_mid fuel h head = some (h, false) :=
  ⟨q_remove_head_empty sp bufsize hr, q_remove_tail_empty sp bufsize hr,
    q_delete_mid_empty fuel hr⟩

theorem q_remove_nothing_witness :
    (1 = 0 ∨ Ring emptyHeap 1 []) ∧
    (q_remove_head emptyHeap 1 (some [9, 9]) 2 = some (emptyHeap, 0, some [9, 9]) ∧
    q_remove_tail emptyHeap 1 (some [9, 9]) 2 = some (emptyHeap, 0, some [9, 9]) ∧
    q_delete_mid 1 emptyHeap 1 = some (emptyHeap, false)) :=
  ⟨Or.inr (by decide), q_remove_nothing emptyHeap 1 (some [9, 9]) 2 1 (Or.inr (by decide))⟩

/-! ## Insertion followed by removal -/

theorem q_insert_remove_spec {h : Heap} {head : Nat} {xs x : List Nat} {r fuel : Nat}
    (sp : Option (List Nat)) (bufsize : Nat)
    (hr : Ring h head xs) (hr0 : r ≠ 0) (hrl : h.live r = false) (hb : BufOK sp bufsize)
    (hf : xs.length + 1 ≤ fuel) :
    ∃ h1 h2 b, q_insert_head h head x r true = some (h1, true) ∧
      q_remove_head h1 head sp bufsize = some (h2, r, b) ∧
      h2.value r = strncpy x (size_of_int (int_of_size (strlen x + 1))) ∧
      Ring h2 head xs ∧ q_size fuel h2 head = q_size fuel h head ∧
      ∀ a, a ≠ r → h2.value a = h.value a ∧ h2.live a = h.live a := by
  obtain ⟨h1, e1, r1, v1, f1, -⟩ := q_insert_head_spec (s := x) hr hr0 hrl
  obtain ⟨h2, r2, -, -, v2, l2, -, -, -, -, -, e2⟩ := q_remove_head_spec sp bufsize r1
  obtain ⟨b, hb'⟩ := copy_removed_ok (h1.value r) hb
  refine ⟨h1, h2, b, e1, by rw [e2, hb']; rfl, by rw [v2, v1], r2, ?_, ?_⟩
  · rw [q_size_spec r2 hf, q_size_spec hr hf]
  · intro a ha
    rw [v2, l2]
    exact f1 a ha

/-- C12 (the code at a failing input): a string of `2^32` bytes is inserted at
the head of the empty queue and removed again; both calls succeed, but the
payload of the element that comes back is a single byte, not the string that
was inserted. -/
theorem q_insert_remove_long_string :
    Ring emptyHeap 1 [] ∧ emptyHeap.live 2 = false ∧
      ∃ h1 h2 b, q_insert_head emptyHeap 1 longString 2 true = some (h1, true) ∧
        q_remove_head h1 1 none 0 = some (h2, 2, b) ∧
        h2.value 2 = [97] ∧ cstr (h2.value 2) ≠ cstr longString := by
  have hr : Ring emptyHeap 1 [] := by decide
  refine ⟨hr, by decide, ?_⟩
  obtain ⟨h1, h2, b, e1, e2, hv, -, -, -⟩ := @q_insert_remove_spec emptyHeap 1 [] longString 2 1
    none 0 hr (show (2 : Nat) ≠ 0 by decide) (show emptyHeap.live 2 = false by decide)
    trivial (by decide)
  rw [strncpy_longString] at hv
  refine ⟨h1, h2, b, e1, e2, hv, ?_⟩
  rw [hv]
  intro hc
  have h1' : (cstr [97]).length = 1 := rfl
  have h2' : (cstr longString).length = 4294967296 := strlen_longString
  rw [hc, h2'] at h1'
  omega

/-- Insertion followed by removal of a string that `int len` holds: for a
well-formed queue and a string `x` with `strlen(x) + 1 < 2^32`, a successful
`q_insert_head` followed by `q_remove_head` returns the inserted element,
whose payload is the string `x`, and leaves the queue with the elements, the
order and the size it had before the insert. -/
theorem q_insert_then_remove (h : Heap) (head : Nat) (xs x : List Nat) (r fuel : Nat)
    (sp : Option (List Nat)) (bufsize : Nat)
    (hr : Ring h head xs) (hr0 : r ≠ 0) (hrl : h.live r = false) (hb : BufOK sp bufsize)
    (hf : xs.length + 1 ≤ fuel) (hs : strlen x + 1 < 4294967296) :
    ∃ h1 h2 b, q_insert_head h head x r true = some (h1, true) ∧
      q_remove_head h1 head sp bufsize = some (h2, r, b) ∧
      cstr (h2.value r) = cstr x ∧
      Ring h2 head xs ∧ q_size fuel h2 head = q_size fuel h head ∧
      ∀ a, a ≠ r → h2.value a = h.value a ∧ h2.live a = h.live a := by
  obtain ⟨h1, h2, b, e1, e2, hv, r2, hq, hfr⟩ :=
    q_insert_remove_spec (x := x) sp bufsize hr hr0 hrl hb hf
  exact ⟨h1, h2, b, e1, e2, by rw [hv]; exact cstr_strncpy (size_of_int_of_size hs), r2, hq,
    hfr⟩

theorem q_insert_then_remove_witness :
    Ring demoHeap 1 [2, 3, 4] ∧
      ∃ h1 h2 b, q_insert_head demoHeap 1 [120, 0] 5 true = some (h1, true) ∧
        q_remove_head h1 1 (some [9, 9, 9]) 3 = some (h2, 5, b) ∧
        cstr (h2.value 5) = cstr [120, 0] ∧
        Ring h2 1 [2, 3, 4] ∧ q_size 4 h2 1 = q_size 4 demoHeap 1 ∧
        ∀ a, a ≠ 5 → h2.value a = demoHeap.value a ∧ h2.live a = demoHeap.live a :=
  ⟨by decide, q_insert_then_remove demoHeap 1 [2, 3, 4] [120, 0] 5 4 (some [9, 9, 9]) 3
    (by decide) (by decide) (by decide) (by decide) (by decide) (by decide)⟩

/-! ## Failing insertions -/

theorem setLive_restore {h : Heap} {r : Nat} (hrl : h.live r = false) :
    (h.setLive r true).setLive r false = h := by
  apply Heap.ext_fields
  · rfl
  · rfl
  · rfl
  · funext a
    by_cases ha : a = r
    · subst ha; simp [hrl]
    · simp [ha]

theorem q_alloc_element_fail {h : Heap} {s : List Nat} {r : Nat} {vok : Bool}
    (hfail : r = 0 ∨ h.live r = true ∨ vok = false) :
    q_alloc_element h s r vok = some (h, 0) := by
  by_cases hm : r ≠ 0 ∧ h.live r = false
  · have hv : vok = false := by
      rcases hfail with e | e | e
      · exact absurd e hm.1
      · rw [hm.2] at e; exact absurd e Bool.false_ne_true
      · exact e
    simp [q_alloc_element, malloc, hm.1, hm.2, hv, free, setLive_restore hm.2]
  · simp only [q_alloc_element, malloc, if_neg hm, if_true]

theorem q_insert_fail_spec {h : Heap} {head : Nat} {s : List Nat} {r : Nat} {vok : Bool}
    (hfail : head = 0 ∨ r = 0 ∨ h.live r = true ∨ vok = false) :
    q_insert_head h head s r vok = some (h, false) ∧
    q_insert_tail h head s r vok = some (h, false) := by
  by_cases hh : head = 0
  · simp [q_insert_head, q_insert_tail, hh]
  · have ha : q_alloc_element h s r vok = some (h, 0) :=
      q_alloc_element_fail (hfail.resolve_left hh)
    simp [q_insert_head, q_insert_tail, hh, ha]

/-- C15: `q_insert_head` and `q_insert_tail` return false when the queue is
`NULL`, when the allocation of the node fails (the allocator offers `NULL` or
nothing that is free) and when the allocation of the payload buffer fails; in
each case the heap after the call is the heap before it, so the queue has the
same elements and links and nothing stays allocated. -/
theorem q_insert_fails (h : Heap) (head : Nat) (s : List Nat) (r : Nat) (vok : Bool)
    (hfail : head = 0 ∨ r = 0 ∨ h.live r = true ∨ vok = false) :
    q_insert_head h head s r vok = some (h, false) ∧
    q_insert_tail h head s r vok = some (h, false) :=
  q_insert_fail_spec hfail

theorem q_insert_fails_witness :
    ((1 : Nat) = 0 ∨ (5 : Nat) = 0 ∨ demoHeap.live 5 = true ∨ false = false) ∧
    (q_insert_head demoHeap 1 [120, 0] 5 false = some (demoHeap, false) ∧
    q_insert_tail demoHeap 1 [120, 0] 5 false = some (demoHeap, false)) :=
  ⟨Or.inr (Or.inr (Or.inr rfl)),
    q_insert_fails demoHeap 1 [120, 0] 5 false (Or.inr (Or.inr (Or.inr rfl)))⟩

/-! ## `q_delete_dup` on a null queue -/

/-- C17 (the code at a failing input): called with `NULL`, `q_delete_dup`
returns true. -/
theorem q_delete_dup_null : (q_delete_dup emptyHeap 0).2 = true ∧
    (q_delete_dup emptyHeap 0).1 = emptyHeap :=
  ⟨rfl, rfl⟩

/-! ## `q_sort` on short queues -/

/-- C18: `q_sort` leaves the heap exactly as it was on a null queue and on a
well-formed queue with at most one element. -/
theorem q_sort_short (h : Heap) (head : Nat) (xs : List Nat) (fuel : Nat)
    (hr : head = 0 ∨ (Ring h head xs ∧ xs.length ≤ 1)) (hf : 2 ≤ fuel) :
    q_sort fuel h head = some h := by
  rcases hr with rfl | ⟨hr, hl⟩
  · simp [q_sort]
  · obtain ⟨h', e, r, hv, hlv, hfr⟩ := q_sort_spec hr (show xs.length + 1 ≤ fuel by omega)
    rw [msort_of_short (by omega)] at r
    rw [e, Ring.heap_eq r hr (fun a ha => (hfr a ha).1) (fun a ha => (hfr a ha).2) hv hlv]

theorem q_sort_short_witness :
    ((1 : Nat) = 0 ∨ (Ring singleHeap 1 [2] ∧ [2].length ≤ 1)) ∧
    q_sort 2 singleHeap 1 = some singleHeap :=
  ⟨Or.inr ⟨by decide, by decide⟩,
    q_sort_short singleHeap 1 [2] 2 (Or.inr ⟨by decide, by decide⟩) (by decide)⟩

/-! ## Traversals of a ring -/

theorem traverse_next_spec {h : Heap} {head : Nat} : ∀ (l : List Nat) (p fuel : Nat),
    nextSeg h p l head → head ∉ l → (∀ a ∈ l, h.valid a) → l.length + 1 ≤ fuel →
    traverse_next fuel h head (l.headD head) = some l
  | [], _, fuel, _, _, _, hf => by
    obtain ⟨g, rfl⟩ : ∃ g, fuel = g + 1 := ⟨fuel - 1, by simp at hf; omega⟩
    simp [traverse_next]
  | a :: l, _, fuel, hs, hh, hv, hf => by
    obtain ⟨g, rfl⟩ : ∃ g, fuel = g + 1 := ⟨fuel - 1, by simp at hf; omega⟩
    simp only [List.mem_cons, not_or] at hh
    have hva : h.valid a := hv a (by simp)
    have ih := traverse_next_spec l a g hs.2 hh.2
      (fun b hb => hv b (List.mem_cons_of_mem _ hb)) (by simp at hf; omega)
    simp only [List.headD_cons, traverse_next, if_neg (Ne.symm hh.1), get_next_valid hva,
      nextSeg_headD hs.2, ih, Option.bind_eq_bind, Option.some_bind]
    rfl

theorem traverse_prev_spec {h : Heap} {head : Nat} : ∀ (l : List Nat) (q fuel : Nat),
    prevSeg h head l q → head ∉ l → (∀ a ∈ l, h.valid a) → l.length + 1 ≤ fuel →
    traverse_prev fuel h head (h.prev q) = some l.reverse := by
  intro l
  induction l using List.reverseRecOn with
  | nil =>
    intro q fuel hs _ _ hf
    obtain ⟨g, rfl⟩ : ∃ g, fuel = g + 1 := ⟨fuel - 1, by simp at hf; omega⟩
    simp only [prevSeg] at hs
    simp [traverse_prev, hs]
  | append_singleton l a ih =>
    intro q fuel hs hh hv hf
    obtain ⟨g, rfl⟩ : ∃ g, fuel = g + 1 := ⟨fuel - 1, by simp at hf; omega⟩
    rw [prevSeg_append] at hs
    simp only [List.mem_append, List.mem_singleton, not_or] at hh
    have hva : h.valid a := hv a (by simp)
    have hq : h.prev q = a := hs.2
    have ih' := ih a g hs.1 hh.1 (fun b hb => hv b (by simp [hb])) (by simp at hf; omega)
    simp only [hq, traverse_prev, if_neg (Ne.symm hh.2), get_prev_valid hva, ih',
      Option.bind_eq_bind, Option.some_bind, List.reverse_append, List.reverse_singleton,
      List.singleton_append]
    rfl

theorem prev_next_of_seg {h : Heap} : ∀ {l : List Nat} {p q : Nat},
    nextSeg h p l q → prevSeg h p l q → ∀ n ∈ p :: l, h.prev (h.next n) = n
  | [], p, q, hn, hp, n, hm => by
    simp only [List.mem_singleton] at hm
    subst hm
    simp only [nextSeg, prevSeg] at hn hp
    rw [hn, hp]
  | a :: l, p, q, hn, hp, n, hm => by
    rcases List.mem_cons.1 hm with rfl | hm
    · rw [hn.1, hp.1]
    · exact prev_next_of_seg hn.2 hp.2 n hm

theorem next_prev_of_seg {h : Heap} : ∀ {l : List Nat} {p q : Nat},
    nextSeg h p l q → prevSeg h p l q → ∀ n ∈ l ++ [q], h.next (h.prev n) = n
  | [], p, q, hn, hp, n, hm => by
    simp only [List.nil_append, List.mem_singleton] at hm
    subst hm
    simp only [nextSeg, prevSeg] at hn hp
    rw [hp, hn]
  | a :: l, p, q, hn, hp, n, hm => by
    rcases List.mem_cons.1 hm with rfl | hm
    · rw [hp.1, hn.1]
    · exact next_prev_of_seg hn.2 hp.2 n hm

/-- A ring is well formed in the words of the specification, and its backward
traversal is the reverse of its forward traversal. -/
theorem Ring.wellFormed {h : Heap} {head : Nat} {xs : List Nat} {fuel : Nat}
    (hr : Ring h head xs) (hf : xs.length + 1 ≤ fuel) :
    WellFormed fuel h head xs ∧ backward fuel h head = some xs.reverse := by
  obtain ⟨hnd, hv, hn, hp⟩ := hr
  have hvh : h.valid head := hv head (by simp)
  have hnd2 := List.nodup_cons.1 hnd
  have hvx : ∀ a ∈ xs, h.valid a := fun a ha => hv a (List.mem_cons_of_mem _ ha)
  refine ⟨⟨?_, ?_⟩, ?_⟩
  · simp only [forward, get_next_valid hvh, nextSeg_headD hn, Option.bind_eq_bind,
      Option.some_bind]
    exact traverse_next_spec xs head fuel hn hnd2.1 hvx hf
  · intro n hm
    refine ⟨prev_next_of_seg hn hp n hm, next_prev_of_seg hn hp n ?_⟩
    simp only [List.mem_cons, List.mem_append, List.mem_singleton] at hm ⊢
    tauto
  · simp only [backward, get_prev_valid hvh, Option.bind_eq_bind, Option.some_bind]
    exact traverse_prev_spec xs head fuel hp hnd2.1 hvx hf

theorem traverse_next_some {h : Heap} {head : Nat} : ∀ (fuel node : Nat) (l : List Nat),
    traverse_next fuel h head node = some l → ∀ p, h.next p = node →
    nextSeg h p l head ∧ head ∉ l ∧ ∀ a ∈ l, h.valid a
  | 0, _, _, ht, _, _ => by simp [traverse_next] at ht
  | fuel + 1, node, l, ht, p, hp => by
    simp only [traverse_next] at ht
    by_cases hnode : node = head
    · rw [if_pos hnode] at ht
      simp only [Option.some.injEq] at ht
      subst ht
      exact ⟨by simp only [nextSeg]; rw [hp, hnode], by simp, by simp⟩
    · rw [if_neg hnode] at ht
      by_cases hv : h.valid node
      · simp only [get_next_valid hv, Option.bind_eq_bind, Option.some_bind] at ht
        cases hrest : traverse_next fuel h head (h.next node) with
        | none => rw [hrest] at ht; simp at ht
        | some rest =>
          rw [hrest] at ht
          simp only [Option.some_bind] at ht
          have hl : node :: rest = l := by simpa using ht
          subst hl
          obtain ⟨i1, i2, i3⟩ := traverse_next_some fuel (h.next node) rest hrest node rfl
          refine ⟨⟨hp, i1⟩, ?_, ?_⟩
          · simp only [List.mem_cons, not_or]
            exact ⟨Ne.symm hnode, i2⟩
          · intro a ha
            rcases List.mem_cons.1 ha with rfl | ha
            · exact hv
            · exact i3 a ha
      · simp [get_next, hv] at ht

theorem prevSeg_of_linked {h : Heap} : ∀ {l : List Nat} {p q : Nat},
    nextSeg h p l q → (∀ n ∈ p :: l, h.prev (h.next n) = n) → prevSeg h p l q
  | [], p, q, hn, hl => by
    simp only [nextSeg] at hn
    have := hl p (by simp)
    rw [hn] at this
    exact this
  | a :: l, p, q, hn, hl => by
    have := hl p (by simp)
    rw [hn.1] at this
    exact ⟨this, prevSeg_of_linked hn.2 (fun n hm => hl n (List.mem_cons_of_mem _ hm))⟩

/-- The nodes of a backward-linked segment that does not come back to its
start are distinct. -/
theorem nodup_of_prevSeg {h : Heap} : ∀ {l : List Nat} {p q : Nat},
    prevSeg h p l q → p ∉ l → l.Nodup
  | [], _, _, _, _ => List.nodup_nil
  | a :: l, p, q, hs, hp => by
    simp only [List.mem_cons, not_or] at hp
    have hal : a ∉ l := by
      intro ha
      obtain ⟨u, w, rfl⟩ := List.append_of_mem ha
      have h1 := (prevSeg_append.1 hs.2).1
      have h2 : h.prev a = u.getLastD a := prevSeg_getLastD h1
      have h3 : p = u.getLastD a := hs.1.symm.trans h2
      have h4 := getLastD_mem u a
      rw [← h3] at h4
      rcases List.mem_cons.1 h4 with e | e
      · exact hp.1 e
      · exact hp.2 (by simp [e])
    exact List.nodup_cons.2 ⟨hal, nodup_of_prevSeg hs.2 hal⟩

/-- Well-formedness in the words of the specification gives a ring. -/
theorem WellFormed.ring {h : Heap} {head : Nat} {xs : List Nat} {fuel : Nat}
    (hw : WellFormed fuel h head xs) : Ring h head xs := by
  obtain ⟨hf, hl⟩ := hw
  by_cases hvh : h.valid head
  · simp only [forward, get_next_valid hvh, Option.bind_eq_bind, Option.some_bind] at hf
    obtain ⟨hn, hh, hv⟩ := traverse_next_some fuel _ xs hf head rfl
    have hp := prevSeg_of_linked hn (fun n hm => (hl n hm).1)
    refine ⟨List.nodup_cons.2 ⟨hh, nodup_of_prevSeg hp hh⟩, ?_, hn, hp⟩
    intro a ha
    rcases List.mem_cons.1 ha with rfl | ha
    · exact hvh
    · exact hv a ha
  · simp [forward, get_next, hvh] at hf

/-! ## Sequences of operations -/

theorem zero_mem_strncpy {s : List Nat} {n : Nat} (hn : strlen s + 1 ≤ n) :
    0 ∈ strncpy s n := by
  unfold strncpy
  obtain ⟨k, hk⟩ : ∃ k, n - strlen s = k + 1 := ⟨n - strlen s - 1, by omega⟩
  rw [hk, List.replicate_succ]
  exact List.mem_append_right _ (List.mem_cons_self _ _)

/-- One call on a ring gives a ring again, the tally keeps counting the
elements, and when the string of an insert is stored whole the payloads stay
terminated strings. -/
theorem step_ring {h : Heap} {head : Nat} {xs : List Nat} {fuel : Nat} (op : Op)
    (hr : Ring h head xs) (hok : op.ok) (hf : xs.length + 1 ≤ fuel) :
    ∃ h' ys b, step fuel h head op = some (h', b) ∧ Ring h' head ys ∧
      ys.length ≤ xs.length + 1 ∧
      (∀ t : Tally, t.ins = t.rem + t.del + xs.length →
        (t.add op b).ins = (t.add op b).rem + (t.add op b).del + ys.length) ∧
      (op.fits → (∀ a ∈ xs, 0 ∈ h.value a) → ∀ a ∈ ys, 0 ∈ h'.value a) := by
  cases op with
  | insert_head s r vok =>
    by_cases hs : r ≠ 0 ∧ h.live r = false ∧ vok = true
    · obtain ⟨hr0, hrl, rfl⟩ := hs
      obtain ⟨h', e, r', hv, hfr, -⟩ := q_insert_head_spec (s := s) hr hr0 hrl
      refine ⟨h', _, true, e, r', by simp, ?_, ?_⟩
      · intro t ht
        simp only [Tally.add, List.length_cons]
        omega
      · intro hfit hz a ha
        by_cases har : a = r
        · rw [har, hv]
          exact zero_mem_strncpy (size_of_int_of_size hfit.2)
        · rw [(hfr a har).1]
          exact hz a ((List.mem_cons.1 ha).resolve_left har)
    · have hfail : head = 0 ∨ r = 0 ∨ h.live r = true ∨ vok = false := by
        by_contra hc
        simp only [not_or] at hc
        exact hs ⟨hc.2.1, by simpa using hc.2.2.1, by simpa using hc.2.2.2⟩
      refine ⟨h, xs, false, (q_insert_fail_spec hfail).1, hr, by omega, ?_, fun _ hz => hz⟩
      intro t ht
      simpa [Tally.add] using ht
  | insert_tail s r vok =>
    by_cases hs : r ≠ 0 ∧ h.live r = false ∧ vok = true
    · obtain ⟨hr0, hrl, rfl⟩ := hs
      obtain ⟨h', e, r', hv, hfr, -⟩ := q_insert_tail_spec (s := s) hr hr0 hrl
      refine ⟨h', _, true, e, r', by simp, ?_, ?_⟩
      · intro t ht
        simp only [Tally.add, List.length_append, List.length_singleton]
        omega
      · intro hfit hz a ha
        by_cases har : a = r
        · rw [har, hv]
          exact zero_mem_strncpy (size_of_int_of_size hfit.2)
        · rw [(hfr a har).1]
          rcases List.mem_append.1 ha with ha | ha
          · exact hz a ha
          · exact absurd (List.mem_singleton.1 ha) har
    · have hfail : head = 0 ∨ r = 0 ∨ h.live r = true ∨ vok = false := by
        by_contra hc
        simp only [not_or] at hc
        exact hs ⟨hc.2.1, by simpa using hc.2.2.1, by simpa using hc.2.2.2⟩
      refine ⟨h, xs, false, (q_insert_fail_spec hfail).2, hr, by omega, ?_, fun _ hz => hz⟩
      intro t ht
      simpa [Tally.add] using ht
  | remove_head sp bufsize =>
    cases xs with
    | nil =>
      refine ⟨h, [], false, ?_, hr, by simp, ?_, fun _ hz => hz⟩
      · simp [step, q_remove_head_empty sp bufsize (Or.inr hr)]
      · intro t ht
        simpa [Tally.add] using ht
    | cons a rest =>
      obtain ⟨h', r', -, -, hv, -, -, -, -, -, -, e⟩ := q_remove_head_spec sp bufsize hr
      obtain ⟨b, hb⟩ := copy_removed_ok (h.value a) (show BufOK sp bufsize from hok)
      have ha : a ≠ 0 := (hr.2.1 a (by simp)).1
      refine ⟨h', rest, true, ?_, r', by simp only [List.length_cons]; omega, ?_, ?_⟩
      · simp [step, e, hb, ha]
      · intro t ht
        simp only [Tally.add, List.length_cons] at ht ⊢
        omega
      · intro _ hz x hx
        rw [hv]
        exact hz x (List.mem_cons_of_mem _ hx)
  | remove_tail sp bufsize =>
    rcases List.eq_nil_or_concat xs with rfl | ⟨rest, z, rfl⟩
    · refine ⟨h, [], false, ?_, hr, by simp, ?_, fun _ hz => hz⟩
      · simp [step, q_remove_tail_empty sp bufsize (Or.inr hr)]
      · intro t ht
        simpa [Tally.add] using ht
    · rw [List.concat_eq_append] at hr hf ⊢
      obtain ⟨h', r', -, -, hv, -, -, e⟩ := q_remove_tail_spec sp bufsize hr
      obtain ⟨b, hb⟩ := copy_removed_ok (h.value z) (show BufOK sp bufsize from hok)
      have hz : z ≠ 0 := (hr.2.1 z (by simp)).1
      refine ⟨h', rest, true, ?_, r',
        by simp only [List.length_append, List.length_singleton]; omega, ?_, ?_⟩
      · simp [step, e, hb, hz]
      · intro t ht
        simp only [Tally.add, List.length_append, List.length_singleton] at ht ⊢
        omega
      · intro _ hz x hx
        rw [hv]
        exact hz x (List.mem_append_left _ hx)
  | delete_mid =>
    by_cases hx : xs = []
    · subst hx
      refine ⟨h, [], false, q_delete_mid_empty fuel (Or.inr hr), hr, by simp, ?_,
        fun _ hz => hz⟩
      intro t ht
      simpa [Tally.add] using ht
    · obtain ⟨h', m, e, -, r', hv, -⟩ := q_delete_mid_spec hr hx hf
      have hpos : 0 < xs.length := List.length_pos.2 hx
      have hlen : (xs.eraseIdx (xs.length / 2)).length = xs.length - 1 := by
        rw [List.length_eraseIdx, if_pos (by omega)]
      refine ⟨h', _, true, e, r', by omega, ?_, ?_⟩
      · intro t ht
        simp only [Tally.add, hlen]
        omega
      · intro _ hz x hx
        rw [hv]
        exact hz x ((List.eraseIdx_sublist _ _).subset hx)
  | swap =>
    obtain ⟨h', e, r', hv, -⟩ := q_swap_spec hr hf
    refine ⟨h', _, true, by simp [step, e], r', by rw [swapPairs_length]; omega, ?_, ?_⟩
    · intro t ht
      simpa [Tally.add, swapPairs_length] using ht
    · intro _ hz x hx
      rw [hv]
      exact hz x ((swapPairs_perm xs).mem_iff.1 hx)
  | reverse =>
    obtain ⟨h', e, r', -, hv⟩ := q_reverse_spec hr hf
    refine ⟨h', _, true, by simp [step, e], r', by simp, ?_, ?_⟩
    · intro t ht
      simpa [Tally.add] using ht
    · intro _ hz x hx
      rw [hv]
      exact hz x (List.mem_reverse.1 hx)
  | sort =>
    obtain ⟨h', e, r', hv, -⟩ := q_sort_spec hr hf
    refine ⟨h', _, true, by simp [step, e], r', by rw [msort_length]; omega, ?_, ?_⟩
    · intro t ht
      simpa [Tally.add, msort_length] using ht
    · intro _ hz x hx
      rw [hv]
      exact hz x ((msort_perm h.value fuel xs).mem_iff.1 hx)

/-- On a null queue every call leaves the heap and the tally as they are. -/
theorem step_null (fuel : Nat) (h : Heap) (op : Op) :
    ∃ b, step fuel h 0 op = some (h, b) ∧ ∀ t : Tally, t.add op b = t := by
  cases op with
  | insert_head s r vok =>
    exact ⟨false, (q_insert_fail_spec (Or.inl rfl)).1, fun t => rfl⟩
  | insert_tail s r vok =>
    exact ⟨false, (q_insert_fail_spec (Or.inl rfl)).2, fun t => rfl⟩
  | remove_head sp bufsize =>
    exact ⟨false, by simp [step, q_remove_head_empty sp bufsize (Or.inl rfl)], fun t => rfl⟩
  | remove_tail sp bufsize =>
    exact ⟨false, by simp [step, q_remove_tail_empty sp bufsize (Or.inl rfl)], fun t => rfl⟩
  | delete_mid => exact ⟨false, q_delete_mid_empty fuel (Or.inl rfl), fun t => rfl⟩
  | swap => exact ⟨true, by simp [step, q_swap], fun t => rfl⟩
  | reverse => exact ⟨true, by simp [step, q_reverse], fun t => rfl⟩
  | sort => exact ⟨true, by simp [step, q_sort], fun t => rfl⟩

theorem run_null (fuel : Nat) (h : Heap) : ∀ (ops : List Op) (t : Tally),
    run fuel h 0 t ops = some (h, t)
  | [], _ => rfl
  | op :: ops, t => by
    obtain ⟨b, e, ht⟩ := step_null fuel h op
    simp only [run, e, Option.bind_eq_bind, Option.some_bind, ht t]
    exact run_null fuel h ops t

theorem run_ring {head fuel : Nat} : ∀ (ops : List Op) (h : Heap) (xs : List Nat) (t : Tally),
    Ring h head xs → (∀ op ∈ ops, op.ok) → (∀ op ∈ ops, op.fits) →
    xs.length + ops.length + 1 ≤ fuel →
    t.ins = t.rem + t.del + xs.length → (∀ a ∈ xs, 0 ∈ h.value a) →
    ∃ h' t' ys, run fuel h head t ops = some (h', t') ∧ Ring h' head ys ∧
      t'.ins = t'.rem + t'.del + ys.length ∧ ys.length ≤ xs.length + ops.length ∧
      ∀ a ∈ ys, 0 ∈ h'.value a
  | [], h, xs, t, hr, _, _, _, ht, hz => ⟨h, t, xs, rfl, hr, ht, by simp, hz⟩
  | op :: ops, h, xs, t, hr, hok, hfit, hf, ht, hz => by
    simp only [List.length_cons] at hf
    obtain ⟨h1, ys, b, e, r1, hl, ht1, hz1⟩ := step_ring op hr (hok op (by simp))
      (show xs.length + 1 ≤ fuel by omega)
    obtain ⟨h', t', zs, e', r', ht', hl', hz'⟩ := run_ring ops h1 ys (t.add op b) r1
      (fun o ho => hok o (List.mem_cons_of_mem _ ho))
      (fun o ho => hfit o (List.mem_cons_of_mem _ ho))
      (show ys.length + ops.length + 1 ≤ fuel by omega) (ht1 t ht)
      (hz1 (hfit op (by simp)) hz)
    refine ⟨h', t', zs, ?_, r', ht', by simp only [List.length_cons]; omega, hz'⟩
    simp only [run, e, Option.bind_eq_bind, Option.some_bind, e']

theorem q_new_ok {h : Heap} {r : Nat} (hr0 : r ≠ 0) (hrl : h.live r = false) :
    ∃ h1, q_new h r = some (h1, r) ∧ Ring h1 r [] ∧ ∀ a, a ≠ r → h1.live a = h.live a := by
  have hv : (h.setLive r true).valid r := ⟨hr0, by simp⟩
  have hv1 : ((h.setLive r true).setNext r r).valid r := hv
  refine ⟨((h.setLive r true).setNext r r).setPrev r r, ?_, ?_, ?_⟩
  · simp [q_new, malloc, hr0, hrl, INIT_LIST_HEAD, set_next_valid hv, set_prev_valid hv1]
  · refine ⟨by simp, ?_, by simp [nextSeg], by simp [prevSeg]⟩
    intro a ha
    simp only [List.mem_singleton] at ha
    subst ha
    exact hv
  · intro a ha
    simp [ha]

theorem q_new_fail {h : Heap} {r : Nat} (hm : ¬ (r ≠ 0 ∧ h.live r = false)) :
    q_new h r = some (h, 0) := by
  simp only [q_new, malloc, if_neg hm]
  simp

theorem run_insert_tails {head fuel : Nat} : ∀ (n s : Nat) (h : Heap) (xs : List Nat)
    (t : Tally), Ring h head xs → s ≠ 0 → (∀ a, s ≤ a → h.live a = false) →
    ∃ h' t' ys, run fuel h head t ((List.range' s n).map (fun a => Op.insert_tail [0] a true))
        = some (h', t') ∧
      Ring h' head ys ∧ ys.length = xs.length + n ∧
      t'.ins = t.ins + n ∧ t'.rem = t.rem ∧ t'.del = t.del
  | 0, s, h, xs, t, hr, _, _ => ⟨h, t, xs, rfl, hr, rfl, rfl, rfl, rfl⟩
  | n + 1, s, h, xs, t, hr, hs, hl => by
    obtain ⟨h1, e1, r1, -, hf1, -⟩ := q_insert_tail_spec (s := [0]) hr hs (hl s (Nat.le_refl s))
    obtain ⟨h', t', ys, e', r', hlen, hi, hrm, hd⟩ := run_insert_tails n (s + 1) h1 (xs ++ [s])
      (t.add (Op.insert_tail [0] s true) true) r1 (Nat.succ_ne_zero s)
      (fun a ha => by rw [(hf1 a (by omega)).2]; exact hl a (by omega))
    refine ⟨h', t', ys, ?_, r', ?_, ?_, hrm, hd⟩
    · rw [List.range'_succ, List.map_cons]
      simp only [run, step, e1, Option.bind_eq_bind, Option.some_bind]
      exact e'
    · rw [hlen, List.length_append, List.length_singleton]; omega
    · rw [hi]; simp only [Tally.add]; omega

/-- C14 (counterexample): on a queue made by `q_new`, `2^31` calls of
`q_insert_tail` with the empty string all return true, no element is removed
or deleted, and `q_size` is then undefined (its `int` counter overflows)
instead of returning `2^31`. -/
theorem q_size_overflows :
    (∀ op ∈ manyInserts 2147483648, op.ok ∧ op.fits) ∧
    ∃ h1 h t, q_new zeroHeap 1 = some (h1, 1) ∧
      run 2147483649 h1 1 ⟨0, 0, 0⟩ (manyInserts 2147483648) = some (h, t) ∧
      t.ins = 2147483648 ∧ t.rem = 0 ∧ t.del = 0 ∧
      q_size 2147483649 h 1 = none := by
  constructor
  · intro op hop
    unfold manyInserts at hop
    obtain ⟨a, -, rfl⟩ := List.mem_map.1 hop
    exact ⟨trivial, show 0 ∈ [0] ∧ strlen [0] + 1 < 4294967296 by decide⟩
  obtain ⟨h1, e1, r1, hl1⟩ := q_new_ok (h := zeroHeap) (r := 1) (by decide) rfl
  obtain ⟨h, t, ys, e, r, hlen, hi, hrm, hd⟩ := @run_insert_tails 1 2147483649 2147483648 2 h1 []
    ⟨0, 0, 0⟩ r1 (by decide) (fun a ha => by rw [hl1 a (by omega)]; rfl)
  refine ⟨h1, h, t, e1, e, by rw [hi], hrm, hd, ?_⟩
  have hlen' : ys.length = 2147483648 := by rw [hlen]; rfl
  rw [q_size_spec r (by rw [hlen']), hlen', if_neg (by unfold INT_MAX; omega)]

/-- C14 (amended): take a queue made by `q_new` and any sequence of calls in
which every remove is given no buffer or a proper one and every string
inserted is a terminated string of fewer than `2^32 - 1` bytes. The sequence
runs to its end, every element of the queue then holds a terminated string,
the removes and deletions that succeeded never outnumber the inserts that
succeeded, and as long as the difference is at most `INT_MAX`, `q_size`
returns the number of inserts that returned true minus the number of removes
that returned an element minus the number of calls of `q_delete_mid` that
returned true; `q_size` returns 0 for a null queue and for an empty one, the
sentinel not being counted. -/
theorem q_size_counts (h0 : Heap) (r : Nat) (ops : List Op) (fuel : Nat)
    (hok : ∀ op ∈ ops, op.ok) (hfit : ∀ op ∈ ops, op.fits) (hf : ops.length + 1 ≤ fuel) :
    ∃ h1 head h t, q_new h0 r = some (h1, head) ∧
      run fuel h1 head ⟨0, 0, 0⟩ ops = some (h, t) ∧ t.rem + t.del ≤ t.ins ∧
      (t.ins - t.rem - t.del ≤ INT_MAX →
        q_size fuel h head = some (t.ins - t.rem - t.del)) ∧
      (head ≠ 0 → ∃ ys, Ring h head ys ∧ ys.length = t.ins - t.rem - t.del ∧
        ∀ a ∈ ys, 0 ∈ h.value a) ∧
      q_size fuel h 0 = some 0 ∧
      ∀ h' q, Ring h' q [] → q_size fuel h' q = some 0 := by
  have hempty : ∀ h' q, Ring h' q [] → q_size fuel h' q = some 0 := by
    intro h' q hq
    rw [q_size_spec hq (by simp only [List.length_nil]; omega)]
    simp
  have hnull : ∀ h', q_size fuel h' 0 = some 0 := fun h' => by simp [q_size]
  by_cases hm : r ≠ 0 ∧ h0.live r = false
  · obtain ⟨h1, e1, r1, -⟩ := q_new_ok hm.1 hm.2
    obtain ⟨h, t, ys, e, rr, ht, hl, hz⟩ := @run_ring r fuel ops h1 [] ⟨0, 0, 0⟩ r1 hok hfit
      (by simp only [List.length_nil]; omega) rfl (fun a ha => absurd ha (List.not_mem_nil a))
    have hlen : ys.length = t.ins - t.rem - t.del := by omega
    refine ⟨h1, r, h, t, e1, e, by omega, ?_, fun _ => ⟨ys, rr, hlen, hz⟩, hnull h, hempty⟩
    intro hb
    simp only [List.length_nil] at hl
    rw [q_size_spec rr (by omega), hlen, if_pos hb]
  · refine ⟨h0, 0, h0, ⟨0, 0, 0⟩, q_new_fail hm, run_null fuel h0 ops _, by simp, ?_,
      fun hc => absurd rfl hc, hnull h0, hempty⟩
    intro _
    exact hnull h0

theorem q_size_counts_witness :
    (∀ op ∈ [Op.insert_head [97, 0] 2 true, Op.insert_tail [98, 0] 3 true,
        Op.remove_head (some [9, 9]) 2, Op.swap, Op.insert_tail [99, 0] 4 false,
        Op.delete_mid, Op.sort], op.ok) ∧
    (∀ op ∈ [Op.insert_head [97, 0] 2 true, Op.insert_tail [98, 0] 3 true,
        Op.remove_head (some [9, 9]) 2, Op.swap, Op.insert_tail [99, 0] 4 false,
        Op.delete_mid, Op.sort], op.fits) ∧
    ∃ h1 head h t, q_new zeroHeap 1 = some (h1, head) ∧
      run 8 h1 head ⟨0, 0, 0⟩ [Op.insert_head [97, 0] 2 true, Op.insert_tail [98, 0] 3 true,
        Op.remove_head (some [9, 9]) 2, Op.swap, Op.insert_tail [99, 0] 4 false,
        Op.delete_mid, Op.sort] = some (h, t) ∧ t.rem + t.del ≤ t.ins ∧
      (t.ins - t.rem - t.del ≤ INT_MAX →
        q_size 8 h head = some (t.ins - t.rem - t.del)) ∧
      (head ≠ 0 → ∃ ys, Ring h head ys ∧ ys.length = t.ins - t.rem - t.del ∧
        ∀ a ∈ ys, 0 ∈ h.value a) ∧
      q_size 8 h 0 = some 0 ∧
      ∀ h' q, Ring h' q [] → q_size 8 h' q = some 0 :=
  ⟨by decide, by decide, q_size_counts zeroHeap 1 _ 8 (by decide) (by decide) (by decide)⟩

/-- C19: if forward traversal from the sentinel returns to the sentinel and
the sentinel and every node visited satisfy `n.next.prev = n` and
`n.prev.next = n`, then each of the eight operations (a remove being given no
buffer or a proper one) runs to its end, and afterwards the same holds and
backward traversal visits the elements in exactly the reverse of forward
order. -/
theorem ring_preserved {fuel : Nat} {h : Heap} {head : Nat} {xs : List Nat}
    (hw : WellFormed fuel h head xs) (hf : xs.length + 2 ≤ fuel) (op : Op) (hok : op.ok) :
    ∃ h' ys b, step fuel h head op = some (h', b) ∧ WellFormed fuel h' head ys ∧
      backward fuel h' head = some ys.reverse := by
  obtain ⟨h', ys, b, e, r, hl, -, -⟩ :=
    step_ring op hw.ring hok (show xs.length + 1 ≤ fuel by omega)
  obtain ⟨w, bw⟩ := r.wellFormed (show ys.length + 1 ≤ fuel by omega)
  exact ⟨h', ys, b, e, w, bw⟩

theorem ring_preserved_witness :
    WellFormed 5 demoHeap 1 [2, 3, 4] ∧ [2, 3, 4].length + 2 ≤ 5 ∧ Op.sort.ok ∧
    ∃ h' ys b, step 5 demoHeap 1 Op.sort = some (h', b) ∧ WellFormed 5 h' 1 ys ∧
      backward 5 h' 1 = some ys.reverse :=
  ⟨by decide, by decide, trivial,
    ring_preserved (show WellFormed 5 demoHeap 1 [2, 3, 4] by decide) (by decide) Op.sort trivial⟩

theorem merge_sort_call_short {h : Heap} {p g : Nat} {xs : List Nat} (hc : SortChain h p xs)
    (hl : xs.length ≤ 1) (hg : 1 ≤ g) :
    merge_sort_calls g h p = [] ∧ merge_sort g h p = some (h, p) := by
  obtain ⟨hs, -, hv, -⟩ := hc
  obtain ⟨fuel, rfl⟩ : ∃ fuel, g = fuel + 1 := ⟨g - 1, by omega⟩
  match xs, hs, hv, hl with
  | [], hs, _, _ =>
    simp only [lseg] at hs
    subst hs
    simp [merge_sort_calls, merge_sort]
  | [a], hs, hv, _ =>
    simp only [lseg] at hs
    obtain ⟨rfl, hs⟩ := hs
    have hva : h.valid p := hv p (by simp)
    simp [merge_sort_calls, merge_sort, hva.1, get_next_valid hva, hs]
  | _ :: _ :: _, _, _, hl => simp at hl

theorem merge_sort_call_split {h : Heap} {p g : Nat} {xs : List Nat} (hc : SortChain h p xs)
    (hn2 : 2 ≤ xs.length) (hf : xs.length + 1 ≤ g) :
    ∃ slow z h2 left,
      merge_sort_split (g - 1) h p p = some slow ∧
      xs[xs.length / 2]? = some slow ∧ xs[xs.length / 2 - 1]? = some z ∧ h.prev slow = z ∧
      merge_sort (g - 1) (h.setNext z 0) p = some (h2, left) ∧
      merge_sort_calls g h p = [(g - 1, h.setNext z 0, p), (g - 1, h2, slow)] ∧
      SortChain (h.setNext z 0) p (xs.take (xs.length / 2)) ∧
      SortChain h2 slow (xs.drop (xs.length / 2)) := by
  obtain ⟨hs, hnd, hv, hpc⟩ := hc
  obtain ⟨fuel, rfl⟩ : ∃ fuel, g = fuel + 1 := ⟨g - 1, by omega⟩
  simp only [Nat.add_sub_cancel]
  obtain ⟨a, b, t, hxs⟩ : ∃ a b t, xs = a :: b :: t := by
    match xs, hn2 with
    | a :: b :: t, _ => exact ⟨a, b, t, rfl⟩
  have hva : h.valid a := hv a (by rw [hxs]; simp)
  have hvb : h.valid b := hv b (by rw [hxs]; simp)
  have hpa : p = a := by rw [hxs] at hs; exact hs.1
  have hab : h.next a = b := by rw [hxs] at hs; exact hs.2.1
  obtain ⟨l0, z, hL⟩ : ∃ l0 z, xs.take (xs.length / 2) = l0 ++ [z] :=
    exists_snoc_of_length_pos (by rw [List.length_take]; omega)
  obtain ⟨s, r, hR⟩ : ∃ s r, xs.drop (xs.length / 2) = s :: r :=
    List.exists_cons_of_length_pos (by rw [List.length_drop]; omega)
  have hx : xs = l0 ++ z :: s :: r := by
    rw [← List.take_append_drop (xs.length / 2) xs, hL, hR]; simp
  have hlenL : (l0 ++ [z]).length = xs.length / 2 := by
    rw [← hL, List.length_take]; omega
  have hvs : h.valid s := hv s (by rw [hx]; simp)
  have hvz : h.valid z := hv z (by rw [hx]; simp)
  -- the walk
  have hsplit : merge_sort_split fuel h a a = some s := by
    have := merge_sort_split_spec (h := h) xs xs p p fuel hs hs hv hv (by omega) (by omega)
    rw [hR] at this
    rw [← hpa]; simpa using this
  have hprev : h.prev s = z := by
    rw [hx] at hpc
    have := List.chain'_split.1 hpc
    exact (List.chain'_cons.1 this.2).1
  -- the cut
  have hnd' := hnd
  have hs' := hs
  rw [hx] at hnd' hs'
  obtain ⟨hc1, hc2⟩ := lseg_cut hs' hnd'
  simp only [List.headD_cons] at hc2
  have hdisj : ∀ x, x ∈ l0 ++ [z] → x ∉ s :: r := by
    intro x hx1 hx2
    have : (l0 ++ [z] ++ s :: r).Nodup := by simpa using hnd'
    exact (List.nodup_append.1 this).2.2 hx1 hx2
  have hpcL : List.Chain' (fun a b => h.prev b = a) (l0 ++ [z]) := by
    rw [← hL]; exact hpc.take _
  have hpcR : List.Chain' (fun a b => h.prev b = a) (s :: r) := by
    rw [← hR]; exact hpc.drop _
  have hndL : (l0 ++ [z]).Nodup := by rw [← hL]; exact hnd.sublist (List.take_sublist _ _)
  have hndR : (s :: r).Nodup := by rw [← hR]; exact hnd.sublist (List.drop_sublist _ _)
  have hvL : ∀ x ∈ l0 ++ [z], h.valid x := fun x hx1 => hv x (by rw [hx]; simp at hx1 ⊢; tauto)
  have hvR : ∀ x ∈ s :: r, h.valid x := fun x hx1 => hv x (by rw [hx]; simp at hx1 ⊢; tauto)
  -- the first recursive call
  obtain ⟨h2, l1, -, l3, -, l5, l6⟩ := merge_sort_spec fuel (h.setNext z 0) p (l0 ++ [z])
    hc1 hndL hvL hpcL (by omega)
  simp only [setNext_value, setNext_prev, setNext_live] at l1 l3 l5
  have hs2 : lseg h2 s (s :: r) := by
    rw [lseg_congr (h := h.setNext z 0)]
    · exact hc2
    · intro x hx1
      exact l6 x (fun hx2 => hdisj x hx2 hx1)
  have hl0 : l0.length + 1 = xs.length / 2 := by
    rw [← hlenL, List.length_append, List.length_singleton]
  have e1 : xs[l0.length + 1]? = some s := by
    rw [hx, List.getElem?_append_right (by omega),
      show l0.length + 1 - l0.length = 1 by omega]
    simp
  have e2 : xs[l0.length]? = some z := by
    rw [hx, List.getElem?_append_right (Nat.le_refl _), Nat.sub_self]
    simp
  refine ⟨s, z, h2, _, by rw [hpa]; exact hsplit, by rw [← hl0]; exact e1,
    by rw [← hl0]; exact e2, hprev, l1, ?_, ?_, ?_⟩
  · rw [hpa] at l1 ⊢
    simp only [merge_sort_calls, if_neg hva.1, get_next_valid hva, hab, if_neg hvb.1, hsplit,
      get_prev_valid hvs, hprev, set_next_valid hvz, Option.bind_eq_bind, Option.some_bind,
      Option.pure_def, l1]
  · rw [hL]
    exact ⟨hc1, hndL, hvL, hpcL⟩
  · rw [hR]
    exact ⟨hs2, hndR, fun x hx1 => ⟨(hvR x hx1).1, by rw [l5]; exact (hvR x hx1).2⟩,
      by rw [l3]; exact hpcR⟩

theorem merge_sort_call_returns {h : Heap} {p g : Nat} {xs : List Nat} (hc : SortChain h p xs)
    (hf : xs.length + 1 ≤ g) : ∃ res, merge_sort g h p = some res := by
  obtain ⟨h', e, -⟩ := merge_sort_spec g h p xs hc.1 hc.2.1 hc.2.2.1 hc.2.2.2 hf
  exact ⟨_, e⟩

theorem reached_sortChain {c0 c : Nat × Heap × Nat}
    (h0 : ∃ ys, SortChain c0.2.1 c0.2.2 ys ∧ ys.length + 1 ≤ c0.1) (hr : Reached c0 c) :
    ∃ ys, SortChain c.2.1 c.2.2 ys ∧ ys.length + 1 ≤ c.1 := by
  induction hr with
  | refl => exact h0
  | tail _ hstep ih =>
    obtain ⟨ys, hc, hf⟩ := ih
    by_cases hl : ys.length ≤ 1
    · rw [(merge_sort_call_short hc hl (by omega)).1] at hstep
      simp at hstep
    · obtain ⟨slow, z, h2, left, -, -, -, -, -, e, cl, cr⟩ :=
        merge_sort_call_split hc (by omega) hf
      rw [e] at hstep
      simp only [List.mem_cons, List.mem_singleton, List.not_mem_nil, or_false] at hstep
      rcases hstep with rfl | rfl
      · exact ⟨_, cl, by rw [List.length_take]; omega⟩
      · exact ⟨_, cr, by rw [List.length_drop]; omega⟩

theorem q_sort_call_spec {h : Heap} {head : Nat} {xs : List Nat} (fuel : Nat)
    (hr : Ring h head xs) :
    ∃ h1 first, q_sort_call fuel h head = some (fuel, h1, first) ∧ SortChain h1 first xs := by
  obtain ⟨hnd, hv, hn, hp⟩ := hr
  have hvh : h.valid head := hv head (by simp)
  have hvx : ∀ a ∈ xs, h.valid a := fun a ha => hv a (List.mem_cons_of_mem _ ha)
  have hnd2 := List.nodup_cons.1 hnd
  have hz := getLastD_mem xs head
  have hvz : h.valid (xs.getLastD head) := hv _ hz
  have hn1 := nextSeg_setLast 0 hn hnd
  rw [nextSeg_null] at hn1
  have hpc : List.Chain' (fun a b => h.prev b = a) xs := prevSeg_chain' hp
  have hne : ¬ h.next head = 0 := by
    rw [nextSeg_headD hn]
    cases xs with
    | nil => exact hvh.1
    | cons a l => exact (hvx a (by simp)).1
  have hvh1 : (h.setNext (xs.getLastD head) 0).valid head := hvh
  refine ⟨h.setNext (xs.getLastD head) 0, _, ?_, hn1, hnd2.2, hvx, hpc⟩
  simp only [q_sort_call, if_neg hvh.1, get_next_valid hvh, if_neg hne, get_prev_valid hvh,
    prevSeg_getLastD hp, set_next_valid hvz, Option.bind_eq_bind, Option.some_bind,
    get_next_valid hvh1, Option.pure_def]

/-- C20: `q_sort` on a queue makes one call of `merge_sort`, and every call
of `merge_sort` reached from it gets a null-terminated chain of distinct nodes
whose `prev` links still point to their predecessors in the chain, and
returns. On a chain of at most one node it returns at once without a
recursive call. On a chain of `n >= 2` nodes the slow/fast walk stops at the
node of index `n / 2`, whose `prev` link is the node of index `n / 2 - 1`;
the cut leaves the first `n / 2` nodes as the chain of the first recursive
call and the remaining `n - n / 2` nodes as the chain of the second, and both
chains are non-empty and strictly shorter than `n`. -/
theorem merge_sort_recursion {h : Heap} {head fuel : Nat} {xs : List Nat}
    (hr : Ring h head xs) (hf : xs.length + 1 ≤ fuel) :
    ∃ c0, q_sort_call fuel h head = some c0 ∧
      ∀ g hc p, Reached c0 (g, hc, p) →
        ∃ ys, SortChain hc p ys ∧ (∃ res, merge_sort g hc p = some res) ∧
          (ys.length ≤ 1 → merge_sort_calls g hc p = [] ∧ merge_sort g hc p = some (hc, p)) ∧
          (2 ≤ ys.length → ∃ slow z h2 left,
            merge_sort_split (g - 1) hc p p = some slow ∧
            ys[ys.length / 2]? = some slow ∧ ys[ys.length / 2 - 1]? = some z ∧
            hc.prev slow = z ∧
            merge_sort (g - 1) (hc.setNext z 0) p = some (h2, left) ∧
            merge_sort_calls g hc p = [(g - 1, hc.setNext z 0, p), (g - 1, h2, slow)] ∧
            SortChain (hc.setNext z 0) p (ys.take (ys.length / 2)) ∧
            SortChain h2 slow (ys.drop (ys.length / 2)) ∧
            (ys.take (ys.length / 2)).length = ys.length / 2 ∧
            (ys.drop (ys.length / 2)).length = ys.length - ys.length / 2 ∧
            0 < ys.length / 2 ∧ ys.length / 2 < ys.length ∧
            0 < ys.length - ys.length / 2 ∧ ys.length - ys.length / 2 < ys.length) := by
  obtain ⟨h1, first, e0, c0⟩ := q_sort_call_spec fuel hr
  refine ⟨_, e0, ?_⟩
  intro g hc p hreach
  obtain ⟨ys, cy, hg⟩ := reached_sortChain ⟨xs, c0, hf⟩ hreach
  refine ⟨ys, cy, merge_sort_call_returns cy hg, fun hl => merge_sort_call_short cy hl (by omega),
    ?_⟩
  intro h2
  obtain ⟨slow, z, h2', left, f1, f2, f3, f4, f5, f6, f7, f8⟩ := merge_sort_call_split cy h2 hg
  exact ⟨slow, z, h2', left, f1, f2, f3, f4, f5, f6, f7, f8,
    by rw [List.length_take]; omega, by rw [List.length_drop], by omega, by omega, by omega,
    by omega⟩

theorem merge_sort_recursion_witness :
    Ring demoHeap 1 [2, 3, 4] ∧ [2, 3, 4].length + 1 ≤ 4 ∧
    ∃ c0, q_sort_call 4 demoHeap 1 = some c0 ∧
      ∀ g hc p, Reached c0 (g, hc, p) →
        ∃ ys, SortChain hc p ys ∧ (∃ res, merge_sort g hc p = some res) ∧
          (ys.length ≤ 1 → merge_sort_calls g hc p = [] ∧ merge_sort g hc p = some (hc, p)) ∧
          (2 ≤ ys.length → ∃ slow z h2 left,
            merge_sort_split (g - 1) hc p p = some slow ∧
            ys[ys.length / 2]? = some slow ∧ ys[ys.length / 2 - 1]? = some z ∧
            hc.prev slow = z ∧
            merge_sort (g - 1) (hc.setNext z 0) p = some (h2, left) ∧
            merge_sort_calls g hc p = [(g - 1, hc.setNext z 0, p), (g - 1, h2, slow)] ∧
            SortChain (hc.setNext z 0) p (ys.take (ys.length / 2)) ∧
            SortChain h2 slow (ys.drop (ys.length / 2)) ∧
            (ys.take (ys.length / 2)).length = ys.length / 2 ∧
            (ys.drop (ys.length / 2)).length = ys.length - ys.length / 2 ∧
            0 < ys.length / 2 ∧ ys.length / 2 < ys.length ∧
            0 < ys.length - ys.length / 2 ∧ ys.length - ys.length / 2 < ys.length) :=
  ⟨by decide, by decide,
    merge_sort_recursion (show Ring demoHeap 1 [2, 3, 4] by decide) (by decide)⟩

end Queue
